import Mathlib

/-!
# AXI responder of the gem5 NVDLA model

A shallow embedding of `ext/rtl/model_nvdla/axiResponder.cc`: the Block Store,
the three per-cycle evaluation routines (`eval_ram`, `eval_atomic`,
`eval_timing`) and the completion callback `inflight_resp`, followed by the
properties proved about them.

Conventions of the embedding.
* Machine integers are natural numbers; a conversion to a fixed width that the
  source performs is written as an explicit remainder.
* A member function is a function on the responder `State`; a function that
  can end the process returns `Except Fault State`.
* The two `std::map`s are functions into `Option`: `none` is an absent key,
  `some v` a present one, so that `operator[]` on an absent key is visible.
* `std::queue` and `std::list` are lists, front first.
* The calls made on the wrapper (`addReadReq`, `addWriteReq`) are recorded, in
  order, in the `backend` field.
-/

namespace AXIResponder

/-! ## Data model -/

/-- Constants of `axiResponder.hh`. The header is not part of the sources at
hand, so the constants are parameters of the development. -/
structure Config where
  AXI_WIDTH : Nat
  AXI_BLOCK_SIZE : Nat
  AXI_R_LATENCY : Nat
  AXI_R_DELAY : Nat
deriving DecidableEq, Repr

/-- Width in bits of a Block Store address and of an in-flight table key: the
parameters `uint32_t addr` of `read_ram`, `write_ram`, `inflight_resp` and
`read_variable`, and `unsigned int addr_front` in `eval_timing`. The key type
of the table, the element type of the order queue and the address field of a
write request are declared in the header; they are taken to have this width
too. -/
def ADDR_BITS : Nat := 32

/-- Width in bits of the local `uint64_t addr` of the read-request code. -/
def BUS_ADDR_BITS : Nat := 64

/-- Read beat `axi_r_txn`. The field `rdata` lists the data words written into
the array; it is `[]` for a record that was declared and not filled yet. -/
structure axi_r_txn where
  rvalid : Bool
  rlast : Bool
  rdata : List Nat
  rid : Nat
deriving DecidableEq, Repr

/-- Write address request `axi_aw_txn`; `awaddr` is kept within `ADDR_BITS`
bits. -/
structure axi_aw_txn where
  awid : Nat
  awaddr : Nat
  awlen : Nat
deriving DecidableEq, Repr

/-- Write data beat `axi_w_txn`. -/
structure axi_w_txn where
  wdata : List Nat
  wstrb : Nat
  wlast : Bool
deriving DecidableEq, Repr

/-- Write response `axi_b_txn`. -/
structure axi_b_txn where
  bid : Nat
deriving DecidableEq, Repr

/-- One call made on the wrapper: `addReadReq(sram, timing, addr, bytes)` or
`addWriteReq(sram, timing, addr, data)`. -/
inductive BackendReq where
  | read (sram timing : Bool) (addr bytes : Nat)
  | write (sram timing : Bool) (addr data : Nat)
deriving DecidableEq, Repr

/-- Ways in which a call does not return: `abort()`, a failed `assert`, and an
operation without defined behaviour (the front of an empty container, a read
through a null pointer). -/
inductive Fault where
  | abort
  | assertion
  | undefined
deriving DecidableEq, Repr

/-- The signals of `struct connections` that the accelerator drives and the
responder reads in a cycle. -/
structure Inputs where
  aw_awvalid : Bool
  aw_awid : Nat
  aw_awaddr : Nat
  aw_awlen : Nat
  w_wvalid : Bool
  w_wdata : List Nat
  w_wstrb : Nat
  w_wlast : Bool
  b_bready : Bool
  ar_arvalid : Bool
  ar_arid : Nat
  ar_araddr : Nat
  ar_arlen : Nat
  r_rready : Bool
deriving DecidableEq, Repr

/-- The responder object together with the signals it drives. -/
structure State where
  aw_awready : Bool
  w_wready : Bool
  b_bvalid : Bool
  b_bid : Nat
  ar_arready : Bool
  r_rvalid : Bool
  r_rid : Nat
  r_rlast : Bool
  r_rdata : List Nat
  sram : Bool
  max_req_inflight : Nat
  r_fifo : List axi_r_txn
  r0_fifo : List axi_r_txn
  aw_fifo : List axi_aw_txn
  w_fifo : List axi_w_txn
  b_fifo : List axi_b_txn
  ram : Nat → Option (List Nat)
  inflight_req : Nat → Option (List axi_r_txn)
  inflight_req_order : List Nat
  backend : List BackendReq

/-! ## Construction -/

/-- The sentinel beat written by the constructor and by the read-response code
when the completion queue is empty. -/
def bootSentinel (cfg : Config) : axi_r_txn :=
  { rvalid := false, rid := 0, rlast := false,
    rdata := List.replicate (cfg.AXI_WIDTH / 32) 0xAAAAAAAA }

/-- The sentinel beat pushed `AXI_R_DELAY` times after a read burst. -/
def gapSentinel (cfg : Config) : axi_r_txn :=
  { rvalid := false, rid := 0, rlast := false,
    rdata := List.replicate (cfg.AXI_WIDTH / 32) 0x55555555 }

/-- The constructor `AXIResponder::AXIResponder`. Signals the constructor does
not drive start at zero. -/
def construct (cfg : Config) (sram_ : Bool) (maxReq : Nat) : State :=
  { aw_awready := true
    w_wready := true
    b_bvalid := false
    b_bid := 0
    ar_arready := true
    r_rvalid := false
    r_rid := 0
    r_rlast := false
    r_rdata := []
    sram := sram_
    max_req_inflight := if maxReq < 240 then maxReq else 240
    r_fifo := []
    r0_fifo := List.replicate cfg.AXI_R_LATENCY (bootSentinel cfg)
    aw_fifo := []
    w_fifo := []
    b_fifo := []
    ram := fun _ => none
    inflight_req := fun _ => none
    inflight_req_order := []
    backend := [] }

/-! ## Block Store -/

/-- The call `std::vector::resize(n, x)`. -/
def vresize (v : List Nat) (n x : Nat) : List Nat :=
  v.take n ++ List.replicate (n - v.length) x

/-- First statement of `read_ram`, `write_ram` and `read`:
`ram[addr / AXI_BLOCK_SIZE].resize(AXI_BLOCK_SIZE, 0)`; returns the block. -/
def touchBlock (cfg : Config) (ram : Nat → Option (List Nat)) (a : Nat) : List Nat :=
  vresize ((ram (a / cfg.AXI_BLOCK_SIZE)).getD []) cfg.AXI_BLOCK_SIZE 0

/-- The method `AXIResponder::read_ram`: the byte read and the store with the block
materialised. -/
def read_ram (cfg : Config) (addr : Nat) (s : State) : Nat × State :=
  let a := addr % 2 ^ ADDR_BITS
  let blk := touchBlock cfg s.ram a
  (blk.getD (a % cfg.AXI_BLOCK_SIZE) 0,
   { s with ram := fun k => if k = a / cfg.AXI_BLOCK_SIZE then some blk else s.ram k })

/-- The method `AXIResponder::write_ram`. -/
def write_ram (cfg : Config) (addr data : Nat) (s : State) : State :=
  let a := addr % 2 ^ ADDR_BITS
  let blk := touchBlock cfg s.ram a
  { s with ram := fun k =>
      if k = a / cfg.AXI_BLOCK_SIZE then some (blk.set (a % cfg.AXI_BLOCK_SIZE) (data % 256))
      else s.ram k }

/-- The method `AXIResponder::write`: the Block Store write followed by the backend
write request. -/
def write (cfg : Config) (addr data : Nat) (timing : Bool) (s : State) : State :=
  let s1 := write_ram cfg addr data s
  { s1 with backend := s1.backend ++
      [BackendReq.write s1.sram timing (addr % 2 ^ ADDR_BITS) (data % 256)] }

/-- The method `AXIResponder::read_variable`: issues the backend read request and returns
a null pointer (`none`). -/
def read_variable (addr : Nat) (timing : Bool) (bytes : Nat) (s : State) :
    Option (Nat → Nat) × State :=
  (none, { s with backend := s.backend ++
      [BackendReq.read s.sram timing (addr % 2 ^ ADDR_BITS) bytes] })

/-- The method `AXIResponder::getRequestsOnFlight`. -/
def getRequestsOnFlight (s : State) : Nat :=
  s.inflight_req_order.length % 2 ^ 32

/-- The byte a store holds at an address: the value `read_ram` returns. -/
def byteAt (cfg : Config) (s : State) (addr : Nat) : Nat :=
  (read_ram cfg addr s).1

/-! ## Phases shared by the three evaluation routines -/

/-- The mask `~(uint64_t)(AXI_WIDTH / 8 - 1)`. -/
def alignMask (cfg : Config) : Nat :=
  2 ^ BUS_ADDR_BITS - 1 -
    ((((cfg.AXI_WIDTH / 8 : Nat) : Int) - 1) % (2 ^ BUS_ADDR_BITS : Int)).toNat

/-- The expression `x & ~(uint64_t)(AXI_WIDTH / 8 - 1)` on a bus address. -/
def alignAddr (cfg : Config) (x : Nat) : Nat :=
  (x % 2 ^ BUS_ADDR_BITS) &&& alignMask cfg

/-- The block "write request": a write-address handshake pushes the request
and lowers `aw_awready`, any other cycle raises it. -/
def writeRequest (cfg : Config) (i : Inputs) (s : State) : State :=
  if i.aw_awvalid && s.aw_awready then
    { s with
      aw_fifo := s.aw_fifo ++
        [{ awid := i.aw_awid,
           awaddr := alignAddr cfg i.aw_awaddr % 2 ^ ADDR_BITS,
           awlen := i.aw_awlen }]
      aw_awready := false }
  else
    { s with aw_awready := true }

/-- The block "write data": a valid data beat is pushed on `w_fifo`. -/
def writeData (cfg : Config) (i : Inputs) (s : State) : State :=
  if i.w_wvalid then
    { s with
      w_fifo := s.w_fifo ++
        [{ wdata := (List.range (cfg.AXI_WIDTH / 32)).map (fun k => i.w_wdata.getD k 0),
           wstrb := i.w_wstrb,
           wlast := i.w_wlast }] }
  else s

/-- The loop `do { body; addr += AXI_WIDTH / 8; } while (len--)` with the
8-bit counter `len`: the body runs with the current `len` and `addr`, and the
loop goes on exactly when the value of `len` before the decrement is not 0. -/
def burstLoop {σ : Type} (inc : Nat) (body : Nat → Nat → σ → Except Fault σ) :
    Nat → Nat → σ → Except Fault σ
  | 0, addr, s => body 0 addr s
  | len + 1, addr, s =>
    match body (len + 1) addr s with
    | .ok s1 => burstLoop inc body len ((addr + inc) % 2 ^ BUS_ADDR_BITS) s1
    | .error f => .error f

/-- Strobe test of the write loop: `(wtxn.wstrb >> i) & 1`. -/
def strobeSet (w : axi_w_txn) (i : Nat) : Bool :=
  (w.wstrb >>> i) &&& 1 != 0

/-- Byte `i` of a write beat: `(wtxn.wdata[i / 4] >> ((i % 4) * 8)) & 0xFF`. -/
def strobeByte (w : axi_w_txn) (i : Nat) : Nat :=
  ((w.wdata.getD (i / 4) 0) >>> ((i % 4) * 8)) &&& 0xFF

/-- The loop over the `AXI_WIDTH / 8` bytes of a write beat; `wr` is
`write_ram` in `eval_ram` and `write(.., .., false)` in the other two. -/
def applyStrobes (cfg : Config) (wr : Nat → Nat → State → State)
    (aw : axi_aw_txn) (w : axi_w_txn) (s : State) : State :=
  (List.range (cfg.AXI_WIDTH / 8)).foldl
    (fun st i => if strobeSet w i then wr (aw.awaddr + i) (strobeByte w i) st else st) s

/-- The block "now handle the write FIFOs": pairs the head data beat with the
head address request. The response id is the one of the request that
`awtxn` referred to when it was popped. -/
def pairWrite (cfg : Config) (wr : Nat → Nat → State → State) (s : State) :
    Except Fault State :=
  match s.aw_fifo, s.w_fifo with
  | aw :: aws, w :: ws =>
    if w.wlast != (aw.awlen == 0) then .error Fault.abort
    else
      let s1 := applyStrobes cfg wr aw w s
      let s2 : State :=
        if w.wlast then
          { s1 with aw_fifo := aws, b_fifo := s1.b_fifo ++ [{ bid := aw.awid }] }
        else
          { s1 with
            aw_fifo := { aw with awlen := aw.awlen - 1,
                                 awaddr := (aw.awaddr + cfg.AXI_WIDTH / 8) % 2 ^ ADDR_BITS }
                       :: aws }
      .ok { s2 with w_fifo := ws }
  | _, _ => .ok s

/-- The block "read response": one beat moves from `r_fifo` (or a sentinel is
made) into `r0_fifo`; with `r_rready` the front of `r0_fifo` is presented. -/
def readResponse (cfg : Config) (i : Inputs) (s : State) : State :=
  let s1 : State :=
    match s.r_fifo with
    | t :: ts => { s with r0_fifo := s.r0_fifo ++ [t], r_fifo := ts }
    | [] => { s with r0_fifo := s.r0_fifo ++ [bootSentinel cfg] }
  let s2 : State := { s1 with r_rvalid := false }
  match i.r_rready, s2.r0_fifo with
  | true, t :: ts =>
    { s2 with r_rvalid := t.rvalid, r_rid := t.rid, r_rlast := t.rlast,
              r_rdata := t.rdata, r0_fifo := ts }
  | _, _ => s2

/-- The block "write response". -/
def writeResponse (i : Inputs) (s : State) : State :=
  let s1 : State := { s with b_bvalid := false }
  match i.b_bready, s1.b_fifo with
  | true, b :: bs => { s1 with b_bvalid := true, b_bid := b.bid, b_fifo := bs }
  | _, _ => s1

/-! ## Functional mode: `eval_ram` -/

/-- One data word of a read beat: four `read_ram` calls, little-endian. -/
def readWord (cfg : Config) (a : Nat) (s : State) : Nat × State :=
  let r0 := read_ram cfg a s
  let r1 := read_ram cfg (a + 1) r0.2
  let r2 := read_ram cfg (a + 2) r1.2
  let r3 := read_ram cfg (a + 3) r2.2
  ((r0.1 + (r1.1 <<< 8) + (r2.1 <<< 16) + (r3.1 <<< 24)) % 2 ^ 32, r3.2)

/-- The loop `for (i = 0; i < AXI_WIDTH / 32; i++)` of a read beat, with `n`
words left to read and `i` the current index. -/
def readWords (cfg : Config) (addr : Nat) : Nat → Nat → State → List Nat × State
  | 0, _, s => ([], s)
  | n + 1, i, s =>
    let r := readWord cfg (addr + i * 4) s
    let rest := readWords cfg addr n (i + 1) r.2
    (r.1 :: rest.1, rest.2)

/-- Body of the read burst loop of `eval_ram`. -/
def ramBeat (cfg : Config) (arid len addr : Nat) (s : State) : State :=
  let r := readWords cfg addr (cfg.AXI_WIDTH / 32) 0 s
  { r.2 with
    r_fifo := r.2.r_fifo ++
      [{ rvalid := true, rlast := (len == 0), rid := arid, rdata := r.1 }] }

/-- The block "read request" of `eval_ram`. -/
def readRequest_ram (cfg : Config) (i : Inputs) (s : State) : Except Fault State :=
  if i.ar_arvalid && s.ar_arready then
    match burstLoop (cfg.AXI_WIDTH / 8)
        (fun len addr st => .ok (ramBeat cfg i.ar_arid len addr st))
        (i.ar_arlen % 256) (alignAddr cfg i.ar_araddr) s with
    | .ok s1 =>
      .ok { s1 with
            r_fifo := s1.r_fifo ++ List.replicate cfg.AXI_R_DELAY (gapSentinel cfg)
            ar_arready := false }
    | .error f => .error f
  else
    .ok { s with ar_arready := true }

/-- The method `AXIResponder::eval_ram`. -/
def eval_ram (cfg : Config) (i : Inputs) (s : State) : Except Fault State :=
  match readRequest_ram cfg i (writeData cfg i (writeRequest cfg i s)) with
  | .ok s1 =>
    match pairWrite cfg (write_ram cfg) s1 with
    | .ok s2 => .ok (writeResponse i (readResponse cfg i s2))
    | .error f => .error f
  | .error f => .error f

/-! ## Atomic mode: `eval_atomic` -/

/-- The method `AXIResponder::inflight_resp_atomic`: copies `AXI_WIDTH / 32` words read
through `data` into the beat and marks it valid. Reading through the null
pointer is undefined. -/
def inflight_resp_atomic (cfg : Config) (_addr : Nat) (data : Option (Nat → Nat))
    (txn : axi_r_txn) : Except Fault axi_r_txn :=
  match data with
  | some p =>
    .ok { txn with rdata := (List.range (cfg.AXI_WIDTH / 32)).map p, rvalid := true }
  | none =>
    if cfg.AXI_WIDTH / 32 = 0 then .ok { txn with rvalid := true }
    else .error Fault.undefined

/-- Body of the read burst loop of `eval_atomic`. -/
def atomicBeat (cfg : Config) (arid len addr : Nat) (s : State) : Except Fault State :=
  let txn : axi_r_txn := { rvalid := true, rlast := (len == 0), rid := arid, rdata := [] }
  let r := read_variable addr false (512 / 8) s
  match inflight_resp_atomic cfg addr r.1 txn with
  | .ok t => .ok { r.2 with r_fifo := r.2.r_fifo ++ [t] }
  | .error f => .error f

/-- The block "read request" of `eval_atomic`. -/
def readRequest_atomic (cfg : Config) (i : Inputs) (s : State) : Except Fault State :=
  if i.ar_arvalid && s.ar_arready then
    match burstLoop (cfg.AXI_WIDTH / 8) (atomicBeat cfg i.ar_arid)
        (i.ar_arlen % 256) (alignAddr cfg i.ar_araddr) s with
    | .ok s1 =>
      .ok { s1 with
            r_fifo := s1.r_fifo ++ List.replicate cfg.AXI_R_DELAY (gapSentinel cfg)
            ar_arready := false }
    | .error f => .error f
  else
    .ok { s with ar_arready := true }

/-- The method `AXIResponder::eval_atomic`. -/
def eval_atomic (cfg : Config) (i : Inputs) (s : State) : Except Fault State :=
  match readRequest_atomic cfg i (writeData cfg i (writeRequest cfg i s)) with
  | .ok s1 =>
    match pairWrite cfg (fun a d => write cfg a d false) s1 with
    | .ok s2 => .ok (writeResponse i (readResponse cfg i s2))
    | .error f => .error f
  | .error f => .error f

/-! ## Timing mode: `eval_timing` and `inflight_resp` -/

/-- Body of the read burst loop of `eval_timing`: a placeholder is appended to
the pending list of the beat address, the address is pushed on the order
queue and the backend read is issued. -/
def timingBeat (arid len addr : Nat) (s : State) : State :=
  let key := addr % 2 ^ ADDR_BITS
  let txn : axi_r_txn := { rvalid := false, rlast := (len == 0), rid := arid, rdata := [] }
  let s1 : State :=
    { s with
      inflight_req := fun k =>
        if k = key then some ((s.inflight_req key).getD [] ++ [txn]) else s.inflight_req k
      inflight_req_order := s.inflight_req_order ++ [key] }
  (read_variable addr true (512 / 8) s1).2

/-- The `else` branch of the block "read request" of `eval_timing`: the head
of the order queue is drained when its front placeholder is valid, otherwise
`ar_arready` follows the window test. -/
def drainHead (s : State) : Except Fault State :=
  match s.inflight_req_order with
  | [] => .error Fault.undefined
  | addr_front :: rest =>
    match (s.inflight_req addr_front).getD [] with
    | [] => .error Fault.undefined
    | t :: ts =>
      if t.rvalid then
        .ok { s with
              r_fifo := s.r_fifo ++ [t]
              inflight_req := fun k =>
                if k = addr_front then (if ts.isEmpty then none else some ts)
                else s.inflight_req k
              inflight_req_order := rest
              ar_arready := false }
      else if s.inflight_req_order.length ≤ s.max_req_inflight then
        .ok { s with ar_arready := true }
      else
        .ok { s with ar_arready := false }

/-- The block "read request" of `eval_timing`. -/
def readRequest_timing (cfg : Config) (i : Inputs) (s : State) : Except Fault State :=
  if i.ar_arvalid && s.ar_arready then
    match burstLoop (cfg.AXI_WIDTH / 8)
        (fun len addr st => .ok (timingBeat i.ar_arid len addr st))
        (i.ar_arlen % 256) (alignAddr cfg i.ar_araddr) s with
    | .ok s1 => .ok { s1 with ar_arready := false }
    | .error f => .error f
  else
    drainHead s

/-- The method `AXIResponder::eval_timing`. -/
def eval_timing (cfg : Config) (i : Inputs) (s : State) : Except Fault State :=
  match readRequest_timing cfg i (writeData cfg i (writeRequest cfg i s)) with
  | .ok s1 =>
    match pairWrite cfg (fun a d => write cfg a d false) s1 with
    | .ok s2 => .ok (writeResponse i (readResponse cfg i s2))
    | .error f => .error f
  | .error f => .error f

/-- The iterator loop and the assignments of `inflight_resp` on one pending
list: the first placeholder that is not valid receives the data and becomes
valid; `none` when the iterator reaches the end. -/
def fillFirstInvalid (ws : List Nat) : List axi_r_txn → Option (List axi_r_txn)
  | [] => none
  | t :: ts =>
    if t.rvalid then (fillFirstInvalid ws ts).map (fun r => t :: r)
    else some ({ t with rdata := ws, rvalid := true } :: ts)

/-- The method `AXIResponder::inflight_resp`; `data k` is the word `ptr[k]`. -/
def inflight_resp (cfg : Config) (addr : Nat) (data : Nat → Nat) (s : State) :
    Except Fault State :=
  let a := addr % 2 ^ ADDR_BITS
  match fillFirstInvalid ((List.range (cfg.AXI_WIDTH / 32)).map data)
      ((s.inflight_req a).getD []) with
  | none => .error Fault.assertion
  | some l => .ok { s with inflight_req := fun k => if k = a then some l else s.inflight_req k }

/-! ## Runs -/

/-- The evaluation routine the owner calls every cycle. -/
inductive Mode where
  | functional
  | atomic
  | timing
deriving DecidableEq, Repr

/-- The per-cycle routine of a mode. -/
def eval (cfg : Config) : Mode → Inputs → State → Except Fault State
  | Mode.functional => eval_ram cfg
  | Mode.atomic => eval_atomic cfg
  | Mode.timing => eval_timing cfg

/-- What the owner does to a responder: one evaluation per cycle, and in
between the completion callback. -/
inductive Event where
  | cycle (i : Inputs)
  | completion (addr : Nat) (data : Nat → Nat)

/-- One event. -/
def step (cfg : Config) (m : Mode) : Event → State → Except Fault State
  | Event.cycle i, s => eval cfg m i s
  | Event.completion addr data, s => inflight_resp cfg addr data s

/-- A sequence of events, stopping at the first fault. -/
def run (cfg : Config) (m : Mode) : List Event → State → Except Fault State
  | [], s => .ok s
  | e :: es, s =>
    match step cfg m e s with
    | .ok s1 => run cfg m es s1
    | .error f => .error f

/-! ## Auxiliary definitions for the statements -/

/-- The byte a map of blocks holds at an address, without materialising the
block: an absent block and a short block read as 0. -/
def peek (cfg : Config) (ram : Nat → Option (List Nat)) (a : Nat) : Nat :=
  ((ram (a / cfg.AXI_BLOCK_SIZE)).getD []).getD (a % cfg.AXI_BLOCK_SIZE) 0

/-- A configuration for the examples: a 512-bit bus, 4096-byte blocks, a
warm-up depth of 32 beats and no post-burst gap. -/
def wideConfig : Config :=
  { AXI_WIDTH := 512, AXI_BLOCK_SIZE := 4096, AXI_R_LATENCY := 32, AXI_R_DELAY := 0 }

/-- A small configuration for the examples: a 64-bit bus, 16-byte blocks, a
warm-up depth of 2 beats and a post-burst gap of 1 beat. -/
def smallConfig : Config :=
  { AXI_WIDTH := 64, AXI_BLOCK_SIZE := 16, AXI_R_LATENCY := 2, AXI_R_DELAY := 1 }

/-- A cycle in which the accelerator drives nothing. -/
def idleInputs : Inputs :=
  { aw_awvalid := false, aw_awid := 0, aw_awaddr := 0, aw_awlen := 0,
    w_wvalid := false, w_wdata := [], w_wstrb := 0, w_wlast := false,
    b_bready := false, ar_arvalid := false, ar_arid := 0, ar_araddr := 0,
    ar_arlen := 0, r_rready := false }

/-- The state in which the write pairing of a cycle finds the two write
queues: the read-request block does not touch them. -/
def prePair (cfg : Config) (i : Inputs) (s : State) : State :=
  writeData cfg i (writeRequest cfg i s)

/-- The read-request block of a mode. -/
def readRequest (cfg : Config) : Mode → Inputs → State → Except Fault State
  | Mode.functional => readRequest_ram cfg
  | Mode.atomic => readRequest_atomic cfg
  | Mode.timing => readRequest_timing cfg

/-- The byte writer of the pairing loop of a mode. -/
def writer (cfg : Config) : Mode → Nat → Nat → State → State
  | Mode.functional => write_ram cfg
  | Mode.atomic => fun a d => write cfg a d false
  | Mode.timing => fun a d => write cfg a d false

/-- A byte writer changes the store like `write_ram` and otherwise only the
backend record. -/
def WriterOK (cfg : Config) (wr : Nat → Nat → State → State) : Prop :=
  ∀ x d s, ∃ b, wr x d s = { s with ram := (write_ram cfg x d s).ram, backend := b }

/-- The second state differs from the first at most in which blocks of the
store are materialised: every field but the store is the same, and so is every
byte of the store (for a positive block size). -/
def StoreKept (cfg : Config) (s s' : State) : Prop :=
  s' = { s with ram := s'.ram } ∧
    (0 < cfg.AXI_BLOCK_SIZE → ∀ a, peek cfg s'.ram a = peek cfg s.ram a)

/-- A cycle carrying a write-address request for address 16 (id 1, one beat)
together with its data beat, whose strobe selects bytes 0 and 2. -/
def strobedWrite : Inputs :=
  { idleInputs with
    aw_awvalid := true, aw_awid := 1, aw_awaddr := 16, aw_awlen := 0,
    w_wvalid := true, w_wdata := [0x44332211, 0x88776655], w_wstrb := 5, w_wlast := true }

/-- The test of the write pairing: both write queues are non-empty and the
head data beat's `wlast` differs from `awlen == 0` of the head request. -/
def pairMismatch (s : State) : Bool :=
  match s.aw_fifo, s.w_fifo with
  | aw :: _, w :: _ => w.wlast != (aw.awlen == 0)
  | _, _ => false

/-! ## Auxiliary definitions for the in-flight table -/

/-- The table after `inflight_req[key].push_back(txn)`. -/
def register (tbl : Nat → Option (List axi_r_txn)) (key : Nat) (txn : axi_r_txn) :
    Nat → Option (List axi_r_txn) :=
  fun k => if k = key then some ((tbl key).getD [] ++ [txn]) else tbl k

/-- The beats held by the table in the order in which the order queue releases
them: each address of the queue stands for the next beat, not yet counted, of
its pending list. -/
def pendingView (tbl : Nat → Option (List axi_r_txn)) : List Nat → List (Nat × axi_r_txn)
  | [] => []
  | a :: rest =>
    match (tbl a).getD [] with
    | [] => pendingView tbl rest
    | t :: ts => (a, t) :: pendingView (fun k => if k = a then some ts else tbl k) rest

/-- What identifies a beat of the table from its registration to its release:
its address, its id and its last flag. -/
def beatIdent (p : Nat × axi_r_txn) : Nat × Nat × Bool :=
  (p.1, p.2.rid, p.2.rlast)

/-- Order queue and pending lists agree: every address occurs in the queue as
often as its pending list is long, and no address is mapped to an empty list. -/
def Consistent (tbl : Nat → Option (List axi_r_txn)) (order : List Nat) : Prop :=
  ∀ a, order.count a = ((tbl a).getD []).length ∧ tbl a ≠ some []

/-- The `len + 1` pairs of counter value and beat address that the burst loop
runs its body with, in order. -/
def burstBeats (inc : Nat) : Nat → Nat → List (Nat × Nat)
  | 0, addr => [(0, addr)]
  | len + 1, addr => (len + 1, addr) :: burstBeats inc len ((addr + inc) % 2 ^ BUS_ADDR_BITS)

/-- The placeholder that `eval_timing` registers for a beat. -/
def placeholder (arid len : Nat) : axi_r_txn :=
  { rvalid := false, rlast := (len == 0), rid := arid, rdata := [] }

/-- The placeholders requested by the read-address signals of a cycle, in
arrival order: table key, id and last flag of each; none without a handshake. -/
def registeredIn (cfg : Config) (i : Inputs) (s : State) : List (Nat × Nat × Bool) :=
  if i.ar_arvalid && s.ar_arready then
    (List.range (i.ar_arlen % 256 + 1)).map (fun k =>
      ((alignAddr cfg i.ar_araddr + k * (cfg.AXI_WIDTH / 8)) % 2 ^ BUS_ADDR_BITS % 2 ^ ADDR_BITS,
       i.ar_arid, k == i.ar_arlen % 256))
  else []

/-- The beats that the read-request block of `eval_timing` appends to the
completion queue in a cycle, each with the address at the head of the order
queue it was taken from. -/
def drainedIn (cfg : Config) (i : Inputs) (s : State) : List (Nat × axi_r_txn) :=
  match s.inflight_req_order.head?, readRequest_timing cfg i (prePair cfg i s) with
  | some a, .ok s1 => (s1.r_fifo.drop s.r_fifo.length).map (fun t => (a, t))
  | _, _ => []

/-- History of a timing-mode run up to its first fault: the placeholders
registered and the beats drained, each in the order of the events. -/
def timingHistory (cfg : Config) :
    List Event → State → List (Nat × Nat × Bool) × List (Nat × axi_r_txn)
  | [], _ => ([], [])
  | Event.cycle i :: es, s =>
    match eval_timing cfg i s with
    | .ok s1 =>
      (registeredIn cfg i s ++ (timingHistory cfg es s1).1,
       drainedIn cfg i s ++ (timingHistory cfg es s1).2)
    | .error _ => ([], [])
  | Event.completion addr data :: es, s =>
    match inflight_resp cfg addr data s with
    | .ok s1 => timingHistory cfg es s1
    | .error _ => ([], [])

/-- A cycle with a read-address request and `r_rready`. -/
def readInputs (addr id len : Nat) : Inputs :=
  { idleInputs with
    ar_arvalid := true, ar_araddr := addr, ar_arid := id, ar_arlen := len, r_rready := true }

/-- The window invariant of timing mode, for a configured window `M`: the
window field is `M`, the order queue holds at most `M + 256` addresses, and at
most `M` whenever `ar_arready` is asserted. -/
def WindowInv (M : Nat) (s : State) : Prop :=
  s.max_req_inflight = M ∧ s.inflight_req_order.length ≤ M + 256 ∧
    (s.ar_arready = true → s.inflight_req_order.length ≤ M)

/-- The state of a run, or the given state when the run faults. -/
def stateOr (r : Except Fault State) (d : State) : State :=
  match r with
  | .ok s => s
  | .error _ => d

/-- A timing-mode responder after two single-beat reads of address `0x40`, of
which the first has been completed. -/
def twoPending : State :=
  stateOr (run wideConfig Mode.timing
    [Event.cycle (readInputs 0x40 1 0), Event.cycle idleInputs,
     Event.cycle (readInputs 0x40 2 0), Event.completion 0x40 (fun k => k + 1)]
    (construct wideConfig false 8)) (construct wideConfig false 8)

/-- A single-beat read, an idle cycle, and a four-beat read burst. -/
def burstAfterRead : List Event :=
  [Event.cycle (readInputs 0x1000 1 0), Event.cycle idleInputs,
   Event.cycle (readInputs 0x2000 2 3)]

/-- Reads of `0x1000` then `0x2000`, completed in the opposite order, and the
cycles that drain them. -/
def reorderedRun : List Event :=
  [Event.cycle (readInputs 0x1000 1 0), Event.cycle idleInputs,
   Event.cycle (readInputs 0x2000 2 0), Event.completion 0x2000 (fun k => k + 7),
   Event.cycle idleInputs, Event.completion 0x1000 (fun k => k),
   Event.cycle idleInputs]

/-! ## Auxiliary definitions for the read path -/

/-- The data words that the read loop of `eval_ram` assembles for the beat at
`addr` from the store of `s`. -/
def beatData (cfg : Config) (s : State) (addr : Nat) : List Nat :=
  (readWords cfg addr (cfg.AXI_WIDTH / 32) 0 s).1

/-- The little-endian word that four consecutive bytes of a map of blocks
form, as `readWord` computes it. -/
def wordPeek (cfg : Config) (ram : Nat → Option (List Nat)) (x : Nat) : Nat :=
  (peek cfg ram (x % 2 ^ ADDR_BITS) + (peek cfg ram ((x + 1) % 2 ^ ADDR_BITS) <<< 8) +
    (peek cfg ram ((x + 2) % 2 ^ ADDR_BITS) <<< 16) +
    (peek cfg ram ((x + 3) % 2 ^ ADDR_BITS) <<< 24)) % 2 ^ 32

/-- The beat on the read-response signals after a cycle with `r_rready`; no
beat is presented in a cycle without. -/
def presentedIn (i : Inputs) (s' : State) : List axi_r_txn :=
  if i.r_rready then
    [{ rvalid := s'.r_rvalid, rid := s'.r_rid, rlast := s'.r_rlast, rdata := s'.r_rdata }]
  else []

/-- The beats presented on the read-response channel during a run, up to its
first fault. -/
def presentedLog (cfg : Config) (m : Mode) : List Event → State → List axi_r_txn
  | [], _ => []
  | Event.cycle i :: es, s =>
    match eval cfg m i s with
    | .ok s1 => presentedIn i s1 ++ presentedLog cfg m es s1
    | .error _ => []
  | Event.completion addr data :: es, s =>
    match inflight_resp cfg addr data s with
    | .ok s1 => presentedLog cfg m es s1
    | .error _ => []

/-- The valid beat that `eval_ram` pushes for beat `k` of a burst of `len + 1`
beats of id `arid` whose first beat address is `A`. -/
def ramBurstBeat (cfg : Config) (s : State) (arid len A k : Nat) : axi_r_txn :=
  { rvalid := true, rlast := (k == len), rid := arid,
    rdata := beatData cfg s ((A + k * (cfg.AXI_WIDTH / 8)) % 2 ^ BUS_ADDR_BITS) }

/-- The table key of beat `k` of a burst whose first beat address is `A`. -/
def beatKey (cfg : Config) (A k : Nat) : Nat :=
  (A + k * (cfg.AXI_WIDTH / 8)) % 2 ^ BUS_ADDR_BITS % 2 ^ ADDR_BITS

/-- A cycle carrying a write-address request for two beats (`awlen = 1`)
together with a data beat that is already marked last. -/
def shortBurstWrite : Inputs :=
  { idleInputs with
    aw_awvalid := true, aw_awid := 1, aw_awaddr := 16, aw_awlen := 1,
    w_wvalid := true, w_wdata := [0x44332211, 0x88776655], w_wstrb := 255, w_wlast := true }

/-! ## Auxiliary definitions for the timing-mode examples -/

/-- A timing-mode responder with a window of 1 after one single-beat read of
address `0x1000` that has not been completed. -/
def onePending : State :=
  stateOr (run wideConfig Mode.timing [Event.cycle (readInputs 0x1000 1 0)]
    (construct wideConfig false 1)) (construct wideConfig false 1)

/-- A timing-mode responder after one single-beat read of address `0x1000`
that has been completed and not drained yet. -/
def oneCompleted : State :=
  stateOr (run wideConfig Mode.timing
    [Event.cycle (readInputs 0x1000 1 0), Event.completion 0x1000 (fun k => k + 3)]
    (construct wideConfig false 8)) (construct wideConfig false 8)

/-- A valid single beat of id `id` whose sixteen data words are `c`, `c + 1`,
and so on. -/
def placeholderFilled (id c : Nat) : axi_r_txn :=
  { rvalid := true, rlast := true, rid := id, rdata := (List.range 16).map (fun k => k + c) }

/-- A cycle in which the accelerator drives nothing but `r_rready`. -/
def readyIdle : Inputs :=
  { idleInputs with r_rready := true }

/-- Single-beat reads of `0x10` (id 1) and `0x20` (id 2) in timing mode, both
completed, and the two cycles that drain them; `r_rready` is held high. -/
def backToBackReads : List Event :=
  [Event.cycle (readInputs 0x10 1 0), Event.cycle readyIdle,
   Event.cycle (readInputs 0x20 2 0), Event.completion 0x10 (fun k => k + 1),
   Event.completion 0x20 (fun k => k + 5), Event.cycle readyIdle, Event.cycle readyIdle]

/-! ## Auxiliary definitions for the write path -/

/-- The write pairing block run `k` times in a row, stopping at `abort()`. -/
def pairSteps (cfg : Config) (wr : Nat → Nat → State → State) : Nat → State → Except Fault State
  | 0, s => .ok s
  | k + 1, s =>
    match pairSteps cfg wr k s with
    | .ok sk => pairWrite cfg wr sk
    | .error f => .error f

/-- A responder whose write queues hold a three-beat request for address
`0x20` (id 7) and its three data beats, the last of them marked last. -/
def queuedBurst : State :=
  { construct smallConfig false 8 with
    aw_fifo := [{ awid := 7, awaddr := 0x20, awlen := 2 }]
    w_fifo := [{ wdata := [1, 2], wstrb := 255, wlast := false },
               { wdata := [3, 4], wstrb := 255, wlast := false },
               { wdata := [5, 6], wstrb := 255, wlast := true }] }

/-- Test for a backend read request. -/
def isRead : BackendReq → Bool
  | BackendReq.read _ _ _ _ => true
  | BackendReq.write _ _ _ _ => false

/-- The backend write requests of the strobe-enabled bytes of a beat `w`
paired with the request `aw`, in ascending byte order, as `write` issues
them for a responder on port `sram`. -/
def strobeWrites (cfg : Config) (sram : Bool) (aw : axi_aw_txn) (w : axi_w_txn) :
    List BackendReq :=
  ((List.range (cfg.AXI_WIDTH / 8)).filter (strobeSet w)).map (fun k =>
    BackendReq.write sram false ((aw.awaddr + k) % 2 ^ ADDR_BITS) (strobeByte w k))

/-- The backend write requests of the beat that the pairing block finds at the
heads of the write queues of `p`; none when a queue is empty. -/
def pairedWrites (cfg : Config) (sram : Bool) (p : State) : List BackendReq :=
  match p.aw_fifo, p.w_fifo with
  | aw :: _, w :: _ => strobeWrites cfg sram aw w
  | _, _ => []

/-! ## Auxiliary definitions for the history of the Block Store -/

/-- The method `AXIResponder::read`: materialises the block of the address, issues a
one-byte backend read request and returns 0. -/
def read (cfg : Config) (addr : Nat) (s : State) : Nat × State :=
  let a := addr % 2 ^ ADDR_BITS
  let blk := touchBlock cfg s.ram a
  (0, { s with
        ram := fun k => if k = a / cfg.AXI_BLOCK_SIZE then some blk else s.ram k
        backend := s.backend ++ [BackendReq.read s.sram false a 1] })

/-- A call of one of the four methods that touch the Block Store. -/
inductive StoreOp where
  | read_ram (addr : Nat)
  | write_ram (addr data : Nat)
  | write (addr data : Nat) (timing : Bool)
  | read (addr : Nat)
deriving DecidableEq, Repr

/-- The responder after a call. -/
def StoreOp.apply (cfg : Config) : StoreOp → State → State
  | StoreOp.read_ram addr, s => (AXIResponder.read_ram cfg addr s).2
  | StoreOp.write_ram addr data, s => AXIResponder.write_ram cfg addr data s
  | StoreOp.write addr data timing, s => AXIResponder.write cfg addr data timing s
  | StoreOp.read addr, s => (AXIResponder.read cfg addr s).2

/-- The address a call writes, as the 32-bit parameter receives it; `none`
for the two reading methods. -/
def StoreOp.target : StoreOp → Option Nat
  | StoreOp.read_ram _ => none
  | StoreOp.write_ram addr _ => some (addr % 2 ^ ADDR_BITS)
  | StoreOp.write addr _ _ => some (addr % 2 ^ ADDR_BITS)
  | StoreOp.read _ => none

/-- A sequence of calls, first call first. -/
def applyOps (cfg : Config) (ops : List StoreOp) (s : State) : State :=
  ops.foldl (fun st op => op.apply cfg st) s

/-! ## Address translation of `rtlNVDLA` -/

/-- The members `baseAddrDRAM` and `baseAddrSRAM` of `rtlNVDLA`, set from the
parameters of the object. Their type is declared in a header that is not part
of the sources at hand: `BASE_BITS` is the width of that unsigned type. -/
structure BaseAddrs where
  baseAddrDRAM : Nat
  baseAddrSRAM : Nat
  BASE_BITS : Nat
deriving DecidableEq, Repr

/-- Width in bits of the arithmetic on a `uint32_t` and a base address: the
wider of the two operand types. -/
def BaseAddrs.width (b : BaseAddrs) : Nat := max 32 b.BASE_BITS

/-- The method `rtlNVDLA::getRealAddr`: the 32-bit difference `addr - 0x50000000` (or
`addr - 0x80000000`) plus the base address, converted to `uint32_t`. -/
def getRealAddr (b : BaseAddrs) (addr : Nat) (sram : Bool) : Nat :=
  let a := addr % 2 ^ 32
  if sram then
    ((a + 2 ^ 32 - 0x50000000) % 2 ^ 32 + b.baseAddrSRAM % 2 ^ b.width) % 2 ^ b.width % 2 ^ 32
  else
    ((a + 2 ^ 32 - 0x80000000) % 2 ^ 32 + b.baseAddrDRAM % 2 ^ b.width) % 2 ^ b.width % 2 ^ 32

/-- The method `rtlNVDLA::getAddrNVDLA`: the difference `addr - base` plus `0x50000000`
(or `0x80000000`), converted to `uint32_t`. -/
def getAddrNVDLA (b : BaseAddrs) (addr : Nat) (sram : Bool) : Nat :=
  let a := addr % 2 ^ 32
  if sram then
    ((a + 2 ^ b.width - b.baseAddrSRAM % 2 ^ b.width) % 2 ^ b.width + 0x50000000)
      % 2 ^ b.width % 2 ^ 32
  else
    ((a + 2 ^ b.width - b.baseAddrDRAM % 2 ^ b.width) % 2 ^ b.width + 0x80000000)
      % 2 ^ b.width % 2 ^ 32

/-- The address of the packet that `readAXIVariable` creates for a backend
read request of the responder: `uint32_t real_addr = getRealAddr(addr, sram)`. -/
def packetAddr (b : BaseAddrs) (r : BackendReq) : Nat :=
  match r with
  | BackendReq.read sram _ addr _ => getRealAddr b addr sram
  | BackendReq.write sram _ addr _ => getRealAddr b addr sram

/-- The key that `handleResponseNVDLA` passes to `inflight_resp` for a read
response whose packet has address `pktAddr`. -/
def responseKey (b : BaseAddrs) (pktAddr : Nat) (sram : Bool) : Nat :=
  getAddrNVDLA b pktAddr sram

/-- Base addresses for the examples. -/
def exampleBases : BaseAddrs :=
  { baseAddrDRAM := 0xA0000000, baseAddrSRAM := 0xC0000000, BASE_BITS := 64 }

/-! ## Auxiliary definitions for the data of a read beat -/

/-- The little-endian 32-bit word formed by the four bytes that `read_ram`
returns for `x`, `x + 1`, `x + 2` and `x + 3` on the store of `s`. -/
def littleEndianWord (cfg : Config) (s : State) (x : Nat) : Nat :=
  (byteAt cfg s x + byteAt cfg s (x + 1) * 2 ^ 8 + byteAt cfg s (x + 2) * 2 ^ 16 +
    byteAt cfg s (x + 3) * 2 ^ 24) % 2 ^ 32

/-- A cycle carrying a single-beat write request for address 16 (id 1)
together with its data beat, all eight strobe bits set. -/
def fullWrite : Inputs :=
  { idleInputs with
    aw_awvalid := true, aw_awid := 1, aw_awaddr := 16, aw_awlen := 0,
    w_wvalid := true, w_wdata := [0x44332211, 0x88776655], w_wstrb := 255, w_wlast := true }

/-- The functional-mode responder after the cycle `fullWrite`. -/
def afterFullWrite : State :=
  stateOr (eval_ram smallConfig fullWrite (construct smallConfig false 8))
    (construct smallConfig false 8)

/-- A cycle carrying the write `fullWrite` together with a single-beat read
request for the same address. -/
def writeAndRead : Inputs :=
  { fullWrite with ar_arvalid := true, ar_araddr := 16, ar_arid := 3, ar_arlen := 0 }

/-! ## Auxiliary definitions for the latency of the boot queue -/

/-- The beat that the read-response block pushes on the boot queue when it
finds the responder in state `s2`: the head of the completion queue, or the
sentinel when that queue is empty. -/
def pushedBeat (cfg : Config) (s2 : State) : axi_r_txn :=
  match s2.r_fifo with
  | t :: _ => t
  | [] => bootSentinel cfg

/-- The beat that enters the boot queue in a cycle; none when the cycle does
not reach the read-response block. -/
def enteredIn (cfg : Config) (m : Mode) (i : Inputs) (s : State) : List axi_r_txn :=
  match readRequest cfg m i (prePair cfg i s) with
  | .ok s1 =>
    match pairWrite cfg (writer cfg m) s1 with
    | .ok s2 => [pushedBeat cfg s2]
    | .error _ => []
  | .error _ => []

/-- The beats that enter the boot queue during a run, up to its first fault. -/
def enteredLog (cfg : Config) (m : Mode) : List Event → State → List axi_r_txn
  | [], _ => []
  | Event.cycle i :: es, s =>
    match eval cfg m i s with
    | .ok s1 => enteredIn cfg m i s ++ enteredLog cfg m es s1
    | .error _ => []
  | Event.completion addr data :: es, s =>
    match inflight_resp cfg addr data s with
    | .ok s1 => enteredLog cfg m es s1
    | .error _ => []

/-- Every cycle of the sequence has `r_rready` asserted. -/
def allReady : List Event → Bool
  | [] => true
  | Event.cycle i :: es => i.r_rready && allReady es
  | Event.completion _ _ :: es => allReady es

/-- The number of cycles of a sequence of events. -/
def cycleCount : List Event → Nat
  | [] => 0
  | Event.cycle _ :: es => cycleCount es + 1
  | Event.completion _ _ :: es => cycleCount es

/-- A single-beat read in functional mode followed by three idle cycles,
`r_rready` held high. -/
def readThenIdle : List Event :=
  [Event.cycle (readInputs 0x10 3 0), Event.cycle readyIdle, Event.cycle readyIdle,
   Event.cycle readyIdle]

/-! ## Auxiliary definitions for the comparison of the write paths -/

theorem vresize_length (v : List Nat) (n x : Nat) : (vresize v n x).length = n := by
  simp [vresize]; omega

theorem vresize_getD (v : List Nat) (n j : Nat) (hj : j < n) :
    (vresize v n 0).getD j 0 = v.getD j 0 := by
  unfold vresize
  by_cases h : j < v.length
  · have h1 : j < (v.take n).length := by simp; omega
    rw [List.getD_append _ _ _ _ h1]
    simp [List.getD_eq_getElem?_getD, List.getElem?_take, hj]
  · have h1 : (v.take n).length ≤ j := by simp; omega
    rw [List.getD_append_right _ _ _ _ h1]
    simp [List.getD_eq_getElem?_getD]
    have : v[j]? = none := by simp; omega
    simp [this]

theorem byteAt_eq_peek (cfg : Config) (hBS : 0 < cfg.AXI_BLOCK_SIZE) (s : State) (a : Nat) :
    byteAt cfg s a = peek cfg s.ram (a % 2 ^ ADDR_BITS) := by
  unfold byteAt read_ram peek touchBlock
  exact vresize_getD _ _ _ (Nat.mod_lt _ hBS)

theorem read_ram_peek (cfg : Config) (hBS : 0 < cfg.AXI_BLOCK_SIZE) (s : State) (x a : Nat) :
    peek cfg (read_ram cfg x s).2.ram a = peek cfg s.ram a := by
  unfold read_ram peek touchBlock
  by_cases h : a / cfg.AXI_BLOCK_SIZE = x % 2 ^ ADDR_BITS / cfg.AXI_BLOCK_SIZE
  · simp only [h, if_true, Option.getD_some]
    exact vresize_getD _ _ _ (Nat.mod_lt _ hBS)
  · simp only [h, if_false]

theorem write_ram_peek (cfg : Config) (hBS : 0 < cfg.AXI_BLOCK_SIZE) (s : State) (x d a : Nat) :
    peek cfg (write_ram cfg x d s).ram a =
      if a = x % 2 ^ ADDR_BITS then d % 256 else peek cfg s.ram a := by
  unfold write_ram peek touchBlock
  by_cases h : a / cfg.AXI_BLOCK_SIZE = x % 2 ^ ADDR_BITS / cfg.AXI_BLOCK_SIZE
  · simp only [h, if_true, Option.getD_some]
    by_cases h2 : a % cfg.AXI_BLOCK_SIZE = x % 2 ^ ADDR_BITS % cfg.AXI_BLOCK_SIZE
    · have hax : a = x % 2 ^ ADDR_BITS := by
        rw [← Nat.div_add_mod a cfg.AXI_BLOCK_SIZE, h, h2, Nat.div_add_mod]
      rw [if_pos hax, h2, List.getD_eq_getElem?_getD, List.getElem?_set_self]
      · rfl
      · rw [vresize_length]; exact Nat.mod_lt _ hBS
    · have hax : a ≠ x % 2 ^ ADDR_BITS := fun e => h2 (by rw [e])
      rw [if_neg hax, List.getD_eq_getElem?_getD, List.getElem?_set_ne (Ne.symm h2),
        ← List.getD_eq_getElem?_getD]
      exact vresize_getD _ _ _ (Nat.mod_lt _ hBS)
  · have hax : a ≠ x % 2 ^ ADDR_BITS := fun e => h (by rw [e])
    simp only [h, if_false, if_neg hax]

/-- C5. Block Store round trip: for every address `a`, every byte `x` and every
prior state of the store, `read_ram(a)` evaluated after `write_ram(a, x)` returns
`x` (the block size being positive). -/
theorem read_ram_write_ram (cfg : Config) (hBS : 0 < cfg.AXI_BLOCK_SIZE) (s : State)
    (a x : Nat) (hx : x < 256) :
    (read_ram cfg a (write_ram cfg a x s)).1 = x := by
  have h := byteAt_eq_peek cfg hBS (write_ram cfg a x s) a
  unfold byteAt at h
  rw [h, write_ram_peek cfg hBS, if_pos rfl, Nat.mod_eq_of_lt hx]

theorem eval_eq (cfg : Config) (m : Mode) (i : Inputs) (s : State) :
    eval cfg m i s =
      match readRequest cfg m i (prePair cfg i s) with
      | .ok s1 =>
        match pairWrite cfg (writer cfg m) s1 with
        | .ok s2 => .ok (writeResponse i (readResponse cfg i s2))
        | .error f => .error f
      | .error f => .error f := by
  cases m <;> rfl

theorem writer_ok (cfg : Config) (m : Mode) : WriterOK cfg (writer cfg m) := by
  intro x d s
  cases m
  · exact ⟨s.backend, rfl⟩
  · exact ⟨_, rfl⟩
  · exact ⟨_, rfl⟩

theorem applyStrobes_shape (cfg : Config) (wr : Nat → Nat → State → State)
    (hwr : WriterOK cfg wr) (aw : axi_aw_txn) (w : axi_w_txn) (s : State) :
    ∃ r b, applyStrobes cfg wr aw w s = { s with ram := r, backend := b } := by
  unfold applyStrobes
  generalize List.range (cfg.AXI_WIDTH / 8) = l
  induction l generalizing s with
  | nil => exact ⟨s.ram, s.backend, rfl⟩
  | cons i l ih =>
    rw [List.foldl_cons]
    by_cases h : strobeSet w i = true
    · rw [if_pos h]
      obtain ⟨b, hb⟩ := hwr (aw.awaddr + i) (strobeByte w i) s
      obtain ⟨r', b', h'⟩ := ih (wr (aw.awaddr + i) (strobeByte w i) s)
      rw [h', hb]
      exact ⟨r', b', rfl⟩
    · rw [if_neg h]
      exact ih s

theorem strobeByte_lt (w : axi_w_txn) (i : Nat) : strobeByte w i < 256 := by
  unfold strobeByte
  exact Nat.lt_succ_of_le Nat.and_le_right

theorem applyStrobes_peek_aux (cfg : Config) (hBS : 0 < cfg.AXI_BLOCK_SIZE)
    (wr : Nat → Nat → State → State) (hwr : WriterOK cfg wr)
    (aw : axi_aw_txn) (w : axi_w_txn) (n : Nat) (hn : aw.awaddr + n ≤ 2 ^ ADDR_BITS)
    (s : State) (a : Nat) :
    peek cfg ((List.range n).foldl
        (fun st i => if strobeSet w i then wr (aw.awaddr + i) (strobeByte w i) st else st) s).ram a =
      if aw.awaddr ≤ a ∧ a < aw.awaddr + n ∧ strobeSet w (a - aw.awaddr) = true
      then strobeByte w (a - aw.awaddr) else peek cfg s.ram a := by
  induction n with
  | zero =>
    simp only [List.range_zero, List.foldl_nil]
    rw [if_neg]; omega
  | succ n ih =>
    rw [List.range_succ, List.foldl_append, List.foldl_cons, List.foldl_nil]
    have ih' := ih (by omega)
    by_cases hs : strobeSet w n = true
    · rw [if_pos hs]
      obtain ⟨b, hb⟩ := hwr (aw.awaddr + n) (strobeByte w n)
        ((List.range n).foldl
          (fun st i => if strobeSet w i then wr (aw.awaddr + i) (strobeByte w i) st else st) s)
      rw [hb]
      show peek cfg (write_ram cfg _ _ _).ram a = _
      rw [write_ram_peek cfg hBS, Nat.mod_eq_of_lt (show aw.awaddr + n < 2 ^ ADDR_BITS by omega),
        Nat.mod_eq_of_lt (strobeByte_lt w n), ih']
      by_cases ha : a = aw.awaddr + n
      · subst ha
        rw [if_pos rfl, if_pos]
        · simp
        · refine ⟨by omega, by omega, ?_⟩
          simpa using hs
      · rw [if_neg ha]
        by_cases hc : aw.awaddr ≤ a ∧ a < aw.awaddr + n ∧ strobeSet w (a - aw.awaddr) = true
        · rw [if_pos hc, if_pos ⟨hc.1, by omega, hc.2.2⟩]
        · rw [if_neg hc, if_neg]
          rintro ⟨h1, h2, h3⟩
          exact hc ⟨h1, by omega, h3⟩
    · rw [if_neg hs, ih']
      by_cases hc : aw.awaddr ≤ a ∧ a < aw.awaddr + n ∧ strobeSet w (a - aw.awaddr) = true
      · rw [if_pos hc, if_pos ⟨hc.1, by omega, hc.2.2⟩]
      · rw [if_neg hc, if_neg]
        rintro ⟨h1, h2, h3⟩
        by_cases ha : a = aw.awaddr + n
        · subst ha
          apply hs
          simpa using h3
        · exact hc ⟨h1, by omega, h3⟩

/-! ## Shape of the phases -/

theorem writeRequest_shape (cfg : Config) (i : Inputs) (s : State) :
    ∃ q r, writeRequest cfg i s = { s with aw_fifo := q, aw_awready := r } := by
  unfold writeRequest
  split
  · exact ⟨_, _, rfl⟩
  · exact ⟨s.aw_fifo, true, rfl⟩

theorem writeData_shape (cfg : Config) (i : Inputs) (s : State) :
    ∃ q, writeData cfg i s = { s with w_fifo := q } := by
  unfold writeData
  split
  · exact ⟨_, rfl⟩
  · exact ⟨s.w_fifo, rfl⟩

theorem prePair_shape (cfg : Config) (i : Inputs) (s : State) :
    ∃ q r q2, prePair cfg i s = { s with aw_fifo := q, aw_awready := r, w_fifo := q2 } := by
  obtain ⟨q, r, h⟩ := writeRequest_shape cfg i s
  obtain ⟨q2, h2⟩ := writeData_shape cfg i (writeRequest cfg i s)
  refine ⟨q, r, q2, ?_⟩
  unfold prePair
  rw [h2, h]

theorem readResponse_shape (cfg : Config) (i : Inputs) (s : State) :
    ∃ f f0 v d l x, readResponse cfg i s =
      { s with r_fifo := f, r0_fifo := f0, r_rvalid := v, r_rid := d, r_rlast := l,
               r_rdata := x } := by
  unfold readResponse
  cases hf : s.r_fifo <;> cases i.r_rready <;> cases h0 : s.r0_fifo <;>
    simp only [List.nil_append, List.cons_append] <;>
    exact ⟨_, _, _, _, _, _, rfl⟩

theorem writeResponse_shape (i : Inputs) (s : State) :
    ∃ v d f, writeResponse i s = { s with b_bvalid := v, b_bid := d, b_fifo := f } := by
  unfold writeResponse
  cases i.b_bready <;> cases hb : s.b_fifo <;> simp only [] <;> exact ⟨_, _, _, rfl⟩

theorem pairWrite_shape (cfg : Config) (wr : Nat → Nat → State → State)
    (hwr : WriterOK cfg wr) (s s' : State) (h : pairWrite cfg wr s = .ok s') :
    ∃ r b qa qw qb, s' =
      { s with ram := r, backend := b, aw_fifo := qa, w_fifo := qw, b_fifo := qb } := by
  unfold pairWrite at h
  split at h
  · rename_i aw aws w ws haw hw
    split at h
    · cases h
    · obtain ⟨r, b, hs⟩ := applyStrobes_shape cfg wr hwr aw w s
      simp only [hs] at h
      split at h
      · injection h with h; exact ⟨_, _, _, _, _, h.symm⟩
      · injection h with h; exact ⟨r, b, _, _, s.b_fifo, h.symm⟩
  · injection h with h
    exact ⟨s.ram, s.backend, s.aw_fifo, s.w_fifo, s.b_fifo, h.symm⟩

theorem burstLoop_inv {σ : Type} (P : σ → Prop) (inc : Nat)
    (body : Nat → Nat → σ → Except Fault σ)
    (hbody : ∀ l a s s', P s → body l a s = .ok s' → P s') :
    ∀ (n addr : Nat) (s s' : σ), P s → burstLoop inc body n addr s = .ok s' → P s' := by
  intro n
  induction n with
  | zero =>
    intro addr s s' hP h
    exact hbody 0 addr s s' hP h
  | succ n ih =>
    intro addr s s' hP h
    unfold burstLoop at h
    split at h
    · rename_i s1 h1
      exact ih _ s1 s' (hbody _ _ _ _ hP h1) h
    · cases h

theorem StoreKept.refl (cfg : Config) (s : State) : StoreKept cfg s s :=
  ⟨rfl, fun _ _ => rfl⟩

theorem StoreKept.trans {cfg : Config} {s1 s2 s3 : State}
    (h12 : StoreKept cfg s1 s2) (h23 : StoreKept cfg s2 s3) : StoreKept cfg s1 s3 := by
  obtain ⟨e12, p12⟩ := h12
  obtain ⟨e23, p23⟩ := h23
  refine ⟨?_, fun hBS a => (p23 hBS a).trans (p12 hBS a)⟩
  rw [e23, e12]

theorem read_ram_kept (cfg : Config) (x : Nat) (s : State) :
    StoreKept cfg s (read_ram cfg x s).2 :=
  ⟨rfl, fun hBS a => read_ram_peek cfg hBS s x a⟩

theorem readWord_kept (cfg : Config) (x : Nat) (s : State) :
    StoreKept cfg s (readWord cfg x s).2 := by
  have h0 := read_ram_kept cfg x s
  have h1 := read_ram_kept cfg (x + 1) (read_ram cfg x s).2
  have h2 := read_ram_kept cfg (x + 2) (read_ram cfg (x + 1) (read_ram cfg x s).2).2
  have h3 := read_ram_kept cfg (x + 3)
    (read_ram cfg (x + 2) (read_ram cfg (x + 1) (read_ram cfg x s).2).2).2
  exact ((h0.trans h1).trans h2).trans h3

theorem readWords_kept (cfg : Config) (addr : Nat) :
    ∀ (n i : Nat) (s : State), StoreKept cfg s (readWords cfg addr n i s).2 := by
  intro n
  induction n with
  | zero => intro i s; exact StoreKept.refl cfg s
  | succ n ih =>
    intro i s
    unfold readWords
    exact (readWord_kept cfg _ s).trans (ih _ _)

theorem readWords_shape (cfg : Config) (addr n i : Nat) (s : State) :
    ∃ r, (readWords cfg addr n i s).2 = { s with ram := r } ∧
      (0 < cfg.AXI_BLOCK_SIZE → ∀ a, peek cfg r a = peek cfg s.ram a) :=
  ⟨_, (readWords_kept cfg addr n i s).1, (readWords_kept cfg addr n i s).2⟩

/-- What a read-request block may change: the store (keeping every byte), the
in-flight table, the completion queue, the backend record and `ar_arready`. -/
theorem readRequest_shape (cfg : Config) (m : Mode)
    (i : Inputs) (s s1 : State) (h : readRequest cfg m i s = .ok s1) :
    ∃ r tbl o f b rdy, s1 =
      { s with ram := r, inflight_req := tbl, inflight_req_order := o, r_fifo := f,
               backend := b, ar_arready := rdy } ∧
      (0 < cfg.AXI_BLOCK_SIZE → ∀ a, peek cfg r a = peek cfg s.ram a) := by
  let P : State → Prop := fun st => ∃ r tbl o f b, st =
      { s with ram := r, inflight_req := tbl, inflight_req_order := o, r_fifo := f,
               backend := b } ∧ (0 < cfg.AXI_BLOCK_SIZE → ∀ a, peek cfg r a = peek cfg s.ram a)
  have hP0 : P s := ⟨_, _, _, _, _, rfl, fun _ _ => rfl⟩
  cases m with
  | functional =>
    simp only [readRequest, readRequest_ram] at h
    split at h
    · split at h
      · rename_i s2 h2
        have := burstLoop_inv P _ _ (by
          intro l a st st' hst hb
          injection hb with hb
          obtain ⟨r, tbl, o, f, b, rfl, hp⟩ := hst
          obtain ⟨r1, h1, p1⟩ := readWords_shape cfg a (cfg.AXI_WIDTH / 32) 0
            { s with ram := r, inflight_req := tbl, inflight_req_order := o, r_fifo := f,
                     backend := b }
          subst hb
          unfold ramBeat
          simp only [h1]
          exact ⟨r1, tbl, o, _, b, rfl, fun hBS a => by rw [p1 hBS]; exact hp hBS a⟩) _ _ s s2 hP0 h2
        obtain ⟨r, tbl, o, f, b, rfl, hp⟩ := this
        injection h with h
        exact ⟨r, tbl, o, _, b, _, h.symm, hp⟩
      · cases h
    · injection h with h
      exact ⟨_, _, _, _, _, _, h.symm, fun _ _ => rfl⟩
  | atomic =>
    simp only [readRequest, readRequest_atomic] at h
    split at h
    · split at h
      · rename_i s2 h2
        have := burstLoop_inv P _ _ (by
          intro l a st st' hst hb
          obtain ⟨r, tbl, o, f, b, rfl, hp⟩ := hst
          unfold atomicBeat at hb
          simp only [read_variable] at hb
          split at hb
          · injection hb with hb
            exact ⟨r, tbl, o, _, _, hb.symm, hp⟩
          · cases hb) _ _ s s2 hP0 h2
        obtain ⟨r, tbl, o, f, b, rfl, hp⟩ := this
        injection h with h
        exact ⟨r, tbl, o, _, b, _, h.symm, hp⟩
      · cases h
    · injection h with h
      exact ⟨_, _, _, _, _, _, h.symm, fun _ _ => rfl⟩
  | timing =>
    simp only [readRequest, readRequest_timing] at h
    split at h
    · split at h
      · rename_i s2 h2
        have := burstLoop_inv P _ _ (by
          intro l a st st' hst hb
          injection hb with hb
          obtain ⟨r, tbl, o, f, b, rfl, hp⟩ := hst
          subst hb
          exact ⟨r, _, _, f, _, rfl, hp⟩) _ _ s s2 hP0 h2
        obtain ⟨r, tbl, o, f, b, rfl, hp⟩ := this
        injection h with h
        exact ⟨r, tbl, o, f, b, _, h.symm, hp⟩
      · cases h
    · unfold drainHead at h
      split at h
      · cases h
      · split at h
        · cases h
        · split at h
          · injection h with h
            exact ⟨_, _, _, _, _, _, h.symm, fun _ _ => rfl⟩
          · split at h <;> injection h with h <;>
              exact ⟨_, _, _, _, _, _, h.symm, fun _ _ => rfl⟩

theorem eval_ok (cfg : Config) (m : Mode) (i : Inputs) (s s' : State)
    (h : eval cfg m i s = .ok s') :
    ∃ s1 s2, readRequest cfg m i (prePair cfg i s) = .ok s1 ∧
      pairWrite cfg (writer cfg m) s1 = .ok s2 ∧
      s' = writeResponse i (readResponse cfg i s2) := by
  rw [eval_eq] at h
  split at h
  · rename_i s1 h1
    split at h
    · rename_i s2 h2
      injection h with h
      exact ⟨s1, s2, h1, h2, h.symm⟩
    · cases h
  · cases h

theorem pairWrite_heads (cfg : Config) (wr : Nat → Nat → State → State)
    (hwr : WriterOK cfg wr) (s s' : State)
    (aw : axi_aw_txn) (aws : List axi_aw_txn) (w : axi_w_txn) (ws : List axi_w_txn)
    (haw : s.aw_fifo = aw :: aws) (hw : s.w_fifo = w :: ws)
    (h : pairWrite cfg wr s = .ok s') :
    w.wlast = (aw.awlen == 0) ∧ s'.ram = (applyStrobes cfg wr aw w s).ram := by
  unfold pairWrite at h
  rw [haw, hw] at h
  simp only at h
  obtain ⟨r, b, hs⟩ := applyStrobes_shape cfg wr hwr aw w s
  split at h
  · cases h
  · rename_i hne
    refine ⟨by simpa using hne, ?_⟩
    injection h with h
    rw [← h]
    split <;> rfl

theorem eval_ram_field (cfg : Config) (hBS : 0 < cfg.AXI_BLOCK_SIZE) (m : Mode) (i : Inputs)
    (s s' : State) (h : eval cfg m i s = .ok s') :
    ∃ s1 s2, readRequest cfg m i (prePair cfg i s) = .ok s1 ∧
      pairWrite cfg (writer cfg m) s1 = .ok s2 ∧
      s1.aw_fifo = (prePair cfg i s).aw_fifo ∧ s1.w_fifo = (prePair cfg i s).w_fifo ∧
      (∀ a, peek cfg s1.ram a = peek cfg s.ram a) ∧ s'.ram = s2.ram := by
  obtain ⟨s1, s2, h1, h2, h3⟩ := eval_ok cfg m i s s' h
  refine ⟨s1, s2, h1, h2, ?_⟩
  obtain ⟨r, tbl, o, f, b, rdy, e1, p1⟩ := readRequest_shape cfg m i _ s1 h1
  obtain ⟨q, r', q2, e0⟩ := prePair_shape cfg i s
  obtain ⟨f, f0, v, d, l, x, e3⟩ := readResponse_shape cfg i s2
  obtain ⟨v', d', f', e4⟩ := writeResponse_shape i (readResponse cfg i s2)
  refine ⟨by rw [e1], by rw [e1], ?_, ?_⟩
  · intro a
    rw [e1]
    show peek cfg r a = _
    rw [p1 hBS, e0]
  · rw [h3, e4, e3]

theorem aligned_no_wrap (n A : Nat) (hdiv : n ∣ 2 ^ ADDR_BITS) (hal : n ∣ A)
    (hlt : A < 2 ^ ADDR_BITS) : A + n ≤ 2 ^ ADDR_BITS := by
  obtain ⟨c, hc⟩ := hdiv
  obtain ⟨d, hd⟩ := hal
  rw [hc, hd] at hlt
  rw [hc, hd]
  have hn : 0 < n := by
    rcases Nat.eq_zero_or_pos n with h | h
    · subst h; simp at hc
    · exact h
  have hdc : d < c := Nat.lt_of_mul_lt_mul_left hlt
  calc n * d + n = n * (d + 1) := by ring
    _ ≤ n * c := Nat.mul_le_mul_left n hdc

theorem cycle_peek (cfg : Config) (hBS : 0 < cfg.AXI_BLOCK_SIZE) (m : Mode) (i : Inputs)
    (s s' : State) (aw : axi_aw_txn) (aws : List axi_aw_txn) (w : axi_w_txn)
    (ws : List axi_w_txn)
    (haw : (prePair cfg i s).aw_fifo = aw :: aws) (hw : (prePair cfg i s).w_fifo = w :: ws)
    (hwrap : aw.awaddr + cfg.AXI_WIDTH / 8 ≤ 2 ^ ADDR_BITS)
    (hev : eval cfg m i s = .ok s') (a : Nat) :
    peek cfg s'.ram a =
      if aw.awaddr ≤ a ∧ a < aw.awaddr + cfg.AXI_WIDTH / 8 ∧ strobeSet w (a - aw.awaddr) = true
      then strobeByte w (a - aw.awaddr) else peek cfg s.ram a := by
  obtain ⟨s1, s2, _, h2, e1, e2, p1, e3⟩ := eval_ram_field cfg hBS m i s s' hev
  obtain ⟨_, hr⟩ := pairWrite_heads cfg _ (writer_ok cfg m) s1 s2 aw aws w ws
    (e1.trans haw) (e2.trans hw) h2
  rw [e3, hr]
  unfold applyStrobes
  rw [applyStrobes_peek_aux cfg hBS _ (writer_ok cfg m) aw w _ hwrap s1 a, p1]

/-- C3. Frame of a write beat, in every mode: when a cycle pairs the head data
beat `w` with the head address request `aw` at the aligned address `A =
aw.awaddr` and completes, then for every byte index `k < AXI_WIDTH / 8` whose
strobe bit is set the byte at `A + k` is `(wdata[k / 4] >> 8 * (k mod 4)) &
0xFF`, every byte of the beat whose strobe bit is clear is unchanged, and so is
every address outside `[A, A + AXI_WIDTH / 8)`. -/
theorem write_beat_frame (cfg : Config) (m : Mode) (i : Inputs) (s s' : State)
    (aw : axi_aw_txn) (aws : List axi_aw_txn) (w : axi_w_txn) (ws : List axi_w_txn)
    (hBS : 0 < cfg.AXI_BLOCK_SIZE) (hdiv : cfg.AXI_WIDTH / 8 ∣ 2 ^ 32)
    (haw : (prePair cfg i s).aw_fifo = aw :: aws) (hw : (prePair cfg i s).w_fifo = w :: ws)
    (hal : cfg.AXI_WIDTH / 8 ∣ aw.awaddr) (hlt : aw.awaddr < 2 ^ 32)
    (hev : eval cfg m i s = .ok s') :
    (∀ k, k < cfg.AXI_WIDTH / 8 → strobeSet w k = true →
      byteAt cfg s' (aw.awaddr + k) = (w.wdata.getD (k / 4) 0 >>> (8 * (k % 4))) &&& 0xFF) ∧
    (∀ k, k < cfg.AXI_WIDTH / 8 → strobeSet w k = false →
      byteAt cfg s' (aw.awaddr + k) = byteAt cfg s (aw.awaddr + k)) ∧
    (∀ a, a < 2 ^ 32 → (a < aw.awaddr ∨ aw.awaddr + cfg.AXI_WIDTH / 8 ≤ a) →
      byteAt cfg s' a = byteAt cfg s a) := by
  have hwrap : aw.awaddr + cfg.AXI_WIDTH / 8 ≤ 2 ^ ADDR_BITS :=
    aligned_no_wrap _ _ hdiv hal hlt
  have hp := cycle_peek cfg hBS m i s s' aw aws w ws haw hw hwrap hev
  have h32 : (2 : Nat) ^ ADDR_BITS = 2 ^ 32 := rfl
  refine ⟨fun k hk hs => ?_, fun k hk hs => ?_, fun a ha hout => ?_⟩
  · rw [byteAt_eq_peek cfg hBS, Nat.mod_eq_of_lt (by omega), hp, if_pos]
    · simp only [Nat.add_sub_cancel_left, strobeByte, Nat.mul_comm]
    · refine ⟨by omega, by omega, ?_⟩
      simpa using hs
  · rw [byteAt_eq_peek cfg hBS, byteAt_eq_peek cfg hBS, Nat.mod_eq_of_lt (by omega), hp, if_neg]
    rintro ⟨_, _, h3⟩
    simp [hs] at h3
  · rw [byteAt_eq_peek cfg hBS, byteAt_eq_peek cfg hBS, Nat.mod_eq_of_lt (by omega), hp, if_neg]
    rintro ⟨h1, h2, _⟩
    omega

theorem read_ram_write_ram_witness :
    (read_ram wideConfig 0x1234 (write_ram wideConfig 0x1234 0xAB
      (construct wideConfig false 8))).1 = 0xAB :=
  read_ram_write_ram wideConfig (by decide) (construct wideConfig false 8) 0x1234 0xAB
    (by decide)

theorem write_beat_frame_witness :
    ∃ s', eval smallConfig Mode.functional strobedWrite (construct smallConfig false 8) = .ok s' ∧
      byteAt smallConfig s' 16 = 0x11 ∧ byteAt smallConfig s' 18 = 0x33 ∧
      byteAt smallConfig s' 17 = byteAt smallConfig (construct smallConfig false 8) 17 ∧
      byteAt smallConfig s' 19 = byteAt smallConfig (construct smallConfig false 8) 19 ∧
      byteAt smallConfig s' 24 = byteAt smallConfig (construct smallConfig false 8) 24 :=
  have h := write_beat_frame smallConfig Mode.functional strobedWrite
    (construct smallConfig false 8) _
    { awid := 1, awaddr := 16, awlen := 0 } []
    { wdata := [0x44332211, 0x88776655], wstrb := 5, wlast := true } []
    (by decide) (by decide) rfl rfl (by decide) (by decide) rfl
  ⟨_, rfl, h.1 0 (by decide) (by decide), h.1 2 (by decide) (by decide),
    h.2.1 1 (by decide) (by decide), h.2.1 3 (by decide) (by decide),
    h.2.2 24 (by decide) (by decide)⟩

theorem readWords_queues (cfg : Config) (addr : Nat) :
    ∀ (n i : Nat) (s : State), (readWords cfg addr n i s).2.aw_fifo = s.aw_fifo ∧
      (readWords cfg addr n i s).2.w_fifo = s.w_fifo := by
  intro n
  induction n with
  | zero => intro i s; exact ⟨rfl, rfl⟩
  | succ n ih =>
    intro i s
    unfold readWords
    obtain ⟨h1, h2⟩ := ih (i + 1) (readWord cfg (addr + i * 4) s).2
    exact ⟨h1.trans rfl, h2.trans rfl⟩

theorem readRequest_queues (cfg : Config) (m : Mode) (i : Inputs) (s s1 : State)
    (h : readRequest cfg m i s = .ok s1) :
    s1.aw_fifo = s.aw_fifo ∧ s1.w_fifo = s.w_fifo := by
  let P : State → Prop := fun st => st.aw_fifo = s.aw_fifo ∧ st.w_fifo = s.w_fifo
  have hP0 : P s := ⟨rfl, rfl⟩
  cases m with
  | functional =>
    simp only [readRequest, readRequest_ram] at h
    split at h
    · split at h
      · rename_i s2 h2
        have := burstLoop_inv P _ _ (by
          intro l a st st' hst hb
          injection hb with hb
          subst hb
          obtain ⟨q1, q2⟩ := readWords_queues cfg a (cfg.AXI_WIDTH / 32) 0 st
          exact ⟨q1.trans hst.1, q2.trans hst.2⟩) _ _ s s2 hP0 h2
        injection h with h
        subst h
        exact this
      · cases h
    · injection h with h
      subst h
      exact ⟨rfl, rfl⟩
  | atomic =>
    simp only [readRequest, readRequest_atomic] at h
    split at h
    · split at h
      · rename_i s2 h2
        have := burstLoop_inv P _ _ (by
          intro l a st st' hst hb
          unfold atomicBeat at hb
          simp only [read_variable] at hb
          split at hb
          · injection hb with hb
            subst hb
            exact hst
          · cases hb) _ _ s s2 hP0 h2
        injection h with h
        subst h
        exact this
      · cases h
    · injection h with h
      subst h
      exact ⟨rfl, rfl⟩
  | timing =>
    simp only [readRequest, readRequest_timing] at h
    split at h
    · split at h
      · rename_i s2 h2
        have := burstLoop_inv P _ _ (by
          intro l a st st' hst hb
          injection hb with hb
          subst hb
          exact hst) _ _ s s2 hP0 h2
        injection h with h
        subst h
        exact this
      · cases h
    · unfold drainHead at h
      split at h
      · cases h
      · split at h
        · cases h
        · split at h
          · injection h with h
            subst h
            exact ⟨rfl, rfl⟩
          · split at h <;> injection h with h <;> subst h <;> exact ⟨rfl, rfl⟩

theorem pairMismatch_congr (s1 s2 : State) (ha : s1.aw_fifo = s2.aw_fifo)
    (hw : s1.w_fifo = s2.w_fifo) : pairMismatch s1 = pairMismatch s2 := by
  unfold pairMismatch
  rw [ha, hw]

theorem pairWrite_cases (cfg : Config) (wr : Nat → Nat → State → State) (s : State) :
    (pairMismatch s = true ∧ pairWrite cfg wr s = .error Fault.abort) ∨
    (pairMismatch s = false ∧ ∃ s', pairWrite cfg wr s = .ok s') := by
  unfold pairMismatch pairWrite
  cases s.aw_fifo with
  | nil => exact Or.inr ⟨rfl, _, rfl⟩
  | cons aw aws =>
    cases s.w_fifo with
    | nil => exact Or.inr ⟨rfl, _, rfl⟩
    | cons w ws =>
      simp only
      by_cases h : (w.wlast != (aw.awlen == 0)) = true
      · rw [if_pos h]; exact Or.inl ⟨h, rfl⟩
      · rw [if_neg h]; exact Or.inr ⟨by simpa using h, _, rfl⟩

theorem readRequest_ram_total (cfg : Config) (i : Inputs) (s : State) :
    ∃ s1, readRequest cfg Mode.functional i s = .ok s1 := by
  have hloop : ∀ (n addr : Nat) (st : State), ∃ s1,
      burstLoop (cfg.AXI_WIDTH / 8)
        (fun len addr st => Except.ok (ramBeat cfg i.ar_arid len addr st)) n addr st = .ok s1 := by
    intro n
    induction n with
    | zero => intro addr st; exact ⟨_, rfl⟩
    | succ n ih =>
      intro addr st
      unfold burstLoop
      exact ih _ _
  simp only [readRequest, readRequest_ram]
  split
  · obtain ⟨s1, h1⟩ := hloop (i.ar_arlen % 256) (alignAddr cfg i.ar_araddr) s
    rw [h1]
    exact ⟨_, rfl⟩
  · exact ⟨_, rfl⟩

theorem burstLoop_error {σ : Type} (inc : Nat) (body : Nat → Nat → σ → Except Fault σ)
    (hbody : ∀ l a s f, body l a s = .error f → f = Fault.undefined) :
    ∀ (n addr : Nat) (s : σ) (f : Fault),
      burstLoop inc body n addr s = .error f → f = Fault.undefined := by
  intro n
  induction n with
  | zero => intro addr s f h; exact hbody 0 addr s f h
  | succ n ih =>
    intro addr s f h
    unfold burstLoop at h
    split at h
    · exact ih _ _ f h
    · rename_i f' h'
      injection h with h
      subst h
      exact hbody _ _ _ _ h'

theorem readRequest_error (cfg : Config) (m : Mode) (i : Inputs) (s : State) (f : Fault)
    (h : readRequest cfg m i s = .error f) : f = Fault.undefined := by
  cases m with
  | functional =>
    obtain ⟨s1, h1⟩ := readRequest_ram_total cfg i s
    rw [h1] at h; cases h
  | atomic =>
    simp only [readRequest, readRequest_atomic] at h
    split at h
    · split at h
      · cases h
      · rename_i f' h'
        injection h with h
        subst h
        refine burstLoop_error _ _ ?_ _ _ _ _ h'
        intro l a st f hb
        unfold atomicBeat inflight_resp_atomic at hb
        simp only [read_variable] at hb
        split at hb
        · cases hb
        · rename_i f2 h2
          injection hb with hb
          subst hb
          split at h2
          · cases h2
          · injection h2 with h2; exact h2.symm
    · cases h
  | timing =>
    simp only [readRequest, readRequest_timing] at h
    split at h
    · split at h
      · cases h
      · rename_i f' h'
        injection h with h
        subst h
        refine burstLoop_error _ _ ?_ _ _ _ _ h'
        intro l a st f hb
        cases hb
    · unfold drainHead at h
      split at h
      · injection h with h; exact h.symm
      · split at h
        · injection h with h; exact h.symm
        · split at h
          · cases h
          · split at h <;> cases h

theorem eval_abort_cases (cfg : Config) (m : Mode) (i : Inputs) (s : State) :
    (eval cfg m i s = .error Fault.abort ↔
      (∃ s1, readRequest cfg m i (prePair cfg i s) = .ok s1) ∧
        pairMismatch (prePair cfg i s) = true) ∧
    ((∃ s1, readRequest cfg m i (prePair cfg i s) = .ok s1) →
      pairMismatch (prePair cfg i s) = false → ∃ s', eval cfg m i s = .ok s') ∧
    (∃ s1, readRequest cfg Mode.functional i (prePair cfg i s) = .ok s1) := by
  refine ⟨?_, ?_, readRequest_ram_total cfg i _⟩
  · rw [eval_eq]
    constructor
    · intro h
      split at h
      · rename_i s1 h1
        obtain ⟨q1, q2⟩ := readRequest_queues cfg m i _ s1 h1
        rcases pairWrite_cases cfg (writer cfg m) s1 with ⟨hm, _⟩ | ⟨_, s2, h2⟩
        · exact ⟨⟨s1, h1⟩, (pairMismatch_congr _ _ q1 q2).symm.trans hm⟩
        · rw [h2] at h; cases h
      · rename_i f h1
        exfalso
        cases m with
        | functional =>
          obtain ⟨s1, h⟩ := readRequest_ram_total cfg i (prePair cfg i s)
          rw [h] at h1; cases h1
        | atomic =>
          have := readRequest_error cfg Mode.atomic i _ f h1
          rw [this] at h; cases h
        | timing =>
          have := readRequest_error cfg Mode.timing i _ f h1
          rw [this] at h; cases h
    · rintro ⟨⟨s1, h1⟩, hm⟩
      obtain ⟨q1, q2⟩ := readRequest_queues cfg m i _ s1 h1
      rw [h1]
      rcases pairWrite_cases cfg (writer cfg m) s1 with ⟨_, h2⟩ | ⟨hm2, _⟩
      · simp only [h2]
      · rw [pairMismatch_congr _ _ q1 q2, hm] at hm2; cases hm2
  · rintro ⟨s1, h1⟩ hm
    obtain ⟨q1, q2⟩ := readRequest_queues cfg m i _ s1 h1
    rw [eval_eq, h1]
    rcases pairWrite_cases cfg (writer cfg m) s1 with ⟨hm2, _⟩ | ⟨_, s2, h2⟩
    · rw [pairMismatch_congr _ _ q1 q2, hm] at hm2; cases hm2
    · refine ⟨writeResponse i (readResponse cfg i s2), ?_⟩
      simp only [h2]

/-! ## The in-flight table: pure lemmas -/

theorem pendingView_congr (order : List Nat) :
    ∀ (m1 m2 : Nat → Option (List axi_r_txn)),
      (∀ k, (m1 k).getD [] = (m2 k).getD []) → pendingView m1 order = pendingView m2 order := by
  induction order with
  | nil => intro m1 m2 _; rfl
  | cons a rest ih =>
    intro m1 m2 h
    unfold pendingView
    rw [h a]
    cases (m2 a).getD [] with
    | nil => exact ih m1 m2 h
    | cons t ts =>
      simp only
      rw [ih _ (fun k => if k = a then some ts else m2 k)]
      intro k
      by_cases hk : k = a
      · simp [hk]
      · simp [hk, h k]

theorem pendingView_ident (order : List Nat) :
    ∀ (m1 m2 : Nat → Option (List axi_r_txn)),
      (∀ k, ((m1 k).getD []).map (fun t => (t.rid, t.rlast)) =
            ((m2 k).getD []).map (fun t => (t.rid, t.rlast))) →
      (pendingView m1 order).map beatIdent = (pendingView m2 order).map beatIdent := by
  induction order with
  | nil => intro m1 m2 _; rfl
  | cons a rest ih =>
    intro m1 m2 h
    unfold pendingView
    have ha := h a
    cases h1 : (m1 a).getD [] with
    | nil =>
      rw [h1] at ha
      cases h2 : (m2 a).getD [] with
      | nil => exact ih m1 m2 h
      | cons t ts => rw [h2] at ha; simp at ha
    | cons t1 ts1 =>
      rw [h1] at ha
      cases h2 : (m2 a).getD [] with
      | nil => rw [h2] at ha; simp at ha
      | cons t2 ts2 =>
        rw [h2] at ha
        simp only [List.map_cons, List.cons.injEq, Prod.mk.injEq] at ha
        obtain ⟨⟨hid, hlast⟩, htl⟩ := ha
        simp only [List.map_cons, beatIdent, hid, hlast]
        congr 1
        apply ih
        intro k
        by_cases hk : k = a
        · simp only [hk, if_true, Option.getD_some]; exact htl
        · simp only [hk, if_false]; exact h k

theorem register_consistent (tbl : Nat → Option (List axi_r_txn)) (order : List Nat)
    (key : Nat) (txn : axi_r_txn) (h : Consistent tbl order) :
    Consistent (register tbl key txn) (order ++ [key]) := by
  intro a
  unfold register
  by_cases ha : a = key
  · subst ha
    simp only [if_true, Option.getD_some, List.length_append, List.length_singleton,
      List.count_append, List.count_singleton_self]
    refine ⟨by rw [(h a).1], ?_⟩
    intro hc
    injection hc with hc
    simp at hc
  · simp only [ha, if_false, List.count_append]
    refine ⟨?_, (h a).2⟩
    rw [(h a).1, List.count_singleton]
    simp [Ne.symm ha]

theorem pendingView_register (order : List Nat) (key : Nat) (txn : axi_r_txn) :
    ∀ (tbl : Nat → Option (List axi_r_txn)),
      (∀ a, order.count a = ((tbl a).getD []).length) →
      pendingView (register tbl key txn) (order ++ [key]) =
        pendingView tbl order ++ [(key, txn)] := by
  induction order with
  | nil =>
    intro tbl h
    have hk : (tbl key).getD [] = [] := by
      have := h key
      simp at this
      exact List.eq_nil_of_length_eq_zero this.symm
    simp [pendingView, register, hk]
  | cons a rest ih =>
    intro tbl h
    have ha := h a
    simp only [List.count_cons_self] at ha
    cases hl : (tbl a).getD [] with
    | nil => rw [hl] at ha; simp at ha
    | cons t ts =>
      have hreg : ((register tbl key txn) a).getD [] =
          t :: ((register (fun k => if k = a then some ts else tbl k) key txn a).getD []) := by
        unfold register
        by_cases hk : a = key
        · subst hk; simp [hl]
        · simp [hk, hl]
      simp only [List.cons_append, pendingView, hl, hreg, List.cons.injEq, true_and]
      rw [← ih (fun k => if k = a then some ts else tbl k)]
      · apply pendingView_congr
        intro k
        unfold register
        by_cases hk : k = a
        · subst hk
          by_cases hk2 : k = key
          · simp [hk2]
          · simp [hk2]
        · by_cases hk2 : k = key
          · subst hk2; simp [hk]
          · simp [hk, hk2]
      · intro b
        have hb := h b
        by_cases hba : b = a
        · subst hba
          rw [hl] at hb
          simp at hb ⊢
          exact hb
        · rw [List.count_cons_of_ne hba] at hb
          simp [hba, hb]

/-! ## The burst loop -/

theorem burstLoop_pure {σ : Type} (inc : Nat) (g : Nat → Nat → σ → σ) :
    ∀ (n addr : Nat) (s : σ),
      burstLoop inc (fun l a st => Except.ok (g l a st)) n addr s =
        .ok ((burstBeats inc n addr).foldl (fun st p => g p.1 p.2 st) s) := by
  intro n
  induction n with
  | zero => intro addr s; rfl
  | succ n ih =>
    intro addr s
    unfold burstLoop burstBeats
    simp only [List.foldl_cons]
    exact ih _ _

theorem burstBeats_eq (inc : Nat) :
    ∀ (n addr : Nat), addr < 2 ^ BUS_ADDR_BITS →
      burstBeats inc n addr =
        (List.range (n + 1)).map (fun k => (n - k, (addr + k * inc) % 2 ^ BUS_ADDR_BITS)) := by
  intro n
  induction n with
  | zero =>
    intro addr h
    simp [burstBeats, List.range_succ, Nat.mod_eq_of_lt h]
  | succ n ih =>
    intro addr h
    unfold burstBeats
    rw [ih _ (Nat.mod_lt _ (by positivity)), List.range_succ_eq_map (n + 1), List.map_cons,
      List.map_map]
    simp only [Nat.sub_zero, Nat.zero_mul, Nat.add_zero, Nat.mod_eq_of_lt h, List.cons.injEq,
      true_and]
    apply List.map_congr_left
    intro k _
    simp only [Function.comp, Nat.succ_eq_add_one, Nat.add_sub_add_right, Prod.mk.injEq, true_and]
    rw [Nat.mod_add_mod]
    congr 1
    ring

theorem burstBeats_length (inc : Nat) :
    ∀ (n addr : Nat), (burstBeats inc n addr).length = n + 1 := by
  intro n
  induction n with
  | zero => intro addr; rfl
  | succ n ih => intro addr; simp [burstBeats, ih]

theorem alignAddr_lt (cfg : Config) (x : Nat) : alignAddr cfg x < 2 ^ BUS_ADDR_BITS :=
  Nat.lt_of_le_of_lt Nat.and_le_left (Nat.mod_lt _ (by positivity))

/-- The table key of a beat of the timing burst loop. -/
theorem timingBeat_eq (arid len addr : Nat) (s : State) :
    timingBeat arid len addr s =
      { s with
        inflight_req := register s.inflight_req (addr % 2 ^ ADDR_BITS) (placeholder arid len)
        inflight_req_order := s.inflight_req_order ++ [addr % 2 ^ ADDR_BITS]
        backend := s.backend ++ [BackendReq.read s.sram true (addr % 2 ^ ADDR_BITS) 64] } :=
  rfl

theorem timing_fold (arid : Nat) (l : List (Nat × Nat)) :
    ∀ s : State, l.foldl (fun st p => timingBeat arid p.1 p.2 st) s =
      { s with
        inflight_req := l.foldl
          (fun t p => register t (p.2 % 2 ^ ADDR_BITS) (placeholder arid p.1)) s.inflight_req
        inflight_req_order := s.inflight_req_order ++ l.map (fun p => p.2 % 2 ^ ADDR_BITS)
        backend := s.backend ++
          l.map (fun p => BackendReq.read s.sram true (p.2 % 2 ^ ADDR_BITS) 64) } := by
  induction l with
  | nil => intro s; simp
  | cons p l ih =>
    intro s
    rw [List.foldl_cons, ih, timingBeat_eq]
    simp

theorem register_fold (arid : Nat) (l : List (Nat × Nat)) :
    ∀ (tbl : Nat → Option (List axi_r_txn)) (order : List Nat), Consistent tbl order →
      Consistent
        (l.foldl (fun t p => register t (p.2 % 2 ^ ADDR_BITS) (placeholder arid p.1)) tbl)
        (order ++ l.map (fun p => p.2 % 2 ^ ADDR_BITS)) ∧
      pendingView
        (l.foldl (fun t p => register t (p.2 % 2 ^ ADDR_BITS) (placeholder arid p.1)) tbl)
        (order ++ l.map (fun p => p.2 % 2 ^ ADDR_BITS)) =
        pendingView tbl order ++
          l.map (fun p => (p.2 % 2 ^ ADDR_BITS, placeholder arid p.1)) := by
  induction l with
  | nil => intro tbl order h; simpa using h
  | cons p l ih =>
    intro tbl order h
    have h1 := register_consistent tbl order (p.2 % 2 ^ ADDR_BITS) (placeholder arid p.1) h
    have h2 := pendingView_register order (p.2 % 2 ^ ADDR_BITS) (placeholder arid p.1) tbl
      (fun a => (h a).1)
    obtain ⟨c, v⟩ := ih _ _ h1
    simp only [List.foldl_cons, List.map_cons]
    rw [show order ++ p.2 % 2 ^ ADDR_BITS :: l.map (fun p => p.2 % 2 ^ ADDR_BITS) =
      (order ++ [p.2 % 2 ^ ADDR_BITS]) ++ l.map (fun p => p.2 % 2 ^ ADDR_BITS) by simp]
    refine ⟨c, ?_⟩
    rw [v, h2]
    simp

/-! ## The read-request block of `eval_timing` -/

/-- The three ways in which the read-request block of `eval_timing` returns: a
handshake registers a burst, the valid head is drained, or the head waits. -/
theorem readRequest_timing_cases (cfg : Config) (i : Inputs) (p s1 : State)
    (h : readRequest_timing cfg i p = .ok s1) :
    ((i.ar_arvalid && p.ar_arready) = true ∧
      s1 = { p with
        inflight_req := (burstBeats (cfg.AXI_WIDTH / 8) (i.ar_arlen % 256)
            (alignAddr cfg i.ar_araddr)).foldl
          (fun t q => register t (q.2 % 2 ^ ADDR_BITS) (placeholder i.ar_arid q.1)) p.inflight_req
        inflight_req_order := p.inflight_req_order ++
          (burstBeats (cfg.AXI_WIDTH / 8) (i.ar_arlen % 256) (alignAddr cfg i.ar_araddr)).map
            (fun q => q.2 % 2 ^ ADDR_BITS)
        backend := p.backend ++
          (burstBeats (cfg.AXI_WIDTH / 8) (i.ar_arlen % 256) (alignAddr cfg i.ar_araddr)).map
            (fun q => BackendReq.read p.sram true (q.2 % 2 ^ ADDR_BITS) 64)
        ar_arready := false }) ∨
    ((i.ar_arvalid && p.ar_arready) = false ∧ ∃ a rest t ts,
      p.inflight_req_order = a :: rest ∧ (p.inflight_req a).getD [] = t :: ts ∧
      t.rvalid = true ∧
      s1 = { p with
        r_fifo := p.r_fifo ++ [t]
        inflight_req := fun k =>
          if k = a then (if ts.isEmpty then none else some ts) else p.inflight_req k
        inflight_req_order := rest
        ar_arready := false }) ∨
    ((i.ar_arvalid && p.ar_arready) = false ∧ ∃ a rest t ts,
      p.inflight_req_order = a :: rest ∧ (p.inflight_req a).getD [] = t :: ts ∧
      t.rvalid = false ∧
      s1 = { p with ar_arready := decide (p.inflight_req_order.length ≤ p.max_req_inflight) }) := by
  unfold readRequest_timing at h
  split at h
  · rename_i hs
    rw [burstLoop_pure, timing_fold] at h
    simp only at h
    injection h with h
    exact Or.inl ⟨hs, h.symm⟩
  · rename_i hs
    have hs' : (i.ar_arvalid && p.ar_arready) = false := by simpa using hs
    unfold drainHead at h
    split at h
    · cases h
    · rename_i a rest ho
      split at h
      · cases h
      · rename_i t ts hl
        split at h
        · rename_i hv
          injection h with h
          exact Or.inr (Or.inl ⟨hs', a, rest, t, ts, ho, hl, hv, h.symm⟩)
        · rename_i hv
          have hv' : t.rvalid = false := by simpa using hv
          refine Or.inr (Or.inr ⟨hs', a, rest, t, ts, ho, hl, hv', ?_⟩)
          split at h
          · rename_i hle
            injection h with h
            rw [← h]
            simp [hle]
          · rename_i hle
            injection h with h
            rw [← h]
            simp [hle]

theorem drain_consistent (tbl : Nat → Option (List axi_r_txn)) (a : Nat) (rest : List Nat)
    (t : axi_r_txn) (ts : List axi_r_txn) (hl : (tbl a).getD [] = t :: ts)
    (h : Consistent tbl (a :: rest)) :
    Consistent (fun k => if k = a then (if ts.isEmpty then none else some ts) else tbl k) rest ∧
    pendingView tbl (a :: rest) = (a, t) ::
      pendingView (fun k => if k = a then (if ts.isEmpty then none else some ts) else tbl k)
        rest := by
  constructor
  · intro b
    have hb := h b
    by_cases hba : b = a
    · subst hba
      rw [hl] at hb
      simp only [List.count_cons_self, List.length_cons, Nat.add_right_cancel_iff] at hb
      simp only [if_true]
      cases ts with
      | nil => simpa using hb.1
      | cons t2 ts2 => simpa using hb.1
    · rw [List.count_cons_of_ne hba] at hb
      simpa [hba] using hb
  · simp only [pendingView, hl, List.cons.injEq, true_and]
    apply pendingView_congr
    intro k
    by_cases hk : k = a
    · subst hk
      cases ts <;> simp
    · simp [hk]

/-! ## The completion callback -/

theorem fillFirstInvalid_spec (ws : List Nat) (pre : List axi_r_txn) (t : axi_r_txn)
    (post : List axi_r_txn) (hpre : ∀ x ∈ pre, x.rvalid = true) (ht : t.rvalid = false) :
    fillFirstInvalid ws (pre ++ t :: post) =
      some (pre ++ { t with rdata := ws, rvalid := true } :: post) := by
  induction pre with
  | nil => simp [fillFirstInvalid, ht]
  | cons x pre ih =>
    have hx : x.rvalid = true := hpre x (List.mem_cons_self _ _)
    have ih' := ih (fun y hy => hpre y (List.mem_cons_of_mem _ hy))
    show fillFirstInvalid ws (x :: (pre ++ t :: post)) = _
    unfold fillFirstInvalid
    rw [if_pos hx, ih']
    rfl

theorem fillFirstInvalid_some (ws : List Nat) :
    ∀ (l l' : List axi_r_txn), fillFirstInvalid ws l = some l' →
      l'.map (fun t => (t.rid, t.rlast)) = l.map (fun t => (t.rid, t.rlast)) ∧
      l'.length = l.length ∧ l' ≠ [] := by
  intro l
  induction l with
  | nil => intro l' h; cases h
  | cons t ts ih =>
    intro l' h
    unfold fillFirstInvalid at h
    split at h
    · cases hf : fillFirstInvalid ws ts with
      | none => rw [hf] at h; cases h
      | some r =>
        rw [hf] at h
        injection h with h
        subst h
        obtain ⟨h1, h2, _⟩ := ih r hf
        simp [h1, h2]
    · injection h with h
      subst h
      simp

theorem inflight_resp_cases (cfg : Config) (addr : Nat) (data : Nat → Nat) (s s' : State)
    (h : inflight_resp cfg addr data s = .ok s') :
    ∃ l', fillFirstInvalid ((List.range (cfg.AXI_WIDTH / 32)).map data)
        ((s.inflight_req (addr % 2 ^ ADDR_BITS)).getD []) = some l' ∧
      s' = { s with inflight_req := fun k =>
        if k = addr % 2 ^ ADDR_BITS then some l' else s.inflight_req k } := by
  unfold inflight_resp at h
  simp only at h
  split at h
  · cases h
  · rename_i l hl
    injection h with h
    exact ⟨l, hl, h.symm⟩

theorem inflight_resp_consistent (cfg : Config) (addr : Nat) (data : Nat → Nat) (s s' : State)
    (hc : Consistent s.inflight_req s.inflight_req_order)
    (h : inflight_resp cfg addr data s = .ok s') :
    Consistent s'.inflight_req s'.inflight_req_order ∧
    s'.inflight_req_order = s.inflight_req_order ∧
    (pendingView s'.inflight_req s'.inflight_req_order).map beatIdent =
      (pendingView s.inflight_req s.inflight_req_order).map beatIdent := by
  obtain ⟨l', hf, rfl⟩ := inflight_resp_cases cfg addr data s s' h
  obtain ⟨h1, h2, h3⟩ := fillFirstInvalid_some _ _ _ hf
  refine ⟨?_, rfl, ?_⟩
  · intro a
    by_cases ha : a = addr % 2 ^ ADDR_BITS
    · subst ha
      simp only [if_true, Option.getD_some, h2]
      refine ⟨(hc _).1, ?_⟩
      intro hc'
      injection hc' with hc'
      exact h3 hc'
    · simp only [ha, if_false]
      exact hc a
  · apply pendingView_ident
    intro k
    by_cases hk : k = addr % 2 ^ ADDR_BITS
    · subst hk
      simp only [if_true, Option.getD_some]
      exact h1
    · simp only [hk, if_false]

theorem eval_timing_view (cfg : Config) (i : Inputs) (s s' : State)
    (h : eval_timing cfg i s = .ok s') :
    ∃ p s1, readRequest_timing cfg i p = .ok s1 ∧ p = prePair cfg i s ∧
      p.inflight_req = s.inflight_req ∧ p.inflight_req_order = s.inflight_req_order ∧
      p.ar_arready = s.ar_arready ∧ p.max_req_inflight = s.max_req_inflight ∧
      p.r_fifo = s.r_fifo ∧
      s'.inflight_req = s1.inflight_req ∧ s'.inflight_req_order = s1.inflight_req_order ∧
      s'.ar_arready = s1.ar_arready ∧ s'.max_req_inflight = s1.max_req_inflight := by
  obtain ⟨s1, s2, h1, h2, h3⟩ := eval_ok cfg Mode.timing i s s' h
  obtain ⟨q, r', q2, e0⟩ := prePair_shape cfg i s
  obtain ⟨r, b, qa, qw, qb, e2⟩ := pairWrite_shape cfg _ (writer_ok cfg Mode.timing) s1 s2 h2
  obtain ⟨f, f0, v, d, l, x, e3⟩ := readResponse_shape cfg i s2
  obtain ⟨v', d', f', e4⟩ := writeResponse_shape i (readResponse cfg i s2)
  refine ⟨prePair cfg i s, s1, h1, rfl, by rw [e0], by rw [e0], by rw [e0], by rw [e0],
    by rw [e0], ?_, ?_, ?_, ?_⟩ <;> rw [h3, e4, e3, e2]

theorem timing_cycle_fifo (cfg : Config) (i : Inputs) (s s' : State)
    (hc : Consistent s.inflight_req s.inflight_req_order)
    (h : eval_timing cfg i s = .ok s') :
    Consistent s'.inflight_req s'.inflight_req_order ∧
    (drainedIn cfg i s).map beatIdent ++
        (pendingView s'.inflight_req s'.inflight_req_order).map beatIdent =
      (pendingView s.inflight_req s.inflight_req_order).map beatIdent ++
        registeredIn cfg i s := by
  obtain ⟨p, s1, h1, hp, pt, po, pr, _, pf, e1, e2, _, _⟩ := eval_timing_view cfg i s s' h
  rw [e1, e2]
  have hd : drainedIn cfg i s =
      match s.inflight_req_order.head? with
      | some a => (s1.r_fifo.drop s.r_fifo.length).map (fun t => (a, t))
      | none => [] := by
    unfold drainedIn
    rw [← hp, h1]
    cases s.inflight_req_order.head? <;> rfl
  rw [hd, ← pt, ← po, ← pf]
  rw [← pt, ← po] at hc
  have hreg : registeredIn cfg i s = registeredIn cfg i p := by
    unfold registeredIn; rw [pr]
  rw [hreg]
  rcases readRequest_timing_cases cfg i p s1 h1 with
    ⟨hs, rfl⟩ | ⟨hs, a, rest, t, ts, ho, hl, hv, rfl⟩ | ⟨hs, a, rest, t, ts, ho, hl, hv, rfl⟩
  · obtain ⟨c, v⟩ := register_fold i.ar_arid
      (burstBeats (cfg.AXI_WIDTH / 8) (i.ar_arlen % 256) (alignAddr cfg i.ar_araddr)) _ _ hc
    refine ⟨c, ?_⟩
    simp only [v, List.drop_length, List.map_nil]
    have : (match p.inflight_req_order.head? with
        | some a => ([] : List (Nat × axi_r_txn))
        | none => []) = [] := by
      cases p.inflight_req_order.head? <;> rfl
    rw [this]
    simp only [List.map_nil, List.nil_append, List.map_append, List.append_cancel_left_eq]
    unfold registeredIn
    rw [if_pos hs, burstBeats_eq _ _ _ (alignAddr_lt cfg _), List.map_map, List.map_map]
    apply List.map_congr_left
    intro k hk
    have hk' : k ≤ i.ar_arlen % 256 := by
      have := List.mem_range.mp hk; omega
    simp only [Function.comp, beatIdent, placeholder, Prod.mk.injEq, true_and]
    by_cases hkn : k = i.ar_arlen % 256
    · simp [hkn]
    · have : i.ar_arlen % 256 - k ≠ 0 := by omega
      simp [hkn, this]
  · obtain ⟨c, v⟩ := drain_consistent p.inflight_req a rest t ts hl (ho ▸ hc)
    refine ⟨c, ?_⟩
    have hnr : ¬ (i.ar_arvalid && p.ar_arready) = true := by rw [hs]; exact Bool.false_ne_true
    unfold registeredIn
    rw [if_neg hnr, ho, v]
    simp only [List.head?_cons, List.drop_left, List.map_cons, List.map_nil, List.append_nil,
      List.cons_append, List.nil_append]
  · refine ⟨hc, ?_⟩
    simp only [List.drop_length, List.map_nil]
    have : (match p.inflight_req_order.head? with
        | some a => ([] : List (Nat × axi_r_txn))
        | none => []) = [] := by
      cases p.inflight_req_order.head? <;> rfl
    rw [this]
    have hnr : ¬ (i.ar_arvalid && p.ar_arready) = true := by rw [hs]; exact Bool.false_ne_true
    unfold registeredIn
    rw [if_neg hnr]
    simp

theorem construct_consistent (cfg : Config) (sram_ : Bool) (maxReq : Nat) :
    Consistent (construct cfg sram_ maxReq).inflight_req
      (construct cfg sram_ maxReq).inflight_req_order := by
  intro a
  exact ⟨rfl, fun h => by cases h⟩

theorem history_fifo (cfg : Config) (evs : List Event) :
    ∀ s : State, Consistent s.inflight_req s.inflight_req_order →
      ∃ rest, (pendingView s.inflight_req s.inflight_req_order).map beatIdent ++
          (timingHistory cfg evs s).1 =
        (timingHistory cfg evs s).2.map beatIdent ++ rest := by
  induction evs with
  | nil =>
    intro s _
    exact ⟨(pendingView s.inflight_req s.inflight_req_order).map beatIdent, by
      simp [timingHistory]⟩
  | cons e es ih =>
    intro s hc
    cases e with
    | cycle i =>
      unfold timingHistory
      cases h : eval_timing cfg i s with
      | error f =>
        exact ⟨(pendingView s.inflight_req s.inflight_req_order).map beatIdent, by simp⟩
      | ok s1 =>
        obtain ⟨c1, v1⟩ := timing_cycle_fifo cfg i s s1 hc h
        obtain ⟨rest, hr⟩ := ih s1 c1
        refine ⟨rest, ?_⟩
        simp only [List.map_append, List.append_assoc]
        rw [← hr, ← List.append_assoc, ← v1, List.append_assoc]
    | completion addr data =>
      unfold timingHistory
      cases h : inflight_resp cfg addr data s with
      | error f =>
        exact ⟨(pendingView s.inflight_req s.inflight_req_order).map beatIdent, by simp⟩
      | ok s1 =>
        obtain ⟨c1, _, v1⟩ := inflight_resp_consistent cfg addr data s s1 hc h
        obtain ⟨rest, hr⟩ := ih s1 c1
        refine ⟨rest, ?_⟩
        simp only
        rw [← v1]
        exact hr

/-- C1. In timing mode, for every interleaving of `eval_timing` cycles and
`inflight_resp` completions after construction, the beats moved from the
in-flight table to the response queue are, by address, id and last flag and in
this order, an initial part of the placeholders in the order of their
registration (request arrival order), whatever the order of the completions. -/
theorem drain_in_arrival_order (cfg : Config) (sram_ : Bool) (maxReq : Nat)
    (evs : List Event) :
    (timingHistory cfg evs (construct cfg sram_ maxReq)).2.map beatIdent <+:
      (timingHistory cfg evs (construct cfg sram_ maxReq)).1 := by
  obtain ⟨rest, h⟩ := history_fifo cfg evs (construct cfg sram_ maxReq)
    (construct_consistent cfg sram_ maxReq)
  exact ⟨rest, by simpa [construct, pendingView] using h.symm⟩

/-- Reads of `0x1000` then `0x2000`, completed in the opposite order: nothing
is drained while the first read is pending, then the beat of `0x1000` is
drained before the beat of `0x2000`, each with the data of its completion. -/
theorem reordered_completion_example :
    (timingHistory wideConfig
      [Event.cycle (readInputs 0x1000 1 0), Event.cycle idleInputs,
       Event.cycle (readInputs 0x2000 2 0), Event.completion 0x2000 (fun k => k + 7),
       Event.cycle idleInputs] (construct wideConfig false 8)).2 = [] ∧
    (timingHistory wideConfig
      [Event.cycle (readInputs 0x1000 1 0), Event.cycle idleInputs,
       Event.cycle (readInputs 0x2000 2 0), Event.completion 0x2000 (fun k => k + 7),
       Event.cycle idleInputs, Event.completion 0x1000 (fun k => k),
       Event.cycle idleInputs, Event.cycle idleInputs] (construct wideConfig false 8)).2 =
      [(0x1000, { rvalid := true, rlast := true, rid := 1, rdata := List.range 16 }),
       (0x2000, { rvalid := true, rlast := true, rid := 2,
                  rdata := (List.range 16).map (fun k => k + 7) })] := by
  constructor <;> rfl

/-! ## Runs -/

theorem run_invariant (cfg : Config) (m : Mode) (P : State → Prop)
    (hstep : ∀ e s s', P s → step cfg m e s = .ok s' → P s') :
    ∀ (evs : List Event) (s s' : State), P s → run cfg m evs s = .ok s' → P s' := by
  intro evs
  induction evs with
  | nil =>
    intro s s' hP h
    injection h with h
    exact h ▸ hP
  | cons e es ih =>
    intro s s' hP h
    unfold run at h
    split at h
    · rename_i s1 h1
      exact ih s1 s' (hstep e s s1 hP h1) h
    · cases h

theorem window_step (cfg : Config) (M : Nat) (e : Event) (s s' : State)
    (hw : WindowInv M s) (h : step cfg Mode.timing e s = .ok s') : WindowInv M s' := by
  obtain ⟨hm, hb, hr⟩ := hw
  cases e with
  | cycle i =>
    obtain ⟨p, s1, h1, _, _, po, pr, pm, _, _, e2, e3, e4⟩ := eval_timing_view cfg i s s' h
    unfold WindowInv
    rw [e2, e3, e4]
    rw [← po] at hb hr
    rw [← pr] at hr
    rw [← pm] at hm
    rcases readRequest_timing_cases cfg i p s1 h1 with
      ⟨hs, rfl⟩ | ⟨hs, a, rest, t, ts, ho, hl, hv, rfl⟩ | ⟨hs, a, rest, t, ts, ho, hl, hv, rfl⟩
    · have hrdy : p.ar_arready = true := by
        cases hv : i.ar_arvalid <;> simp [hv] at hs
        exact hs
      have := hr hrdy
      have hlen : i.ar_arlen % 256 < 256 := Nat.mod_lt _ (by decide)
      refine ⟨hm, ?_, fun hc => by cases hc⟩
      simp only [List.length_append, List.length_map, burstBeats_length]
      omega
    · refine ⟨hm, ?_, fun hc => by cases hc⟩
      rw [ho] at hb
      simp only [List.length_cons] at hb ⊢
      omega
    · refine ⟨hm, hb, fun hc => ?_⟩
      have hc' : p.inflight_req_order.length ≤ p.max_req_inflight := by simpa using hc
      rw [hm] at hc'
      exact hc'
  | completion addr data =>
    obtain ⟨l', _, rfl⟩ := inflight_resp_cases cfg addr data s s' h
    exact ⟨hm, hb, hr⟩

theorem construct_window (cfg : Config) (sram_ : Bool) (maxReq : Nat) :
    WindowInv (construct cfg sram_ maxReq).max_req_inflight (construct cfg sram_ maxReq) :=
  ⟨rfl, Nat.zero_le _, fun _ => Nat.zero_le _⟩

theorem window_invariant (cfg : Config) (sram_ : Bool) (maxReq : Nat) (evs : List Event)
    (s : State) (h : run cfg Mode.timing evs (construct cfg sram_ maxReq) = .ok s) :
    WindowInv (construct cfg sram_ maxReq).max_req_inflight s :=
  run_invariant cfg Mode.timing _ (fun e s s' => window_step cfg _ e s s') evs _ s
    (construct_window cfg sram_ maxReq) h

/-- C2, as the code has it. In timing mode, after every sequence of cycles and
completions that runs from construction, the count returned by
`getRequestsOnFlight()` is at most the window `max_req_inflight` plus 256, the
length of one burst. -/
theorem requests_on_flight_bound (cfg : Config) (sram_ : Bool) (maxReq : Nat)
    (evs : List Event) (s : State)
    (h : run cfg Mode.timing evs (construct cfg sram_ maxReq) = .ok s) :
    getRequestsOnFlight s ≤ s.max_req_inflight + 256 := by
  obtain ⟨hm, hb, _⟩ := window_invariant cfg sram_ maxReq evs s h
  unfold getRequestsOnFlight
  rw [hm]
  exact Nat.le_trans (Nat.mod_le _ _) hb

theorem requests_on_flight_bound_witness :
    run wideConfig Mode.timing burstAfterRead (construct wideConfig false 1) =
        .ok (stateOr (run wideConfig Mode.timing burstAfterRead (construct wideConfig false 1))
          (construct wideConfig false 1)) ∧
      getRequestsOnFlight
          (stateOr (run wideConfig Mode.timing burstAfterRead (construct wideConfig false 1))
            (construct wideConfig false 1)) ≤
        (stateOr (run wideConfig Mode.timing burstAfterRead (construct wideConfig false 1))
          (construct wideConfig false 1)).max_req_inflight + 256 :=
  ⟨rfl, requests_on_flight_bound wideConfig false 1 burstAfterRead _ rfl⟩

/-- C2 as stated fails. With a window of 1, a two-beat burst accepted right
after construction puts two requests in flight; and with single-beat reads,
a second read is accepted while one is in flight. -/
theorem window_exceeded :
    (∃ s, run wideConfig Mode.timing [Event.cycle (readInputs 0x1000 1 1)]
        (construct wideConfig false 1) = .ok s ∧
      s.max_req_inflight = 1 ∧ getRequestsOnFlight s = 2) ∧
    (∃ s, run wideConfig Mode.timing
        [Event.cycle (readInputs 0x1000 1 0), Event.cycle idleInputs,
         Event.cycle (readInputs 0x2000 2 0)] (construct wideConfig false 1) = .ok s ∧
      s.max_req_inflight = 1 ∧ getRequestsOnFlight s = 2) :=
  ⟨⟨_, rfl, rfl, rfl⟩, ⟨_, rfl, rfl, rfl⟩⟩

theorem consistent_step (cfg : Config) (e : Event) (s s' : State)
    (hc : Consistent s.inflight_req s.inflight_req_order)
    (h : step cfg Mode.timing e s = .ok s') :
    Consistent s'.inflight_req s'.inflight_req_order := by
  cases e with
  | cycle i => exact (timing_cycle_fifo cfg i s s' hc h).1
  | completion addr data => exact (inflight_resp_consistent cfg addr data s s' hc h).1

theorem pop_step (cfg : Config) (e : Event) (s s' : State)
    (h : step cfg Mode.timing e s = .ok s') :
    (s.inflight_req_order <+: s'.inflight_req_order) ∨
    ∃ a t ts, s.inflight_req_order = a :: s'.inflight_req_order ∧
      s.inflight_req a = some (t :: ts) ∧ t.rvalid = true := by
  cases e with
  | cycle i =>
    obtain ⟨p, s1, h1, _, pt, po, _, _, _, _, e2, _, _⟩ := eval_timing_view cfg i s s' h
    rw [e2, ← po, ← pt]
    rcases readRequest_timing_cases cfg i p s1 h1 with
      ⟨hs, rfl⟩ | ⟨hs, a, rest, t, ts, ho, hl, hv, rfl⟩ | ⟨hs, a, rest, t, ts, ho, hl, hv, rfl⟩
    · exact Or.inl ⟨_, rfl⟩
    · refine Or.inr ⟨a, t, ts, ho, ?_, hv⟩
      cases hx : p.inflight_req a with
      | none => rw [hx] at hl; cases hl
      | some l => rw [hx] at hl; exact congrArg some hl
    · exact Or.inl ⟨[], by simp⟩
  | completion addr data =>
    obtain ⟨l', _, rfl⟩ := inflight_resp_cases cfg addr data s s' h
    exact Or.inl ⟨[], by simp⟩

/-- C6. In every state that a timing-mode run reaches from construction, the
order queue and the pending map agree: every address occurs in the order queue
exactly as often as its pending list is long, and no address is mapped to an
empty list. An event from such a state leaves the old order queue in place as
an initial part of the new one, unless it removes exactly the queue head, and
then the front placeholder of the head's pending list is valid. -/
theorem order_queue_consistent (cfg : Config) (sram_ : Bool) (maxReq : Nat)
    (evs : List Event) (s : State)
    (h : run cfg Mode.timing evs (construct cfg sram_ maxReq) = .ok s) :
    (∀ a, s.inflight_req_order.count a = ((s.inflight_req a).getD []).length ∧
      s.inflight_req a ≠ some []) ∧
    ∀ e s', step cfg Mode.timing e s = .ok s' →
      (s.inflight_req_order <+: s'.inflight_req_order) ∨
      ∃ a t ts, s.inflight_req_order = a :: s'.inflight_req_order ∧
        s.inflight_req a = some (t :: ts) ∧ t.rvalid = true :=
  ⟨run_invariant cfg Mode.timing (fun st => Consistent st.inflight_req st.inflight_req_order)
      (fun e s s' => consistent_step cfg e s s') evs _ s
      (construct_consistent cfg sram_ maxReq) h,
    fun e s' => pop_step cfg e s s'⟩

theorem order_queue_consistent_witness :
    run wideConfig Mode.timing reorderedRun (construct wideConfig false 8) =
        .ok (stateOr (run wideConfig Mode.timing reorderedRun (construct wideConfig false 8))
          (construct wideConfig false 8)) ∧
      (stateOr (run wideConfig Mode.timing reorderedRun (construct wideConfig false 8))
          (construct wideConfig false 8)).inflight_req_order = [0x2000] ∧
      (stateOr (run wideConfig Mode.timing reorderedRun (construct wideConfig false 8))
          (construct wideConfig false 8)).inflight_req_order.count 0x2000 =
        (((stateOr (run wideConfig Mode.timing reorderedRun (construct wideConfig false 8))
          (construct wideConfig false 8)).inflight_req 0x2000).getD []).length :=
  ⟨rfl, rfl,
    ((order_queue_consistent wideConfig false 8 reorderedRun _ rfl).1 0x2000).1⟩

/-- C7. When the pending list of `addr` contains a placeholder that is not
valid, `inflight_resp(addr, data)` returns, and the state afterwards is the
state before except for the pending list of `addr`, which is the same list
except that its first placeholder that is not valid has received the
`AXI_WIDTH / 32` data words and is valid, with its id and last flag kept. -/
theorem inflight_resp_fills_oldest (cfg : Config) (addr : Nat) (data : Nat → Nat) (s : State)
    (pre : List axi_r_txn) (t : axi_r_txn) (post : List axi_r_txn)
    (hl : s.inflight_req (addr % 2 ^ 32) = some (pre ++ t :: post))
    (hpre : ∀ x ∈ pre, x.rvalid = true) (ht : t.rvalid = false) :
    inflight_resp cfg addr data s =
      .ok { s with
        inflight_req := fun k =>
          if k = addr % 2 ^ 32 then
            some (pre ++
              { rvalid := true, rlast := t.rlast, rid := t.rid,
                rdata := (List.range (cfg.AXI_WIDTH / 32)).map data } :: post)
          else s.inflight_req k } := by
  unfold inflight_resp
  simp only [ADDR_BITS, hl, Option.getD_some]
  rw [fillFirstInvalid_spec _ pre t post hpre ht]

theorem inflight_resp_fills_oldest_witness :
    twoPending.inflight_req (0x40 % 2 ^ 32) =
        some ([{ rvalid := true, rlast := true, rid := 1,
                 rdata := (List.range 16).map (fun k => k + 1) }] ++
          { rvalid := false, rlast := true, rid := 2, rdata := [] } :: []) ∧
      inflight_resp wideConfig 0x40 (fun k => k + 9) twoPending =
        .ok { twoPending with
          inflight_req := fun k =>
            if k = 0x40 % 2 ^ 32 then
              some ([{ rvalid := true, rlast := true, rid := 1,
                       rdata := (List.range 16).map (fun k => k + 1) }] ++
                { rvalid := true, rlast := true, rid := 2,
                  rdata := (List.range (wideConfig.AXI_WIDTH / 32)).map (fun k => k + 9) } :: [])
            else twoPending.inflight_req k } :=
  ⟨rfl, inflight_resp_fills_oldest wideConfig 0x40 (fun k => k + 9) twoPending
    [{ rvalid := true, rlast := true, rid := 1, rdata := (List.range 16).map (fun k => k + 1) }]
    { rvalid := false, rlast := true, rid := 2, rdata := [] } [] rfl (by decide) rfl⟩

/-! ## The read path of `eval_ram` -/

theorem readWord_fst (cfg : Config) (hBS : 0 < cfg.AXI_BLOCK_SIZE) (x : Nat) (s : State) :
    (readWord cfg x s).1 = wordPeek cfg s.ram x := by
  have h0 := read_ram_kept cfg x s
  have h1 := read_ram_kept cfg (x + 1) (read_ram cfg x s).2
  have h2 := read_ram_kept cfg (x + 2) (read_ram cfg (x + 1) (read_ram cfg x s).2).2
  have e0 := byteAt_eq_peek cfg hBS s x
  have e1 := byteAt_eq_peek cfg hBS (read_ram cfg x s).2 (x + 1)
  have e2 := byteAt_eq_peek cfg hBS (read_ram cfg (x + 1) (read_ram cfg x s).2).2 (x + 2)
  have e3 := byteAt_eq_peek cfg hBS
    (read_ram cfg (x + 2) (read_ram cfg (x + 1) (read_ram cfg x s).2).2).2 (x + 3)
  unfold byteAt at e0 e1 e2 e3
  rw [(h0.trans h1 |>.trans h2).2 hBS] at e3
  rw [(h0.trans h1).2 hBS] at e2
  rw [h0.2 hBS] at e1
  unfold readWord wordPeek
  simp only [e0, e1, e2, e3]

theorem wordPeek_congr (cfg : Config) (r1 r2 : Nat → Option (List Nat))
    (h : ∀ a, peek cfg r1 a = peek cfg r2 a) (x : Nat) : wordPeek cfg r1 x = wordPeek cfg r2 x := by
  unfold wordPeek
  simp only [h]

theorem readWords_fst (cfg : Config) (hBS : 0 < cfg.AXI_BLOCK_SIZE) (addr : Nat) :
    ∀ (n i : Nat) (s : State), (readWords cfg addr n i s).1 =
      (List.range n).map (fun j => wordPeek cfg s.ram (addr + (i + j) * 4)) := by
  intro n
  induction n with
  | zero => intro i s; rfl
  | succ n ih =>
    intro i s
    unfold readWords
    simp only
    rw [ih, readWord_fst cfg hBS, List.range_succ_eq_map, List.map_cons, List.map_map]
    simp only [Nat.add_zero, List.cons.injEq, true_and]
    apply List.map_congr_left
    intro j _
    simp only [Function.comp, Nat.succ_eq_add_one]
    rw [wordPeek_congr cfg _ _ ((readWord_kept cfg (addr + i * 4) s).2 hBS)]
    congr 2
    ring

theorem beatData_congr (cfg : Config) (hBS : 0 < cfg.AXI_BLOCK_SIZE) (s1 s2 : State)
    (h : ∀ a, peek cfg s1.ram a = peek cfg s2.ram a) (x : Nat) :
    beatData cfg s1 x = beatData cfg s2 x := by
  unfold beatData
  rw [readWords_fst cfg hBS, readWords_fst cfg hBS]
  apply List.map_congr_left
  intro j _
  exact wordPeek_congr cfg _ _ h _

theorem ram_fold (cfg : Config) (hBS : 0 < cfg.AXI_BLOCK_SIZE) (arid : Nat)
    (l : List (Nat × Nat)) :
    ∀ s : State, ∃ r, l.foldl (fun st p => ramBeat cfg arid p.1 p.2 st) s =
      { s with
        ram := r
        r_fifo := s.r_fifo ++ l.map (fun p =>
          { rvalid := true, rlast := (p.1 == 0), rid := arid, rdata := beatData cfg s p.2 }) } ∧
      ∀ a, peek cfg r a = peek cfg s.ram a := by
  induction l with
  | nil => intro s; exact ⟨s.ram, by simp, fun _ => rfl⟩
  | cons p l ih =>
    intro s
    obtain ⟨r1, h1, p1⟩ := readWords_shape cfg p.2 (cfg.AXI_WIDTH / 32) 0 s
    have hb : ramBeat cfg arid p.1 p.2 s =
        { s with
          ram := r1
          r_fifo := s.r_fifo ++
            [{ rvalid := true, rlast := (p.1 == 0), rid := arid, rdata := beatData cfg s p.2 }] } := by
      unfold ramBeat beatData
      simp only [h1]
    obtain ⟨r, h2, p2⟩ := ih (ramBeat cfg arid p.1 p.2 s)
    refine ⟨r, ?_, fun a => ?_⟩
    · rw [List.foldl_cons, h2, hb]
      simp only [List.map_cons, List.append_assoc, List.singleton_append]
      congr 3
      apply List.map_congr_left
      intro q _
      simp only [axi_r_txn.mk.injEq, true_and, and_true]
      exact beatData_congr cfg hBS _ _ (p1 hBS) _
    · rw [p2, hb]
      exact p1 hBS a

/-- A read-address handshake in `eval_ram`: the completion queue receives the
beats of the burst, in order, followed by the post-burst sentinels. -/
theorem readRequest_ram_handshake (cfg : Config) (hBS : 0 < cfg.AXI_BLOCK_SIZE) (i : Inputs)
    (s : State) (hs : (i.ar_arvalid && s.ar_arready) = true) :
    ∃ r, readRequest_ram cfg i s = .ok
      { s with
        ram := r
        r_fifo := s.r_fifo ++
          (List.range (i.ar_arlen % 256 + 1)).map
            (ramBurstBeat cfg s i.ar_arid (i.ar_arlen % 256) (alignAddr cfg i.ar_araddr)) ++
          List.replicate cfg.AXI_R_DELAY (gapSentinel cfg)
        ar_arready := false } ∧
      ∀ a, peek cfg r a = peek cfg s.ram a := by
  unfold readRequest_ram
  rw [if_pos hs, burstLoop_pure]
  obtain ⟨r, h, p⟩ := ram_fold cfg hBS i.ar_arid
    (burstBeats (cfg.AXI_WIDTH / 8) (i.ar_arlen % 256) (alignAddr cfg i.ar_araddr)) s
  refine ⟨r, ?_, p⟩
  simp only [h]
  rw [burstBeats_eq _ _ _ (alignAddr_lt cfg _), List.map_map]
  congr 4
  apply List.map_congr_left
  intro k hk
  have hk' : k ≤ i.ar_arlen % 256 := by
    have := List.mem_range.mp hk; omega
  simp only [Function.comp, ramBurstBeat, axi_r_txn.mk.injEq, true_and, and_true]
  by_cases hkn : k = i.ar_arlen % 256
  · simp [hkn]
  · have : i.ar_arlen % 256 - k ≠ 0 := by omega
    simp [hkn, this]

theorem burstLoop_first_error {σ : Type} (inc : Nat) (body : Nat → Nat → σ → Except Fault σ)
    (n addr : Nat) (s : σ) (f : Fault) (h : body n addr s = .error f) :
    burstLoop inc body n addr s = .error f := by
  cases n with
  | zero => exact h
  | succ n =>
    unfold burstLoop
    rw [h]

/-- A read-address handshake in `eval_atomic` reads through the null pointer
that `read_variable` returns. -/
theorem readRequest_atomic_faults (cfg : Config) (i : Inputs) (s : State)
    (hs : (i.ar_arvalid && s.ar_arready) = true) (hw : 0 < cfg.AXI_WIDTH / 32) :
    readRequest_atomic cfg i s = .error Fault.undefined := by
  unfold readRequest_atomic
  rw [if_pos hs, burstLoop_first_error _ _ _ _ _ Fault.undefined]
  unfold atomicBeat inflight_resp_atomic read_variable
  simp only [if_neg (Nat.pos_iff_ne_zero.mp hw)]

theorem eval_atomic_read_faults (cfg : Config) (i : Inputs) (s : State)
    (hs : (i.ar_arvalid && s.ar_arready) = true) (hw : 0 < cfg.AXI_WIDTH / 32) :
    eval_atomic cfg i s = .error Fault.undefined := by
  obtain ⟨q, r, q2, e0⟩ := prePair_shape cfg i s
  have hs' : (i.ar_arvalid && (prePair cfg i s).ar_arready) = true := by rw [e0]; exact hs
  have := readRequest_atomic_faults cfg i (prePair cfg i s) hs' hw
  unfold eval_atomic
  unfold prePair at this
  rw [this]

/-- A read-address handshake in `eval_timing`: table and order queue in terms
of the beat index. -/
theorem readRequest_timing_handshake (cfg : Config) (i : Inputs) (s : State)
    (hs : (i.ar_arvalid && s.ar_arready) = true) :
    ∃ s1, readRequest_timing cfg i s = .ok s1 ∧
      s1.inflight_req_order = s.inflight_req_order ++
        (List.range (i.ar_arlen % 256 + 1)).map (beatKey cfg (alignAddr cfg i.ar_araddr)) ∧
      s1.inflight_req = (List.range (i.ar_arlen % 256 + 1)).foldl
        (fun t k => register t (beatKey cfg (alignAddr cfg i.ar_araddr) k)
          { rvalid := false, rlast := (k == i.ar_arlen % 256), rid := i.ar_arid, rdata := [] })
        s.inflight_req ∧
      s1.r_fifo = s.r_fifo ∧ s1.ar_arready = false := by
  unfold readRequest_timing
  rw [if_pos hs, burstLoop_pure, timing_fold]
  refine ⟨_, rfl, ?_, ?_, rfl, rfl⟩
  · simp only
    rw [burstBeats_eq _ _ _ (alignAddr_lt cfg _), List.map_map]
    rfl
  · simp only
    rw [burstBeats_eq _ _ _ (alignAddr_lt cfg _), List.foldl_map]
    apply List.foldl_ext
    intro t k hk
    have hk' : k ≤ i.ar_arlen % 256 := by
      have := List.mem_range.mp hk; omega
    have hb : (i.ar_arlen % 256 - k == 0) = (k == i.ar_arlen % 256) := by
      by_cases hkn : k = i.ar_arlen % 256
      · simp [hkn]
      · have : i.ar_arlen % 256 - k ≠ 0 := by omega
        simp [hkn, this]
    simp only [placeholder, beatKey, hb]

/-! ## The boot queue -/

theorem readResponse_r0 (cfg : Config) (i : Inputs) (s : State) :
    ∃ x, s.r0_fifo ++ [x] =
      presentedIn i (readResponse cfg i s) ++ (readResponse cfg i s).r0_fifo := by
  unfold readResponse presentedIn
  cases hf : s.r_fifo with
  | nil =>
    refine ⟨bootSentinel cfg, ?_⟩
    cases hr : i.r_rready with
    | false => simp
    | true =>
      cases h0 : s.r0_fifo with
      | nil => simp
      | cons t ts => simp
  | cons b bs =>
    refine ⟨b, ?_⟩
    cases hr : i.r_rready with
    | false => simp
    | true =>
      cases h0 : s.r0_fifo with
      | nil => simp
      | cons t ts => simp

theorem eval_r0 (cfg : Config) (m : Mode) (i : Inputs) (s s' : State)
    (h : eval cfg m i s = .ok s') :
    ∃ x, s.r0_fifo ++ [x] = presentedIn i s' ++ s'.r0_fifo := by
  obtain ⟨s1, s2, h1, h2, h3⟩ := eval_ok cfg m i s s' h
  obtain ⟨q, r', q2, e0⟩ := prePair_shape cfg i s
  obtain ⟨r, tbl, o, f, b, rdy, e1, _⟩ := readRequest_shape cfg m i _ s1 h1
  obtain ⟨r2, b2, qa, qw, qb, e2⟩ := pairWrite_shape cfg _ (writer_ok cfg m) s1 s2 h2
  obtain ⟨v', d', f', e4⟩ := writeResponse_shape i (readResponse cfg i s2)
  obtain ⟨x, hx⟩ := readResponse_r0 cfg i s2
  have hr0 : s2.r0_fifo = s.r0_fifo := by rw [e2, e1, e0]
  refine ⟨x, ?_⟩
  rw [← hr0, hx, h3, e4]
  rfl

theorem presented_prefix (cfg : Config) (m : Mode) (evs : List Event) :
    ∀ s : State, ∃ tail, presentedLog cfg m evs s <+: s.r0_fifo ++ tail := by
  induction evs with
  | nil => intro s; exact ⟨[], List.nil_prefix⟩
  | cons e es ih =>
    intro s
    cases e with
    | cycle i =>
      unfold presentedLog
      cases h : eval cfg m i s with
      | error f => exact ⟨[], List.nil_prefix⟩
      | ok s1 =>
        obtain ⟨x, hx⟩ := eval_r0 cfg m i s s1 h
        obtain ⟨tail, ht⟩ := ih s1
        refine ⟨x :: tail, ?_⟩
        simp only
        have : s.r0_fifo ++ x :: tail = presentedIn i s1 ++ (s1.r0_fifo ++ tail) := by
          rw [← List.append_assoc, ← hx]; simp
        rw [this]
        exact (List.prefix_append_right_inj _).mpr ht
    | completion addr data =>
      unfold presentedLog
      cases h : inflight_resp cfg addr data s with
      | error f => exact ⟨[], List.nil_prefix⟩
      | ok s1 =>
        obtain ⟨l', _, rfl⟩ := inflight_resp_cases cfg addr data s s1 h
        exact ih _

/-- C9. After construction the boot queue holds exactly `AXI_R_LATENCY` beats,
each with valid false, id 0, last 0 and every data word `0xAAAAAAAA`; and in
every mode, whatever the cycles and completions that follow, each of the first
`AXI_R_LATENCY` beats presented on the read-response channel (in the cycles
with `r_rready`) is such a beat. -/
theorem warm_up_sentinels (cfg : Config) (sram_ : Bool) (maxReq : Nat) :
    (construct cfg sram_ maxReq).r0_fifo =
      List.replicate cfg.AXI_R_LATENCY
        { rvalid := false, rid := 0, rlast := false,
          rdata := List.replicate (cfg.AXI_WIDTH / 32) 0xAAAAAAAA } ∧
    ∀ (m : Mode) (evs : List Event) (k : Nat) (t : axi_r_txn), k < cfg.AXI_R_LATENCY →
      (presentedLog cfg m evs (construct cfg sram_ maxReq))[k]? = some t →
      t = { rvalid := false, rid := 0, rlast := false,
            rdata := List.replicate (cfg.AXI_WIDTH / 32) 0xAAAAAAAA } := by
  refine ⟨rfl, fun m evs k t hk ht => ?_⟩
  obtain ⟨tail, rest, hp⟩ := presented_prefix cfg m evs (construct cfg sram_ maxReq)
  have hlen : k < (presentedLog cfg m evs (construct cfg sram_ maxReq)).length := by
    by_contra hc
    rw [List.getElem?_eq_none (by omega)] at ht
    cases ht
  have h1 : (presentedLog cfg m evs (construct cfg sram_ maxReq) ++ rest)[k]? = some t := by
    rw [List.getElem?_append_left hlen]; exact ht
  rw [hp] at h1
  have h2 : (construct cfg sram_ maxReq).r0_fifo =
      List.replicate cfg.AXI_R_LATENCY (bootSentinel cfg) := rfl
  rw [h2, List.getElem?_append_left (by simpa using hk)] at h1
  rw [List.getElem?_replicate] at h1
  simp only [hk, if_true, Option.some.injEq] at h1
  rw [← h1]
  rfl

/-- C8. A read-address handshake with burst length `len = ar_arlen` and first
beat address `A` (the aligned `ar_araddr`): in functional mode the burst loop
returns and appends to the completion queue exactly `len + 1` valid beats, the
`k`-th holding the data read at `A + k * (AXI_WIDTH / 8)` (64-bit address
arithmetic), the id `ar_arid` and the last flag exactly for `k = len`, ahead of
the post-burst sentinels; in timing mode it returns and registers, for `k = 0,
.., len` in order, a placeholder with id `ar_arid` and last flag exactly for
`k = len` under the key of `A + k * (AXI_WIDTH / 8)`; in atomic mode, for a bus
of at least 32 bits, it does not return: the first beat reads through the null
pointer returned by `read_variable`. -/
theorem burst_split (cfg : Config) (i : Inputs) (s : State)
    (hBS : 0 < cfg.AXI_BLOCK_SIZE) (hs : (i.ar_arvalid && s.ar_arready) = true) :
    (∃ s1, readRequest cfg Mode.functional i s = .ok s1 ∧
      s1.r_fifo = s.r_fifo ++
        (List.range (i.ar_arlen % 256 + 1)).map (fun k =>
          { rvalid := true, rlast := (k == i.ar_arlen % 256), rid := i.ar_arid,
            rdata := beatData cfg s
              ((alignAddr cfg i.ar_araddr + k * (cfg.AXI_WIDTH / 8)) % 2 ^ 64) }) ++
        List.replicate cfg.AXI_R_DELAY (gapSentinel cfg)) ∧
    (∃ s1, readRequest cfg Mode.timing i s = .ok s1 ∧
      s1.inflight_req_order = s.inflight_req_order ++
        (List.range (i.ar_arlen % 256 + 1)).map (fun k =>
          (alignAddr cfg i.ar_araddr + k * (cfg.AXI_WIDTH / 8)) % 2 ^ 64 % 2 ^ 32) ∧
      s1.inflight_req = (List.range (i.ar_arlen % 256 + 1)).foldl
        (fun t k => register t
          ((alignAddr cfg i.ar_araddr + k * (cfg.AXI_WIDTH / 8)) % 2 ^ 64 % 2 ^ 32)
          { rvalid := false, rlast := (k == i.ar_arlen % 256), rid := i.ar_arid, rdata := [] })
        s.inflight_req) ∧
    (0 < cfg.AXI_WIDTH / 32 → readRequest cfg Mode.atomic i s = .error Fault.undefined) := by
  refine ⟨?_, ?_, fun hw => readRequest_atomic_faults cfg i s hs hw⟩
  · obtain ⟨r, h, _⟩ := readRequest_ram_handshake cfg hBS i s hs
    exact ⟨_, h, rfl⟩
  · obtain ⟨s1, h, ho, ht, _, _⟩ := readRequest_timing_handshake cfg i s hs
    exact ⟨s1, h, ho, ht⟩

theorem burst_split_witness :
    ((readInputs 0x1000 1 2).ar_arvalid && (construct wideConfig false 8).ar_arready) = true ∧
    (∃ s1, readRequest wideConfig Mode.functional (readInputs 0x1000 1 2)
        (construct wideConfig false 8) = .ok s1 ∧
      s1.r_fifo.map (fun t => (t.rvalid, t.rid, t.rlast)) =
        [(true, 1, false), (true, 1, false), (true, 1, true)]) ∧
    (∃ s1, readRequest wideConfig Mode.timing (readInputs 0x1000 1 2)
        (construct wideConfig false 8) = .ok s1 ∧
      s1.inflight_req_order = [0x1000, 0x1040, 0x1080]) ∧
    readRequest wideConfig Mode.atomic (readInputs 0x1000 1 2)
      (construct wideConfig false 8) = .error Fault.undefined :=
  have h := burst_split wideConfig (readInputs 0x1000 1 2) (construct wideConfig false 8)
    (by decide) rfl
  ⟨rfl, ⟨_, rfl, rfl⟩, ⟨_, rfl, rfl⟩, h.2.2 (by decide)⟩

/-- C10. A read-address handshake in functional mode returns and appends to the
completion queue the `len + 1` beats of the burst, every one valid and the
final one marked last, immediately followed by exactly `AXI_R_DELAY` beats with
valid false, id 0, last 0 and every data word `0x55555555`. In atomic mode, for
a bus of at least 32 bits, the cycle of a read-address handshake does not
complete: it reads through the null pointer returned by `read_variable`. -/
theorem post_burst_gap (cfg : Config) (i : Inputs) (s : State)
    (hBS : 0 < cfg.AXI_BLOCK_SIZE) (hs : (i.ar_arvalid && s.ar_arready) = true) :
    (∃ s1 beats, readRequest_ram cfg i s = .ok s1 ∧
      s1.r_fifo = s.r_fifo ++ beats ++
        List.replicate cfg.AXI_R_DELAY
          { rvalid := false, rid := 0, rlast := false,
            rdata := List.replicate (cfg.AXI_WIDTH / 32) 0x55555555 } ∧
      beats.length = i.ar_arlen % 256 + 1 ∧ (∀ b ∈ beats, b.rvalid = true) ∧
      (∀ k b, beats[k]? = some b → (b.rlast = true ↔ k = i.ar_arlen % 256))) ∧
    (0 < cfg.AXI_WIDTH / 32 → eval_atomic cfg i s = .error Fault.undefined) := by
  refine ⟨?_, fun hw => eval_atomic_read_faults cfg i s hs hw⟩
  obtain ⟨r, h, _⟩ := readRequest_ram_handshake cfg hBS i s hs
  refine ⟨_, _, h, rfl, by simp, ?_, ?_⟩
  · intro b hb
    obtain ⟨k, _, rfl⟩ := List.mem_map.mp hb
    rfl
  · intro k b hb
    rw [List.getElem?_map] at hb
    cases hk : (List.range (i.ar_arlen % 256 + 1))[k]? with
    | none => rw [hk] at hb; cases hb
    | some j =>
      rw [hk] at hb
      have hj : j = k := by
        have := List.getElem?_range (m := k) (n := i.ar_arlen % 256 + 1)
        by_cases hlt : k < i.ar_arlen % 256 + 1
        · rw [List.getElem?_range hlt] at hk
          injection hk with hk; exact hk.symm
        · rw [List.getElem?_eq_none (by simpa using hlt)] at hk; cases hk
      subst hj
      simp only [Option.map_some', Option.some.injEq] at hb
      subst hb
      simp [ramBurstBeat]

theorem post_burst_gap_witness :
    ((readInputs 0x1000 1 2).ar_arvalid && (construct wideConfig false 8).ar_arready) = true ∧
    eval_atomic wideConfig (readInputs 0x1000 1 2) (construct wideConfig false 8) =
      .error Fault.undefined :=
  ⟨rfl, (post_burst_gap wideConfig (readInputs 0x1000 1 2) (construct wideConfig false 8)
    (by decide) rfl).2 (by decide)⟩

/-- A data beat marked last for a request with a beat still to come aborts the
cycle in each mode; the same beat for a one-beat request does not. -/
theorem mismatch_aborts_example :
    eval smallConfig Mode.functional shortBurstWrite (construct smallConfig false 8) =
      .error Fault.abort ∧
    eval smallConfig Mode.atomic shortBurstWrite (construct smallConfig false 8) =
      .error Fault.abort ∧
    (∃ s, eval smallConfig Mode.atomic { shortBurstWrite with aw_awlen := 0 }
      (construct smallConfig false 8) = .ok s ∧ s.b_fifo = [{ bid := 1 }]) :=
  ⟨rfl, rfl, _, rfl, rfl⟩

/-! ## Cycles of `eval_timing` -/

theorem drainHead_valid (s : State) (a : Nat) (rest : List Nat) (t : axi_r_txn)
    (ts : List axi_r_txn) (ho : s.inflight_req_order = a :: rest)
    (hl : s.inflight_req a = some (t :: ts)) (hv : t.rvalid = true) :
    drainHead s = .ok
      { s with
        r_fifo := s.r_fifo ++ [t]
        inflight_req := fun k =>
          if k = a then (if ts.isEmpty then none else some ts) else s.inflight_req k
        inflight_req_order := rest
        ar_arready := false } := by
  unfold drainHead
  rw [ho]
  simp only [hl, Option.getD_some, hv, if_true]

theorem drainHead_wait (s : State) (a : Nat) (rest : List Nat) (t : axi_r_txn)
    (ts : List axi_r_txn) (ho : s.inflight_req_order = a :: rest)
    (hl : s.inflight_req a = some (t :: ts)) (hv : t.rvalid = false) :
    drainHead s = .ok
      { s with ar_arready := decide (s.inflight_req_order.length ≤ s.max_req_inflight) } := by
  unfold drainHead
  rw [ho]
  simp only [hl, Option.getD_some, hv, Bool.false_eq_true, if_false]
  by_cases hle : (a :: rest).length ≤ s.max_req_inflight
  · rw [if_pos hle]
    simp only [List.length_cons] at hle
    simp [hle]
  · rw [if_neg hle]
    simp only [List.length_cons] at hle
    simp
    omega

theorem drainHead_empty (s : State) (ho : s.inflight_req_order = []) :
    drainHead s = .error Fault.undefined := by
  unfold drainHead
  rw [ho]

theorem readRequest_timing_idle (cfg : Config) (i : Inputs) (s : State)
    (hs : (i.ar_arvalid && s.ar_arready) = false) :
    readRequest_timing cfg i (prePair cfg i s) = drainHead (prePair cfg i s) := by
  obtain ⟨q, r, q2, e0⟩ := prePair_shape cfg i s
  unfold readRequest_timing
  have : ¬ (i.ar_arvalid && (prePair cfg i s).ar_arready) = true := by
    rw [e0]
    show ¬ (i.ar_arvalid && s.ar_arready) = true
    rw [hs]; exact Bool.false_ne_true
  rw [if_neg this]

/-- A cycle completes once its read-request block has returned, unless the
write pairing finds a mismatch. -/
theorem eval_of_readRequest (cfg : Config) (m : Mode) (i : Inputs) (s s1 : State)
    (h1 : readRequest cfg m i (prePair cfg i s) = .ok s1)
    (hm : pairMismatch (prePair cfg i s) = false) :
    ∃ s', eval cfg m i s = .ok s' := by
  obtain ⟨q1, q2⟩ := readRequest_queues cfg m i _ s1 h1
  rw [eval_eq, h1]
  rcases pairWrite_cases cfg (writer cfg m) s1 with ⟨hm2, _⟩ | ⟨_, s2, h2⟩
  · rw [pairMismatch_congr _ _ q1 q2, hm] at hm2; cases hm2
  · refine ⟨writeResponse i (readResponse cfg i s2), ?_⟩
    simp only [h2]

/-- The part of the state that only the read-request block of a timing cycle
changes. -/
theorem eval_timing_table (cfg : Config) (i : Inputs) (s s1 s' : State)
    (h1 : readRequest_timing cfg i (prePair cfg i s) = .ok s1)
    (h : eval_timing cfg i s = .ok s') :
    s'.inflight_req = s1.inflight_req ∧ s'.inflight_req_order = s1.inflight_req_order ∧
      s'.ar_arready = s1.ar_arready ∧ s'.max_req_inflight = s1.max_req_inflight := by
  obtain ⟨p, s1', h1', hp, _, _, _, _, _, e1, e2, e3, e4⟩ := eval_timing_view cfg i s s' h
  subst hp
  rw [h1] at h1'
  injection h1' with h1'
  subst h1'
  exact ⟨e1, e2, e3, e4⟩

/-- C16. A timing cycle without a read-address handshake that is evaluated
with an empty order queue (as is the first cycle after construction when
`ar_arvalid` is low) does not complete with a defined result: the code takes
the front of the empty order queue. -/
theorem idle_cycle_takes_empty_front (cfg : Config) (i : Inputs) (s : State)
    (hs : (i.ar_arvalid && s.ar_arready) = false) (ho : s.inflight_req_order = []) :
    eval_timing cfg i s = .error Fault.undefined := by
  obtain ⟨q, r, q2, e0⟩ := prePair_shape cfg i s
  have h := readRequest_timing_idle cfg i s hs
  rw [drainHead_empty _ (by rw [e0]; exact ho)] at h
  unfold eval_timing
  unfold prePair at h
  rw [h]

theorem idle_cycle_takes_empty_front_witness :
    (idleInputs.ar_arvalid && (construct wideConfig false 8).ar_arready) = false ∧
    (construct wideConfig false 8).inflight_req_order = [] ∧
    eval_timing wideConfig idleInputs (construct wideConfig false 8) =
      .error Fault.undefined :=
  ⟨rfl, rfl, idle_cycle_takes_empty_front wideConfig idleInputs (construct wideConfig false 8)
    rfl rfl⟩

/-- C13 as stated fails. With a window of 1 and one read outstanding whose
placeholder is not valid yet, the outstanding count is not strictly below the
window; a cycle without read-address handshake completes and asserts
`ar_arready` all the same. -/
theorem ready_at_full_window :
    (idleInputs.ar_arvalid && onePending.ar_arready) = false ∧
    onePending.inflight_req_order = [0x1000] ∧
    onePending.inflight_req 0x1000 = some [placeholder 1 0] ∧
    onePending.max_req_inflight = 1 ∧
    ¬ (onePending.inflight_req_order.length < onePending.max_req_inflight) ∧
    ∃ s', eval_timing wideConfig idleInputs onePending = .ok s' ∧ s'.ar_arready = true :=
  ⟨rfl, rfl, rfl, rfl, by decide, _, rfl, rfl⟩

/-- C13, as the code has it. In a timing cycle without a read-address handshake
in which the order queue is non-empty and the front placeholder of its head is
not valid, nothing is drained and `ar_arready` is asserted exactly when the
length of the order queue is at most (`<=`) the window `max_req_inflight`: it
is asserted also when the length equals the window. -/
theorem waiting_head_ready (cfg : Config) (i : Inputs) (s : State) (a : Nat) (rest : List Nat)
    (t : axi_r_txn) (ts : List axi_r_txn)
    (hs : (i.ar_arvalid && s.ar_arready) = false) (ho : s.inflight_req_order = a :: rest)
    (hl : s.inflight_req a = some (t :: ts)) (hv : t.rvalid = false) :
    (pairMismatch (prePair cfg i s) = false → ∃ s', eval_timing cfg i s = .ok s') ∧
    ∀ s', eval_timing cfg i s = .ok s' →
      (s'.ar_arready = true ↔ s.inflight_req_order.length ≤ s.max_req_inflight) ∧
      s'.inflight_req_order = s.inflight_req_order ∧ s'.inflight_req = s.inflight_req := by
  obtain ⟨q, r, q2, e0⟩ := prePair_shape cfg i s
  have h1 := readRequest_timing_idle cfg i s hs
  rw [drainHead_wait (prePair cfg i s) a rest t ts (by rw [e0]; exact ho) (by rw [e0]; exact hl)
    hv] at h1
  refine ⟨fun hm => eval_of_readRequest cfg Mode.timing i s _ h1 hm, fun s' h => ?_⟩
  obtain ⟨e1, e2, e3, _⟩ := eval_timing_table cfg i s _ s' h1 h
  rw [e1, e2, e3, e0]
  exact ⟨by simp, rfl, rfl⟩

theorem waiting_head_ready_witness :
    onePending.inflight_req_order = [0x1000] ∧ onePending.max_req_inflight = 1 ∧
    (∃ s', eval_timing wideConfig idleInputs onePending = .ok s' ∧ s'.ar_arready = true) :=
  have h := waiting_head_ready wideConfig idleInputs onePending 0x1000 []
    { rvalid := false, rlast := true, rid := 1, rdata := [] } [] rfl rfl rfl rfl
  ⟨rfl, rfl, _, rfl, (h.2 _ rfl).1.mpr (by decide)⟩

/-- C14. In a timing cycle without a read-address handshake in which the front
placeholder `t` of the pending list of the order queue's head `a` is valid,
the read-request block appends exactly `t`, with its id, last flag and data, to
the completion queue, removes it from the front of the pending list of `a`
(erasing the map entry when the list becomes empty), removes exactly the head
of the order queue, leaves every other pending list as it was and deasserts
`ar_arready`; the rest of the cycle changes none of these but the completion
queue. -/
theorem drain_valid_head (cfg : Config) (i : Inputs) (s : State) (a : Nat) (rest : List Nat)
    (t : axi_r_txn) (ts : List axi_r_txn)
    (hs : (i.ar_arvalid && s.ar_arready) = false) (ho : s.inflight_req_order = a :: rest)
    (hl : s.inflight_req a = some (t :: ts)) (hv : t.rvalid = true) :
    (∃ s1, readRequest_timing cfg i (prePair cfg i s) = .ok s1 ∧
      s1.r_fifo = s.r_fifo ++ [t] ∧
      s1.inflight_req = (fun k =>
        if k = a then (if ts.isEmpty then none else some ts) else s.inflight_req k) ∧
      s1.inflight_req_order = rest ∧ s1.ar_arready = false) ∧
    (pairMismatch (prePair cfg i s) = false → ∃ s', eval_timing cfg i s = .ok s') ∧
    ∀ s', eval_timing cfg i s = .ok s' →
      s'.inflight_req = (fun k =>
        if k = a then (if ts.isEmpty then none else some ts) else s.inflight_req k) ∧
      s'.inflight_req_order = rest ∧ s'.ar_arready = false := by
  obtain ⟨q, r, q2, e0⟩ := prePair_shape cfg i s
  have h1 := readRequest_timing_idle cfg i s hs
  rw [drainHead_valid (prePair cfg i s) a rest t ts (by rw [e0]; exact ho) (by rw [e0]; exact hl)
    hv] at h1
  have ht : (fun k => if k = a then (if ts.isEmpty then none else some ts)
      else (prePair cfg i s).inflight_req k) =
      (fun k => if k = a then (if ts.isEmpty then none else some ts) else s.inflight_req k) := by
    rw [e0]
  have hf : (prePair cfg i s).r_fifo = s.r_fifo := by rw [e0]
  refine ⟨⟨_, h1, by rw [← hf], ht, rfl, rfl⟩,
    fun hm => eval_of_readRequest cfg Mode.timing i s _ h1 hm, fun s' h => ?_⟩
  obtain ⟨e1, e2, e3, _⟩ := eval_timing_table cfg i s _ s' h1 h
  rw [e1, e2, e3]
  exact ⟨ht, rfl, rfl⟩

theorem drain_valid_head_witness :
    oneCompleted.inflight_req_order = [0x1000] ∧
    (∃ s', eval_timing wideConfig idleInputs oneCompleted = .ok s' ∧
      s'.inflight_req_order = [] ∧ s'.inflight_req 0x1000 = none ∧ s'.ar_arready = false ∧
      s'.r0_fifo.getLast? = some (placeholderFilled 1 3)) :=
  have h := drain_valid_head wideConfig idleInputs oneCompleted 0x1000 []
    (placeholderFilled 1 3) [] rfl rfl rfl rfl
  ⟨rfl, _, rfl, (h.2.2 _ rfl).2.1, by rw [(h.2.2 _ rfl).1]; rfl, (h.2.2 _ rfl).2.2, rfl⟩

theorem readRequest_timing_backend (cfg : Config) (i : Inputs) (s : State)
    (hs : (i.ar_arvalid && s.ar_arready) = true) :
    ∃ s1, readRequest_timing cfg i s = .ok s1 ∧
      s1.backend = s.backend ++
        (List.range (i.ar_arlen % 256 + 1)).map (fun k =>
          BackendReq.read s.sram true (beatKey cfg (alignAddr cfg i.ar_araddr) k) 64) := by
  unfold readRequest_timing
  rw [if_pos hs, burstLoop_pure, timing_fold]
  refine ⟨_, rfl, ?_⟩
  simp only
  rw [burstBeats_eq _ _ _ (alignAddr_lt cfg _), List.map_map]
  rfl

/-- C15. In timing mode, a read-address handshake with first beat address `A`
(the aligned `ar_araddr`), id `ar_arid` and length `len = ar_arlen` appends,
for `k = 0, .., len` in this order, the placeholder with valid false, id
`ar_arid` and last flag `k == len` to the back of the pending list of the key
of `A + k * (AXI_WIDTH / 8)` and pushes that key on the order queue, issues one
timing backend read request of 64 bytes for each of these keys in the same
order and no other request, pushes nothing on the completion queue, raises
`getRequestsOnFlight()` by exactly `len + 1` and deasserts `ar_arready`. -/
theorem timing_handshake_registers (cfg : Config) (i : Inputs) (s : State)
    (hs : (i.ar_arvalid && s.ar_arready) = true)
    (hlen : s.inflight_req_order.length + 256 < 2 ^ 32) :
    (∃ s1, readRequest_timing cfg i (prePair cfg i s) = .ok s1 ∧
      s1.inflight_req = (List.range (i.ar_arlen % 256 + 1)).foldl
        (fun tbl k => register tbl
          ((alignAddr cfg i.ar_araddr + k * (cfg.AXI_WIDTH / 8)) % 2 ^ 64 % 2 ^ 32)
          { rvalid := false, rlast := (k == i.ar_arlen % 256), rid := i.ar_arid, rdata := [] })
        s.inflight_req ∧
      s1.inflight_req_order = s.inflight_req_order ++
        (List.range (i.ar_arlen % 256 + 1)).map (fun k =>
          (alignAddr cfg i.ar_araddr + k * (cfg.AXI_WIDTH / 8)) % 2 ^ 64 % 2 ^ 32) ∧
      s1.backend = s.backend ++
        (List.range (i.ar_arlen % 256 + 1)).map (fun k =>
          BackendReq.read s.sram true
            ((alignAddr cfg i.ar_araddr + k * (cfg.AXI_WIDTH / 8)) % 2 ^ 64 % 2 ^ 32) 64) ∧
      s1.r_fifo = s.r_fifo ∧ s1.ar_arready = false ∧
      getRequestsOnFlight s1 = getRequestsOnFlight s + (i.ar_arlen % 256 + 1)) ∧
    (pairMismatch (prePair cfg i s) = false → ∃ s', eval_timing cfg i s = .ok s') ∧
    ∀ s', eval_timing cfg i s = .ok s' →
      getRequestsOnFlight s' = getRequestsOnFlight s + (i.ar_arlen % 256 + 1) ∧
      s'.ar_arready = false := by
  obtain ⟨q, r, q2, e0⟩ := prePair_shape cfg i s
  have hs' : (i.ar_arvalid && (prePair cfg i s).ar_arready) = true := by rw [e0]; exact hs
  obtain ⟨s1, h1, ho, ht, hf, hr⟩ := readRequest_timing_handshake cfg i (prePair cfg i s) hs'
  obtain ⟨s1', h1', hb⟩ := readRequest_timing_backend cfg i (prePair cfg i s) hs'
  rw [h1] at h1'
  injection h1' with h1'
  subst h1'
  have hl256 : i.ar_arlen % 256 < 256 := Nat.mod_lt _ (by decide)
  have hcount : getRequestsOnFlight s1 = getRequestsOnFlight s + (i.ar_arlen % 256 + 1) := by
    unfold getRequestsOnFlight
    rw [ho, e0]
    simp only [List.length_append, List.length_map, List.length_range]
    have ha : s.inflight_req_order.length + (i.ar_arlen % 256 + 1) < 2 ^ 32 := by omega
    have hb : s.inflight_req_order.length < 2 ^ 32 := by omega
    rw [Nat.mod_eq_of_lt ha, Nat.mod_eq_of_lt hb]
  refine ⟨⟨s1, h1, ?_, ?_, ?_, ?_, hr, hcount⟩,
    fun hm => eval_of_readRequest cfg Mode.timing i s _ h1 hm, fun s' h => ?_⟩
  · rw [ht, e0]; rfl
  · rw [ho, e0]; rfl
  · rw [hb, e0]; rfl
  · rw [hf, e0]
  · obtain ⟨_, e2, e3, _⟩ := eval_timing_table cfg i s _ s' h1 h
    refine ⟨?_, by rw [e3, hr]⟩
    rw [← hcount]
    unfold getRequestsOnFlight
    rw [e2]

theorem timing_handshake_registers_witness :
    ((readInputs 0x1000 1 2).ar_arvalid && (construct wideConfig true 8).ar_arready) = true ∧
    (∃ s', eval_timing wideConfig (readInputs 0x1000 1 2) (construct wideConfig true 8) =
        .ok s' ∧
      s'.inflight_req_order = [0x1000, 0x1040, 0x1080] ∧
      s'.backend = [BackendReq.read true true 0x1000 64, BackendReq.read true true 0x1040 64,
        BackendReq.read true true 0x1080 64] ∧
      getRequestsOnFlight s' = getRequestsOnFlight (construct wideConfig true 8) + (2 % 256 + 1)) :=
  have h := timing_handshake_registers wideConfig (readInputs 0x1000 1 2)
    (construct wideConfig true 8) rfl (by decide)
  ⟨rfl, _, rfl, rfl, rfl, (h.2.2 _ rfl).1⟩

/-- C11 fails on the code. The read-request block of `eval_timing` appends to
the completion queue nothing but valid beats, so no post-burst sentinel is
ever queued in timing mode; and with `AXI_R_DELAY = 1`, after two single-beat
reads that are completed and drained in consecutive cycles, the beat marked
last of the first burst is followed directly by the beat of the second. -/
theorem timing_queues_no_gap :
    (∀ (cfg : Config) (i : Inputs) (p s1 : State), readRequest_timing cfg i p = .ok s1 →
      ∃ new, s1.r_fifo = p.r_fifo ++ new ∧ ∀ t ∈ new, t.rvalid = true) ∧
    smallConfig.AXI_R_DELAY = 1 ∧
    (stateOr (run smallConfig Mode.timing backToBackReads (construct smallConfig false 8))
      (construct smallConfig false 8)).r0_fifo =
      [{ rvalid := true, rlast := true, rid := 1, rdata := [1, 2] },
       { rvalid := true, rlast := true, rid := 2, rdata := [5, 6] }] := by
  refine ⟨fun cfg i p s1 h => ?_, rfl, rfl⟩
  rcases readRequest_timing_cases cfg i p s1 h with
    ⟨_, rfl⟩ | ⟨_, a, rest, t, ts, _, _, hv, rfl⟩ | ⟨_, a, rest, t, ts, _, _, _, rfl⟩
  · exact ⟨[], by simp, fun t ht => by cases ht⟩
  · refine ⟨[t], rfl, fun x hx => ?_⟩
    rw [List.mem_singleton.mp hx]; exact hv
  · exact ⟨[], by simp, fun t ht => by cases ht⟩

/-- C17 fails on the code. The method `read_variable` returns a null pointer
whatever the address, so in atomic mode, for a bus of at least 32 bits, the
cycle of a read-address handshake pushes no beat and does not complete: the
first beat reads its data through the null pointer. -/
theorem atomic_read_has_no_data (cfg : Config) (i : Inputs) (s : State)
    (hs : (i.ar_arvalid && s.ar_arready) = true) (hw : 0 < cfg.AXI_WIDTH / 32) :
    (∀ addr timing bytes st, (read_variable addr timing bytes st).1 = none) ∧
    eval_atomic cfg i s = .error Fault.undefined :=
  ⟨fun _ _ _ _ => rfl, eval_atomic_read_faults cfg i s hs hw⟩

theorem atomic_read_has_no_data_witness :
    ((readInputs 0x2000 3 0).ar_arvalid && (construct wideConfig false 8).ar_arready) = true ∧
    0 < wideConfig.AXI_WIDTH / 32 ∧
    eval_atomic wideConfig (readInputs 0x2000 3 0) (construct wideConfig false 8) =
      .error Fault.undefined :=
  ⟨rfl, by decide, (atomic_read_has_no_data wideConfig (readInputs 0x2000 3 0)
    (construct wideConfig false 8) rfl (by decide)).2⟩

/-! ## Write bursts -/

theorem pairWrite_step (cfg : Config) (wr : Nat → Nat → State → State) (s : State)
    (aw : axi_aw_txn) (aws : List axi_aw_txn) (w : axi_w_txn) (ws : List axi_w_txn)
    (haw : s.aw_fifo = aw :: aws) (hw : s.w_fifo = w :: ws)
    (hl : w.wlast = (aw.awlen == 0)) :
    pairWrite cfg wr s = .ok
      (if w.wlast then
        { applyStrobes cfg wr aw w s with
          aw_fifo := aws
          b_fifo := (applyStrobes cfg wr aw w s).b_fifo ++ [{ bid := aw.awid }]
          w_fifo := ws }
      else
        { applyStrobes cfg wr aw w s with
          aw_fifo := { aw with awlen := aw.awlen - 1,
                               awaddr := (aw.awaddr + cfg.AXI_WIDTH / 8) % 2 ^ ADDR_BITS } :: aws
          w_fifo := ws }) := by
  unfold pairWrite
  rw [haw, hw]
  simp only
  rw [if_neg (by rw [hl]; simp)]
  cases w.wlast <;> rfl

theorem pairSteps_succ (cfg : Config) (wr : Nat → Nat → State → State) (k : Nat)
    (s sk : State) (h : pairSteps cfg wr k s = .ok sk) :
    pairSteps cfg wr (k + 1) s = pairWrite cfg wr sk := by
  show (match pairSteps cfg wr k s with
    | .ok sk => pairWrite cfg wr sk
    | .error f => .error f) = _
  rw [h]

theorem burst_prefix (cfg : Config) (wr : Nat → Nat → State → State) (hwr : WriterOK cfg wr)
    (s : State) (awid A n : Nat) (aws : List axi_aw_txn) (beats rest : List axi_w_txn)
    (haw : s.aw_fifo = { awid := awid, awaddr := A, awlen := n } :: aws)
    (hw : s.w_fifo = beats ++ rest) (hlen : beats.length = n + 1)
    (hlast : ∀ k b, beats[k]? = some b → (b.wlast = true ↔ k = n))
    (hA : A < 2 ^ 32) :
    ∀ k, k ≤ n → ∃ sk, pairSteps cfg wr k s = .ok sk ∧
      sk.aw_fifo = { awid := awid, awaddr := (A + k * (cfg.AXI_WIDTH / 8)) % 2 ^ 32,
                     awlen := n - k } :: aws ∧
      sk.w_fifo = beats.drop k ++ rest ∧ sk.b_fifo = s.b_fifo := by
  intro k
  induction k with
  | zero =>
    intro _
    refine ⟨s, rfl, ?_, by simpa using hw, rfl⟩
    rw [haw]
    simp only [Nat.zero_mul, Nat.add_zero, Nat.sub_zero, Nat.mod_eq_of_lt hA]
  | succ k ih =>
    intro hk
    obtain ⟨sk, hsk, ha, hwq, hb⟩ := ih (by omega)
    have hkl : k < beats.length := by omega
    have hd : beats.drop k = beats[k] :: beats.drop (k + 1) := List.drop_eq_getElem_cons hkl
    have hnl : beats[k].wlast = false := by
      have := hlast k beats[k] (List.getElem?_eq_getElem hkl)
      cases hx : beats[k].wlast
      · rfl
      · have := this.mp hx; omega
    have hstep := pairWrite_step cfg wr sk _ aws beats[k] (beats.drop (k + 1) ++ rest) ha
      (by rw [hwq, hd]; rfl) (by
        rw [hnl]
        have : n - k ≠ 0 := by omega
        simp [this])
    rw [hnl] at hstep
    simp only [Bool.false_eq_true, if_false] at hstep
    obtain ⟨r, b, hshape⟩ := applyStrobes_shape cfg wr hwr
      { awid := awid, awaddr := (A + k * (cfg.AXI_WIDTH / 8)) % 2 ^ 32, awlen := n - k }
      beats[k] sk
    refine ⟨_, (pairSteps_succ cfg wr k s sk hsk).trans hstep, ?_, rfl, ?_⟩
    · simp only [ADDR_BITS, Nat.mod_add_mod, List.cons.injEq, axi_aw_txn.mk.injEq, true_and,
        and_true]
      constructor
      · congr 1; ring
      · omega
    · rw [hshape]; exact hb

/-- C12. In every mode, let the head of the address queue be a write request
with id `awid`, address `A` and length `n`, and let the data queue start with
`n + 1` beats of which exactly the last is marked last. Then none of the
`n + 1` pairings aborts; pairing `k` (`0 <= k <= n`) finds the request at the
head with address `A + k * (AXI_WIDTH / 8)` (in 32-bit arithmetic) and
remaining length `n - k`, with no response queued so far, and applies beat `k`
at that address; after a beat that is not the last the request is still at the
head with the next address and one beat less, and no response is queued; after
the last beat the request is gone and exactly one response, carrying `awid`,
has been appended to the write-response queue. -/
theorem write_burst_pairing (cfg : Config) (m : Mode) (s : State) (awid A n : Nat)
    (aws : List axi_aw_txn) (beats rest : List axi_w_txn)
    (haw : s.aw_fifo = { awid := awid, awaddr := A, awlen := n } :: aws)
    (hw : s.w_fifo = beats ++ rest) (hlen : beats.length = n + 1)
    (hlast : ∀ k b, beats[k]? = some b → (b.wlast = true ↔ k = n))
    (hA : A < 2 ^ 32) :
    ∀ k, k ≤ n → ∃ sk b sk',
      pairSteps cfg (writer cfg m) k s = .ok sk ∧ beats[k]? = some b ∧
      sk.aw_fifo = { awid := awid, awaddr := (A + k * (cfg.AXI_WIDTH / 8)) % 2 ^ 32,
                     awlen := n - k } :: aws ∧
      sk.b_fifo = s.b_fifo ∧
      pairSteps cfg (writer cfg m) (k + 1) s = .ok sk' ∧
      sk'.ram = (applyStrobes cfg (writer cfg m)
        { awid := awid, awaddr := (A + k * (cfg.AXI_WIDTH / 8)) % 2 ^ 32, awlen := n - k }
        b sk).ram ∧
      sk'.w_fifo = beats.drop (k + 1) ++ rest ∧
      (k < n → sk'.aw_fifo =
          { awid := awid, awaddr := (A + (k + 1) * (cfg.AXI_WIDTH / 8)) % 2 ^ 32,
            awlen := n - (k + 1) } :: aws ∧
        sk'.b_fifo = s.b_fifo) ∧
      (k = n → sk'.aw_fifo = aws ∧ sk'.b_fifo = s.b_fifo ++ [{ bid := awid }]) := by
  intro k hk
  obtain ⟨sk, hsk, ha, hwq, hb⟩ := burst_prefix cfg (writer cfg m) (writer_ok cfg m) s awid A n
    aws beats rest haw hw hlen hlast hA k hk
  have hkl : k < beats.length := by omega
  have hd : beats.drop k = beats[k] :: beats.drop (k + 1) := List.drop_eq_getElem_cons hkl
  have hget : beats[k]? = some beats[k] := List.getElem?_eq_getElem hkl
  have hiff := hlast k beats[k] hget
  obtain ⟨r, bk, hshape⟩ := applyStrobes_shape cfg (writer cfg m) (writer_ok cfg m)
    { awid := awid, awaddr := (A + k * (cfg.AXI_WIDTH / 8)) % 2 ^ 32, awlen := n - k }
    beats[k] sk
  have hl : beats[k].wlast = ((n - k) == 0) := by
    by_cases hkn : k = n
    · rw [hiff.mpr hkn]; simp [hkn]
    · have h1 : beats[k].wlast = false := by
        cases hx : beats[k].wlast
        · rfl
        · exact absurd (hiff.mp hx) hkn
      have h2 : n - k ≠ 0 := by omega
      rw [h1]; simp [h2]
  have hstep := pairWrite_step cfg (writer cfg m) sk _ aws beats[k] (beats.drop (k + 1) ++ rest)
    ha (by rw [hwq, hd]; rfl) hl
  refine ⟨sk, beats[k], _, hsk, hget, ha, hb,
    (pairSteps_succ cfg (writer cfg m) k s sk hsk).trans hstep, ?_, ?_, ?_, ?_⟩
  · split <;> rfl
  · split <;> rfl
  · intro hlt
    have h1 : beats[k].wlast = false := by
      cases hx : beats[k].wlast
      · rfl
      · have := hiff.mp hx; omega
    rw [h1]
    simp only [Bool.false_eq_true, if_false]
    refine ⟨?_, by rw [hshape]; exact hb⟩
    simp only [ADDR_BITS, Nat.mod_add_mod, List.cons.injEq, axi_aw_txn.mk.injEq, true_and,
      and_true]
    constructor
    · congr 1; ring
    · omega
  · intro heq
    rw [hiff.mpr heq]
    simp only [if_true]
    refine ⟨trivial, ?_⟩
    rw [hshape]
    show sk.b_fifo ++ _ = _
    rw [hb]

theorem write_burst_pairing_witness :
    (∃ sk b sk',
      pairSteps smallConfig (writer smallConfig Mode.functional) 2 queuedBurst = .ok sk ∧
      queuedBurst.w_fifo[2]? = some b ∧
      sk.aw_fifo = { awid := 7, awaddr := (0x20 + 2 * (smallConfig.AXI_WIDTH / 8)) % 2 ^ 32,
                     awlen := 2 - 2 } :: [] ∧
      sk.b_fifo = queuedBurst.b_fifo ∧
      pairSteps smallConfig (writer smallConfig Mode.functional) (2 + 1) queuedBurst = .ok sk' ∧
      sk'.ram = (applyStrobes smallConfig (writer smallConfig Mode.functional)
        { awid := 7, awaddr := (0x20 + 2 * (smallConfig.AXI_WIDTH / 8)) % 2 ^ 32, awlen := 2 - 2 }
        b sk).ram ∧
      sk'.w_fifo = queuedBurst.w_fifo.drop (2 + 1) ++ [] ∧
      (2 < 2 → sk'.aw_fifo =
          { awid := 7, awaddr := (0x20 + (2 + 1) * (smallConfig.AXI_WIDTH / 8)) % 2 ^ 32,
            awlen := 2 - (2 + 1) } :: [] ∧
        sk'.b_fifo = queuedBurst.b_fifo) ∧
      (2 = 2 → sk'.aw_fifo = [] ∧ sk'.b_fifo = queuedBurst.b_fifo ++ [{ bid := 7 }])) ∧
    (∃ sk', pairSteps smallConfig (writer smallConfig Mode.functional) 3 queuedBurst = .ok sk' ∧
      sk'.aw_fifo = [] ∧ sk'.w_fifo = [] ∧ sk'.b_fifo = [{ bid := 7 }] ∧
      byteAt smallConfig sk' 0x20 = 1 ∧ byteAt smallConfig sk' 0x28 = 3 ∧
      byteAt smallConfig sk' 0x30 = 5) :=
  ⟨write_burst_pairing smallConfig Mode.functional queuedBurst 7 0x20 2 [] queuedBurst.w_fifo []
      rfl rfl rfl
      (by
        intro k b hb
        rcases k with _ | _ | _ | k <;> simp [queuedBurst] at hb <;> subst hb <;> simp)
      (by decide) 2 (by decide),
    _, rfl, rfl, rfl, rfl, rfl, rfl, rfl⟩

/-! ## Backend requests -/

theorem write_ram_backend (cfg : Config) (a d : Nat) (s : State) :
    (write_ram cfg a d s).backend = s.backend :=
  rfl

theorem write_ram_sram (cfg : Config) (a d : Nat) (s : State) :
    (write_ram cfg a d s).sram = s.sram :=
  rfl

theorem strobes_backend_write (cfg : Config) (aw : axi_aw_txn) (w : axi_w_txn) (s : State)
    (n : Nat) :
    ((List.range n).foldl
        (fun st i => if strobeSet w i then write cfg (aw.awaddr + i) (strobeByte w i) false st
          else st) s).backend =
      s.backend ++ ((List.range n).filter (strobeSet w)).map (fun k =>
        BackendReq.write s.sram false ((aw.awaddr + k) % 2 ^ ADDR_BITS) (strobeByte w k)) ∧
    ((List.range n).foldl
        (fun st i => if strobeSet w i then write cfg (aw.awaddr + i) (strobeByte w i) false st
          else st) s).sram = s.sram := by
  induction n with
  | zero => exact ⟨by simp, rfl⟩
  | succ n ih =>
    obtain ⟨hb, hsr⟩ := ih
    rw [List.range_succ, List.foldl_append, List.foldl_cons, List.foldl_nil,
      List.filter_append, List.map_append]
    by_cases hs : strobeSet w n = true
    · rw [if_pos hs]
      refine ⟨?_, hsr⟩
      show _ ++ [BackendReq.write _ false _ _] = _
      rw [write_ram_backend, write_ram_sram, hb, hsr, Nat.mod_eq_of_lt (strobeByte_lt w n)]
      simp [hs]
    · rw [if_neg hs]
      refine ⟨?_, hsr⟩
      rw [hb]
      simp [hs]

theorem strobes_backend_ram (cfg : Config) (aw : axi_aw_txn) (w : axi_w_txn) (s : State)
    (n : Nat) :
    ∃ r, (List.range n).foldl
        (fun st i => if strobeSet w i then write_ram cfg (aw.awaddr + i) (strobeByte w i) st
          else st) s = { s with ram := r } := by
  induction n with
  | zero => exact ⟨s.ram, rfl⟩
  | succ n ih =>
    obtain ⟨r, h⟩ := ih
    rw [List.range_succ, List.foldl_append, List.foldl_cons, List.foldl_nil, h]
    by_cases hs : strobeSet w n = true
    · rw [if_pos hs]; exact ⟨_, rfl⟩
    · rw [if_neg hs]; exact ⟨r, rfl⟩

theorem applyStrobes_backend (cfg : Config) (m : Mode) (aw : axi_aw_txn) (w : axi_w_txn)
    (s : State) :
    (applyStrobes cfg (writer cfg m) aw w s).backend =
      s.backend ++ (if m = Mode.functional then [] else strobeWrites cfg s.sram aw w) := by
  unfold applyStrobes
  cases m with
  | functional =>
    obtain ⟨r, h⟩ := strobes_backend_ram cfg aw w s (cfg.AXI_WIDTH / 8)
    simp only [writer, if_true, List.append_nil]
    rw [h]
  | atomic =>
    obtain ⟨h, _⟩ := strobes_backend_write cfg aw w s (cfg.AXI_WIDTH / 8)
    simp only [writer, reduceCtorEq, if_false]
    rw [h]
    rfl
  | timing =>
    obtain ⟨h, _⟩ := strobes_backend_write cfg aw w s (cfg.AXI_WIDTH / 8)
    simp only [writer, reduceCtorEq, if_false]
    rw [h]
    rfl

theorem pairWrite_backend (cfg : Config) (m : Mode) (s s' : State)
    (h : pairWrite cfg (writer cfg m) s = .ok s') :
    s'.backend = s.backend ++
      (if m = Mode.functional then [] else pairedWrites cfg s.sram s) := by
  unfold pairedWrites
  cases haw : s.aw_fifo with
  | nil =>
    unfold pairWrite at h
    rw [haw] at h
    injection h with h
    subst h
    simp
  | cons aw aws =>
    cases hw : s.w_fifo with
    | nil =>
      unfold pairWrite at h
      rw [haw, hw] at h
      injection h with h
      subst h
      simp
    | cons w ws =>
      obtain ⟨hl, _⟩ := pairWrite_heads cfg _ (writer_ok cfg m) s s' aw aws w ws haw hw h
      rw [pairWrite_step cfg _ s aw aws w ws haw hw hl] at h
      injection h with h
      subst h
      simp only
      rw [← applyStrobes_backend]
      split <;> rfl

theorem readWords_backend (cfg : Config) (addr n i : Nat) (s : State) :
    (readWords cfg addr n i s).2.backend = s.backend := by
  obtain ⟨r, h, _⟩ := readWords_shape cfg addr n i s
  rw [h]

theorem readRequest_backend (cfg : Config) (m : Mode) (i : Inputs) (p s1 : State)
    (h : readRequest cfg m i p = .ok s1) :
    ∃ reads, (∀ r ∈ reads, isRead r = true) ∧ s1.backend = p.backend ++ reads ∧
      (m = Mode.functional → reads = []) := by
  cases m with
  | functional =>
    refine ⟨[], (fun r hr => by cases hr), ?_, fun _ => rfl⟩
    simp only [readRequest, readRequest_ram] at h
    rw [List.append_nil]
    split at h
    · split at h
      · rename_i s2 h2
        have := burstLoop_inv (fun st : State => st.backend = p.backend) _ _ (by
          intro l a st st' hst hb
          injection hb with hb
          subst hb
          unfold ramBeat
          exact (readWords_backend cfg a (cfg.AXI_WIDTH / 32) 0 st).trans hst) _ _ p s2 rfl h2
        injection h with h
        subst h
        exact this
      · cases h
    · injection h with h
      subst h
      rfl
  | atomic =>
    simp only [readRequest, readRequest_atomic] at h
    split at h
    · split at h
      · rename_i s2 h2
        have := burstLoop_inv
          (fun st : State => ∃ reads, (∀ r ∈ reads, isRead r = true) ∧
            st.backend = p.backend ++ reads) _ _ (by
          intro l a st st' hst hb
          obtain ⟨reads, hr, he⟩ := hst
          unfold atomicBeat at hb
          simp only [read_variable] at hb
          split at hb
          · injection hb with hb
            subst hb
            refine ⟨reads ++ [BackendReq.read st.sram false (a % 2 ^ ADDR_BITS) (512 / 8)], ?_, ?_⟩
            · intro r hmem
              rcases List.mem_append.mp hmem with h1 | h1
              · exact hr r h1
              · rw [List.mem_singleton.mp h1]; rfl
            · show st.backend ++ _ = _
              rw [he, List.append_assoc]
          · cases hb) _ _ p s2 ⟨[], (fun r hr => by cases hr), by simp⟩ h2
        obtain ⟨reads, hr, he⟩ := this
        injection h with h
        subst h
        exact ⟨reads, hr, he, fun hc => by cases hc⟩
      · cases h
    · injection h with h
      subst h
      exact ⟨[], (fun r hr => by cases hr), by simp, fun hc => by cases hc⟩
  | timing =>
    rcases readRequest_timing_cases cfg i p s1 h with
      ⟨_, rfl⟩ | ⟨_, a, rest, t, ts, _, _, _, rfl⟩ | ⟨_, a, rest, t, ts, _, _, _, rfl⟩
    · refine ⟨_, ?_, rfl, fun hc => by cases hc⟩
      intro r hr
      obtain ⟨q, _, rfl⟩ := List.mem_map.mp hr
      rfl
    · exact ⟨[], (fun r hr => by cases hr), by simp, fun hc => by cases hc⟩
    · exact ⟨[], (fun r hr => by cases hr), by simp, fun hc => by cases hc⟩

theorem eval_backend (cfg : Config) (m : Mode) (i : Inputs) (s s' : State)
    (h : eval cfg m i s = .ok s') :
    ∃ reads, (∀ r ∈ reads, isRead r = true) ∧ (m = Mode.functional → reads = []) ∧
      s'.backend = s.backend ++ reads ++
        (if m = Mode.functional then [] else pairedWrites cfg s.sram (prePair cfg i s)) := by
  obtain ⟨s1, s2, h1, h2, h3⟩ := eval_ok cfg m i s s' h
  obtain ⟨q, r', q2, e0⟩ := prePair_shape cfg i s
  obtain ⟨r, tbl, o, f, b, rdy, e1, _⟩ := readRequest_shape cfg m i _ s1 h1
  obtain ⟨f3, f0, v, d, l, x, e3⟩ := readResponse_shape cfg i s2
  obtain ⟨v', d', f', e4⟩ := writeResponse_shape i (readResponse cfg i s2)
  obtain ⟨reads, hr, hb, hf⟩ := readRequest_backend cfg m i _ s1 h1
  obtain ⟨qa, qw⟩ := readRequest_queues cfg m i _ s1 h1
  have hp := pairWrite_backend cfg m s1 s2 h2
  have hsram : s1.sram = s.sram := by rw [e1, e0]
  have hpw : pairedWrites cfg s1.sram s1 = pairedWrites cfg s.sram (prePair cfg i s) := by
    unfold pairedWrites
    rw [hsram, qa, qw]
  have hb0 : (prePair cfg i s).backend = s.backend := by rw [e0]
  refine ⟨reads, hr, hf, ?_⟩
  rw [h3, e4, e3]
  show s2.backend = _
  rw [hp, hb, hpw, hb0]

/-- C18. In atomic and timing modes, the backend requests that a cycle issues
are the read requests of its read-request block followed by exactly one write
request (with the timing flag low) for each strobe-enabled byte of the paired
write beat, in ascending byte order, and none when no beat is paired; the
address and the byte of each write request are those that the Block Store
holds after the cycle. In functional mode a cycle issues no backend request,
and the backend record of a run from construction stays empty. -/
theorem backend_write_requests (cfg : Config) (i : Inputs) (s : State) :
    (∀ m s', m ≠ Mode.functional → eval cfg m i s = .ok s' →
      ∃ reads, (∀ r ∈ reads, isRead r = true) ∧
        s'.backend = s.backend ++ reads ++ pairedWrites cfg s.sram (prePair cfg i s)) ∧
    (∀ m s' aw aws w ws, 0 < cfg.AXI_BLOCK_SIZE →
      (prePair cfg i s).aw_fifo = aw :: aws → (prePair cfg i s).w_fifo = w :: ws →
      aw.awaddr + cfg.AXI_WIDTH / 8 ≤ 2 ^ 32 → eval cfg m i s = .ok s' →
      pairedWrites cfg s.sram (prePair cfg i s) =
        ((List.range (cfg.AXI_WIDTH / 8)).filter (strobeSet w)).map (fun k =>
          BackendReq.write s.sram false (aw.awaddr + k) (strobeByte w k)) ∧
      ∀ k, k < cfg.AXI_WIDTH / 8 → strobeSet w k = true →
        byteAt cfg s' (aw.awaddr + k) = strobeByte w k) ∧
    (∀ s', eval_ram cfg i s = .ok s' → s'.backend = s.backend) ∧
    (∀ sram_ maxReq evs s',
      run cfg Mode.functional evs (construct cfg sram_ maxReq) = .ok s' → s'.backend = []) := by
  refine ⟨fun m s' hm h => ?_, fun m s' aw aws w ws hBS haw hw hwrap h => ⟨?_, fun k hk hs => ?_⟩,
    fun s' h => ?_, fun sram_ maxReq evs s' h => ?_⟩
  · obtain ⟨reads, hr, _, hb⟩ := eval_backend cfg m i s s' h
    rw [if_neg hm] at hb
    exact ⟨reads, hr, hb⟩
  · unfold pairedWrites strobeWrites
    rw [haw, hw]
    simp only
    apply List.map_congr_left
    intro k hk
    have hk' : k < cfg.AXI_WIDTH / 8 := List.mem_range.mp (List.mem_filter.mp hk).1
    rw [Nat.mod_eq_of_lt (show aw.awaddr + k < 2 ^ ADDR_BITS by
      have : (2 : Nat) ^ ADDR_BITS = 2 ^ 32 := rfl
      omega)]
  · have hp := cycle_peek cfg hBS m i s s' aw aws w ws haw hw hwrap h (aw.awaddr + k)
    have h32 : (2 : Nat) ^ ADDR_BITS = 2 ^ 32 := rfl
    rw [byteAt_eq_peek cfg hBS, Nat.mod_eq_of_lt (by omega), hp, if_pos]
    · simp only [Nat.add_sub_cancel_left]
    · refine ⟨by omega, by omega, ?_⟩
      simpa using hs
  · obtain ⟨reads, _, hf, hb⟩ := eval_backend cfg Mode.functional i s s' h
    rw [hb, hf rfl]
    simp
  · refine run_invariant cfg Mode.functional (fun st => st.backend = []) ?_ evs _ s' rfl h
    intro e st st' hst hstep
    cases e with
    | cycle j =>
      obtain ⟨reads, _, hf, hb⟩ := eval_backend cfg Mode.functional j st st' hstep
      rw [hb, hf rfl, hst]
      simp
    | completion addr data =>
      obtain ⟨l', _, rfl⟩ := inflight_resp_cases cfg addr data st st' hstep
      exact hst

/-- The write of bytes 0 and 2 at address 16 in atomic mode: two backend write
requests, in byte order, and the same two bytes in the Block Store. -/
theorem backend_writes_example :
    ∃ s', eval smallConfig Mode.atomic strobedWrite (construct smallConfig true 8) = .ok s' ∧
      s'.backend = [BackendReq.write true false 16 0x11, BackendReq.write true false 18 0x33] ∧
      byteAt smallConfig s' 16 = 0x11 ∧ byteAt smallConfig s' 18 = 0x33 :=
  ⟨_, rfl, rfl, rfl, rfl⟩

/-! ## The response steps -/

theorem writeResponse_valid (i : Inputs) (s : State) :
    (writeResponse i s).b_bvalid = (i.b_bready && !s.b_fifo.isEmpty) ∧
    ((writeResponse i s).b_bvalid = true →
      ∃ b, s.b_fifo = b :: (writeResponse i s).b_fifo ∧ (writeResponse i s).b_bid = b.bid) ∧
    ((writeResponse i s).b_bvalid = false → (writeResponse i s).b_fifo = s.b_fifo) := by
  unfold writeResponse
  cases hr : i.b_bready <;> cases hb : s.b_fifo <;> simp

/-- C19 as stated fails. A write burst completes in a cycle in which `b_bready`
is low: at the write-response step the queue holds the response of id 1 (it
still does after the cycle) and `b_bvalid` is driven low. -/
theorem b_bvalid_low_with_response :
    ∃ s', eval smallConfig Mode.functional strobedWrite (construct smallConfig false 8) = .ok s' ∧
      strobedWrite.b_bready = false ∧ s'.b_fifo = [{ bid := 1 }] ∧ s'.b_bvalid = false :=
  ⟨_, rfl, rfl, rfl, rfl⟩

/-- C19, as the code has it. In every mode, the write-response step of a cycle
drives `b_bvalid` high exactly when `b_bready` is asserted and the
write-response queue is non-empty, and then presents the head response on
`b_bid` and pops it; otherwise it drives `b_bvalid` low and leaves the queue as
it is. In particular `b_bvalid` is low when the queue is empty. -/
theorem b_bvalid_driven (cfg : Config) (m : Mode) (i : Inputs) (s s' : State)
    (h : eval cfg m i s = .ok s') :
    ∃ s2, s' = writeResponse i s2 ∧
      s'.b_bvalid = (i.b_bready && !s2.b_fifo.isEmpty) ∧
      (s2.b_fifo = [] → s'.b_bvalid = false) ∧
      (s'.b_bvalid = true → ∃ b, s2.b_fifo = b :: s'.b_fifo ∧ s'.b_bid = b.bid) ∧
      (s'.b_bvalid = false → s'.b_fifo = s2.b_fifo) := by
  obtain ⟨s1, s2, _, _, h3⟩ := eval_ok cfg m i s s' h
  obtain ⟨hv, hp, hk⟩ := writeResponse_valid i (readResponse cfg i s2)
  subst h3
  refine ⟨readResponse cfg i s2, rfl, hv, fun he => ?_, hp, hk⟩
  rw [hv, he]
  simp

theorem b_bvalid_driven_witness :
    ∃ s', eval smallConfig Mode.functional { strobedWrite with b_bready := true }
        (construct smallConfig false 8) = .ok s' ∧
      s'.b_bvalid = true ∧ s'.b_bid = 1 ∧ s'.b_fifo = [] ∧
      ∃ s2, s' = writeResponse { strobedWrite with b_bready := true } s2 ∧
        s'.b_bvalid = (true && !s2.b_fifo.isEmpty) :=
  have h := b_bvalid_driven smallConfig Mode.functional { strobedWrite with b_bready := true }
    (construct smallConfig false 8) _ rfl
  ⟨_, rfl, rfl, rfl, rfl, h.choose, h.choose_spec.1, h.choose_spec.2.1⟩

/-- C20. In every mode, a cycle appends exactly one beat `x` to the boot queue
at its read-response step: the head of the completion queue, which is removed
from it, when the completion queue is non-empty, and otherwise a sentinel with
valid false, id 0, last 0 and every data word `0xAAAAAAAA`. The boot queue is
therefore not empty at that step: with `r_rready` its front beat is popped and
presented, with `r_rvalid` equal to the beat's valid flag; without `r_rready`
nothing is popped and `r_rvalid` is low. -/
theorem boot_queue_step (cfg : Config) (m : Mode) (i : Inputs) (s s' : State)
    (h : eval cfg m i s = .ok s') :
    ∃ (s2 : State) (x : axi_r_txn), s2.r0_fifo = s.r0_fifo ∧ s' = writeResponse i (readResponse cfg i s2) ∧
      (s2.r_fifo = x :: s'.r_fifo ∨
        (s2.r_fifo = [] ∧ s'.r_fifo = [] ∧
          x = { rvalid := false, rid := 0, rlast := false,
                rdata := List.replicate (cfg.AXI_WIDTH / 32) 0xAAAAAAAA })) ∧
      (i.r_rready = false → s'.r0_fifo = s.r0_fifo ++ [x] ∧ s'.r_rvalid = false) ∧
      (i.r_rready = true → ∃ t, s.r0_fifo ++ [x] = t :: s'.r0_fifo ∧
        s'.r_rvalid = t.rvalid ∧ s'.r_rid = t.rid ∧ s'.r_rlast = t.rlast ∧
        s'.r_rdata = t.rdata) := by
  obtain ⟨s1, s2, h1, h2, h3⟩ := eval_ok cfg m i s s' h
  obtain ⟨q, r', q2, e0⟩ := prePair_shape cfg i s
  obtain ⟨r, tbl, o, f, b, rdy, e1, _⟩ := readRequest_shape cfg m i _ s1 h1
  obtain ⟨r2, b2, qa, qw, qb, e2⟩ := pairWrite_shape cfg _ (writer_ok cfg m) s1 s2 h2
  obtain ⟨v', d', f', e4⟩ := writeResponse_shape i (readResponse cfg i s2)
  have hr0 : s2.r0_fifo = s.r0_fifo := by rw [e2, e1, e0]
  have hs' : s'.r_fifo = (readResponse cfg i s2).r_fifo ∧
      s'.r0_fifo = (readResponse cfg i s2).r0_fifo ∧
      s'.r_rvalid = (readResponse cfg i s2).r_rvalid ∧
      s'.r_rid = (readResponse cfg i s2).r_rid ∧
      s'.r_rlast = (readResponse cfg i s2).r_rlast ∧
      s'.r_rdata = (readResponse cfg i s2).r_rdata := by
    rw [h3, e4]
    exact ⟨rfl, rfl, rfl, rfl, rfl, rfl⟩
  obtain ⟨g1, g2, g3, g4, g5, g6⟩ := hs'
  rw [← hr0, g1, g2, g3, g4, g5, g6]
  refine ⟨s2, match s2.r_fifo with | t :: _ => t | [] => bootSentinel cfg, rfl, h3, ?_⟩
  unfold readResponse
  cases hf : s2.r_fifo with
  | nil =>
    cases hr : i.r_rready with
    | false => simp [bootSentinel]
    | true =>
      cases h0 : s2.r0_fifo with
      | nil => simp [bootSentinel]
      | cons t ts => simp [bootSentinel]
  | cons y ys =>
    cases hr : i.r_rready with
    | false => simp
    | true =>
      cases h0 : s2.r0_fifo with
      | nil => simp
      | cons t ts => simp

theorem boot_queue_step_witness :
    ∃ s', eval smallConfig Mode.functional (readInputs 0x10 3 0) (construct smallConfig false 8) =
        .ok s' ∧
      s'.r_rvalid = false ∧ s'.r_rdata = [0xAAAAAAAA, 0xAAAAAAAA] ∧ s'.r0_fifo.length = 2 ∧
      ∃ (s2 : State) (x : axi_r_txn), s2.r0_fifo = (construct smallConfig false 8).r0_fifo ∧
        (s2.r_fifo = x :: s'.r_fifo ∨
          (s2.r_fifo = [] ∧ s'.r_fifo = [] ∧
            x = { rvalid := false, rid := 0, rlast := false,
                  rdata := List.replicate (smallConfig.AXI_WIDTH / 32) 0xAAAAAAAA })) :=
  have h := boot_queue_step smallConfig Mode.functional (readInputs 0x10 3 0)
    (construct smallConfig false 8) _ rfl
  ⟨_, rfl, rfl, rfl, rfl, h.choose, h.choose_spec.choose, h.choose_spec.choose_spec.1,
    h.choose_spec.choose_spec.2.2.1⟩

/-! ## Unwritten addresses, the window ceiling, the completion assertion -/

theorem read_peek (cfg : Config) (hBS : 0 < cfg.AXI_BLOCK_SIZE) (s : State) (x a : Nat) :
    peek cfg (read cfg x s).2.ram a = peek cfg s.ram a :=
  read_ram_peek cfg hBS s x a

theorem write_peek (cfg : Config) (hBS : 0 < cfg.AXI_BLOCK_SIZE) (s : State) (x d a : Nat)
    (t : Bool) :
    peek cfg (write cfg x d t s).ram a =
      if a = x % 2 ^ ADDR_BITS then d % 256 else peek cfg s.ram a :=
  write_ram_peek cfg hBS s x d a

theorem applyOps_peek (cfg : Config) (hBS : 0 < cfg.AXI_BLOCK_SIZE) (a : Nat) :
    ∀ (ops : List StoreOp) (s : State), (∀ op ∈ ops, op.target ≠ some a) →
      peek cfg (applyOps cfg ops s).ram a = peek cfg s.ram a := by
  intro ops
  induction ops with
  | nil => intro s _; rfl
  | cons op ops ih =>
    intro s h
    have h1 := h op (List.mem_cons_self _ _)
    have h2 := ih (op.apply cfg s) (fun o ho => h o (List.mem_cons_of_mem _ ho))
    show peek cfg (applyOps cfg ops (op.apply cfg s)).ram a = _
    rw [h2]
    cases op with
    | read_ram x => exact read_ram_peek cfg hBS s x a
    | write_ram x d =>
      show peek cfg (write_ram cfg x d s).ram a = _
      rw [write_ram_peek cfg hBS s x d a, if_neg]
      intro e
      exact h1 (by rw [e]; rfl)
    | write x d t =>
      show peek cfg (write cfg x d t s).ram a = _
      rw [write_peek cfg hBS s x d a t, if_neg]
      intro e
      exact h1 (by rw [e]; rfl)
    | read x => exact read_peek cfg hBS s x a

/-- C21. After any sequence of calls of the methods that touch the Block Store
(`read_ram`, `write_ram`, `write`, `read`) on a constructed responder, in which
no writing call had the address `a`, `read_ram(a)` returns 0, whether or not
other calls have materialised the block of `a`. The block size is positive. -/
theorem unwritten_reads_zero (cfg : Config) (hBS : 0 < cfg.AXI_BLOCK_SIZE) (sram_ : Bool)
    (maxReq : Nat) (ops : List StoreOp) (a : Nat)
    (h : ∀ op ∈ ops, op.target ≠ some (a % 2 ^ ADDR_BITS)) :
    (read_ram cfg a (applyOps cfg ops (construct cfg sram_ maxReq))).1 = 0 := by
  have h1 := byteAt_eq_peek cfg hBS (applyOps cfg ops (construct cfg sram_ maxReq)) a
  unfold byteAt at h1
  rw [h1, applyOps_peek cfg hBS _ ops _ h]
  simp [peek, construct]

theorem unwritten_reads_zero_witness :
    (read_ram smallConfig 0x25
      (applyOps smallConfig
        [StoreOp.write_ram 0x24 0x11, StoreOp.read_ram 0x25, StoreOp.write 0x26 0x33 false,
         StoreOp.read 0x25]
        (construct smallConfig false 8))).1 = 0 ∧
    (read_ram smallConfig 0x24
      (applyOps smallConfig
        [StoreOp.write_ram 0x24 0x11, StoreOp.read_ram 0x25, StoreOp.write 0x26 0x33 false,
         StoreOp.read 0x25]
        (construct smallConfig false 8))).1 = 0x11 :=
  ⟨unwritten_reads_zero smallConfig (by decide) false 8 _ 0x25 (by decide), rfl⟩

/-- C22. The constructor is a total function of its arguments, and for every
requested window `maxReq` it sets the in-flight window to `min maxReq 240`:
to `maxReq` below 240 and to the ceiling 240 from 240 on. -/
theorem window_clamped (cfg : Config) (sram_ : Bool) (maxReq : Nat) :
    (∃ s, construct cfg sram_ maxReq = s ∧ s.max_req_inflight = min maxReq 240) ∧
    (maxReq < 240 → (construct cfg sram_ maxReq).max_req_inflight = maxReq) ∧
    (240 ≤ maxReq → (construct cfg sram_ maxReq).max_req_inflight = 240) := by
  refine ⟨⟨_, rfl, ?_⟩, fun h => ?_, fun h => ?_⟩
  · show (if maxReq < 240 then maxReq else 240) = min maxReq 240
    split <;> omega
  · show (if maxReq < 240 then maxReq else 240) = maxReq
    rw [if_pos h]
  · show (if maxReq < 240 then maxReq else 240) = 240
    rw [if_neg (by omega)]

theorem fillFirstInvalid_none (ws : List Nat) :
    ∀ l : List axi_r_txn, fillFirstInvalid ws l = none ↔ ∀ t ∈ l, t.rvalid = true := by
  intro l
  induction l with
  | nil => simp [fillFirstInvalid]
  | cons t ts ih =>
    unfold fillFirstInvalid
    cases hv : t.rvalid with
    | true => simp [hv, ih]
    | false => simp [hv]

theorem inflight_resp_none (cfg : Config) (addr : Nat) (data : Nat → Nat) (s : State)
    (hf : fillFirstInvalid ((List.range (cfg.AXI_WIDTH / 32)).map data)
      ((s.inflight_req (addr % 2 ^ ADDR_BITS)).getD []) = none) :
    inflight_resp cfg addr data s = .error Fault.assertion := by
  unfold inflight_resp
  simp only [hf]

theorem inflight_resp_some (cfg : Config) (addr : Nat) (data : Nat → Nat) (s : State)
    (l : List axi_r_txn)
    (hf : fillFirstInvalid ((List.range (cfg.AXI_WIDTH / 32)).map data)
      ((s.inflight_req (addr % 2 ^ ADDR_BITS)).getD []) = some l) :
    ∃ s', inflight_resp cfg addr data s = .ok s' := by
  unfold inflight_resp
  simp only [hf]
  exact ⟨_, rfl⟩

/-- C28. The completion callback `inflight_resp(addr, data)` fails its
assertion exactly when the pending list of `addr` holds no placeholder that is
not valid, which includes an address without entry in the in-flight table; in
every other case it returns. -/
theorem inflight_resp_assertion (cfg : Config) (addr : Nat) (data : Nat → Nat) (s : State) :
    (inflight_resp cfg addr data s = .error Fault.assertion ↔
      ∀ t ∈ (s.inflight_req (addr % 2 ^ ADDR_BITS)).getD [], t.rvalid = true) ∧
    (s.inflight_req (addr % 2 ^ ADDR_BITS) = none →
      inflight_resp cfg addr data s = .error Fault.assertion) ∧
    ((∃ t ∈ (s.inflight_req (addr % 2 ^ ADDR_BITS)).getD [], t.rvalid = false) →
      ∃ s', inflight_resp cfg addr data s = .ok s') ∧
    (∀ f, inflight_resp cfg addr data s = .error f → f = Fault.assertion) := by
  have key := fillFirstInvalid_none ((List.range (cfg.AXI_WIDTH / 32)).map data)
    ((s.inflight_req (addr % 2 ^ ADDR_BITS)).getD [])
  cases hf : fillFirstInvalid ((List.range (cfg.AXI_WIDTH / 32)).map data)
      ((s.inflight_req (addr % 2 ^ ADDR_BITS)).getD []) with
  | none =>
    have hall := key.mp hf
    have he := inflight_resp_none cfg addr data s hf
    refine ⟨⟨fun _ => hall, fun _ => he⟩, fun _ => he, ?_, ?_⟩
    · rintro ⟨t, ht, hv⟩
      rw [hall t ht] at hv
      cases hv
    · intro f h
      rw [he] at h
      injection h with h
      exact h.symm
  | some l =>
    obtain ⟨s', he⟩ := inflight_resp_some cfg addr data s l hf
    have hnot : ¬ ∀ t ∈ (s.inflight_req (addr % 2 ^ ADDR_BITS)).getD [], t.rvalid = true := by
      intro hall
      rw [key.mpr hall] at hf
      cases hf
    refine ⟨⟨fun h => ?_, fun h => absurd h hnot⟩, fun hn => ?_, fun _ => ⟨s', he⟩, ?_⟩
    · rw [he] at h
      cases h
    · exfalso
      apply hnot
      rw [hn]
      intro t ht
      cases ht
    · intro f h
      rw [he] at h
      cases h

/-- A duplicate completion: the second completion of the only read of address
`0x1000` fails the assertion, and so does a completion for an address that
was never requested. -/
theorem duplicate_completion_example :
    inflight_resp wideConfig 0x1000 (fun k => k) oneCompleted = .error Fault.assertion ∧
    inflight_resp wideConfig 0x2000 (fun k => k) onePending = .error Fault.assertion ∧
    (∃ s', inflight_resp wideConfig 0x1000 (fun k => k) onePending = .ok s') :=
  ⟨rfl, rfl, _, rfl⟩

/-! ## Address translation -/

theorem width_factor (b : BaseAddrs) : ∃ q, 0 < q ∧ 2 ^ b.width = 4294967296 * q := by
  have h : 32 ≤ b.width := le_max_left _ _
  obtain ⟨q, hq⟩ := pow_dvd_pow 2 h
  refine ⟨q, ?_, by rw [hq]; norm_num⟩
  rcases Nat.eq_zero_or_pos q with h0 | h0
  · rw [h0, Nat.mul_zero] at hq
    exact absurd hq (by positivity)
  · exact h0

theorem trunc_add (q x c : Nat) :
    (x % (4294967296 * q) + c) % (4294967296 * q) % 4294967296 = (x + c) % 4294967296 := by
  rw [Nat.mod_mul_right_mod, Nat.add_mod, Nat.mod_mul_right_mod, ← Nat.add_mod]

theorem getRealAddr_eq (b : BaseAddrs) (addr : Nat) (sram : Bool) :
    getRealAddr b addr sram =
      (addr % 4294967296 + 4294967296 - (if sram then 0x50000000 else 0x80000000) +
        (if sram then b.baseAddrSRAM else b.baseAddrDRAM) % 2 ^ b.width) % 4294967296 := by
  obtain ⟨q, hq, hw⟩ := width_factor b
  have e : (2 : Nat) ^ 32 = 4294967296 := by norm_num
  unfold getRealAddr
  cases sram
  · simp only [Bool.false_eq_true, if_false]
    generalize b.baseAddrDRAM % 2 ^ b.width = B
    rw [hw, e, Nat.mod_mul_right_mod]
    omega
  · simp only [if_true]
    generalize b.baseAddrSRAM % 2 ^ b.width = B
    rw [hw, e, Nat.mod_mul_right_mod]
    omega

theorem getAddrNVDLA_eq (b : BaseAddrs) (addr : Nat) (sram : Bool) :
    ∃ q, 0 < q ∧ 2 ^ b.width = 4294967296 * q ∧
      getAddrNVDLA b addr sram =
        (addr % 4294967296 + 4294967296 * q -
          (if sram then b.baseAddrSRAM else b.baseAddrDRAM) % 2 ^ b.width +
          (if sram then 0x50000000 else 0x80000000)) % 4294967296 := by
  obtain ⟨q, hq, hw⟩ := width_factor b
  refine ⟨q, hq, hw, ?_⟩
  have e : (2 : Nat) ^ 32 = 4294967296 := by norm_num
  unfold getAddrNVDLA
  cases sram
  · simp only [Bool.false_eq_true, if_false]
    generalize b.baseAddrDRAM % 2 ^ b.width = B
    rw [hw, e, trunc_add]
  · simp only [if_true]
    generalize b.baseAddrSRAM % 2 ^ b.width = B
    rw [hw, e, trunc_add]

theorem round_trip_nvdla (b : BaseAddrs) (a : Nat) (sram : Bool) :
    getAddrNVDLA b (getRealAddr b a sram) sram = a % 4294967296 := by
  obtain ⟨q, hq, hw, h⟩ := getAddrNVDLA_eq b (getRealAddr b a sram) sram
  rw [h, getRealAddr_eq]
  have hB : (if sram then b.baseAddrSRAM else b.baseAddrDRAM) % 2 ^ b.width < 4294967296 * q := by
    rw [← hw]
    exact Nat.mod_lt _ (by positivity)
  generalize (if sram then b.baseAddrSRAM else b.baseAddrDRAM) % 2 ^ b.width = B at hB ⊢
  cases sram
  · simp only [Bool.false_eq_true, if_false]
    omega
  · simp only [if_true]
    omega

theorem round_trip_real (b : BaseAddrs) (r : Nat) (sram : Bool) :
    getRealAddr b (getAddrNVDLA b r sram) sram = r % 4294967296 := by
  obtain ⟨q, hq, hw, h⟩ := getAddrNVDLA_eq b r sram
  rw [getRealAddr_eq, h]
  have hB : (if sram then b.baseAddrSRAM else b.baseAddrDRAM) % 2 ^ b.width < 4294967296 * q := by
    rw [← hw]
    exact Nat.mod_lt _ (by positivity)
  generalize (if sram then b.baseAddrSRAM else b.baseAddrDRAM) % 2 ^ b.width = B at hB ⊢
  cases sram
  · simp only [Bool.false_eq_true, if_false]
    omega
  · simp only [if_true]
    omega

theorem timingBeat_request (arid len addr : Nat) (s : State) :
    (timingBeat arid len addr s).backend =
      s.backend ++ [BackendReq.read s.sram true (addr % 2 ^ ADDR_BITS) 64] ∧
    (timingBeat arid len addr s).inflight_req (addr % 2 ^ ADDR_BITS) =
      some ((s.inflight_req (addr % 2 ^ ADDR_BITS)).getD [] ++ [placeholder arid len]) := by
  constructor
  · rfl
  · simp [timingBeat, read_variable, placeholder]

/-- C29. For both port kinds, every base address and every 32-bit address,
`getAddrNVDLA` undoes `getRealAddr` and `getRealAddr` undoes `getAddrNVDLA`,
in 32-bit wrap-around arithmetic. Hence the read request that `eval_timing`
issues for a beat registered under a table key comes back, through the packet
address of `readAXIVariable` and the translation of `handleResponseNVDLA`,
under that same key, where `inflight_resp` finds the placeholder. -/
theorem address_round_trip (b : BaseAddrs) (sram : Bool) :
    (∀ a, a < 2 ^ 32 → getAddrNVDLA b (getRealAddr b a sram) sram = a) ∧
    (∀ r, r < 2 ^ 32 → getRealAddr b (getAddrNVDLA b r sram) sram = r) ∧
    (∀ (cfg : Config) (arid len addr : Nat) (s : State) (data : Nat → Nat),
      ∃ req, (timingBeat arid len addr s).backend = s.backend ++ [req] ∧
        req = BackendReq.read s.sram true (addr % 2 ^ ADDR_BITS) 64 ∧
        responseKey b (packetAddr b req) s.sram = addr % 2 ^ ADDR_BITS ∧
        ∃ s', inflight_resp cfg (responseKey b (packetAddr b req) s.sram) data
          (timingBeat arid len addr s) = .ok s') := by
  refine ⟨fun a ha => ?_, fun r hr => ?_, fun cfg arid len addr s data => ?_⟩
  · rw [round_trip_nvdla]
    exact Nat.mod_eq_of_lt ha
  · rw [round_trip_real]
    exact Nat.mod_eq_of_lt hr
  · obtain ⟨hb, ht⟩ := timingBeat_request arid len addr s
    have hk : responseKey b
        (packetAddr b (BackendReq.read s.sram true (addr % 2 ^ ADDR_BITS) 64)) s.sram =
        addr % 2 ^ ADDR_BITS := by
      show getAddrNVDLA b (getRealAddr b (addr % 2 ^ ADDR_BITS) s.sram) s.sram = _
      rw [round_trip_nvdla]
      exact Nat.mod_mod _ _
    refine ⟨_, hb, rfl, hk, ?_⟩
    rw [hk]
    cases hf : fillFirstInvalid ((List.range (cfg.AXI_WIDTH / 32)).map data)
        (((timingBeat arid len addr s).inflight_req (addr % 2 ^ ADDR_BITS % 2 ^ ADDR_BITS)).getD [])
      with
    | none =>
      exfalso
      have hall := (fillFirstInvalid_none _ _).mp hf
      rw [Nat.mod_mod, ht] at hall
      have := hall (placeholder arid len) (by simp)
      simp [placeholder] at this
    | some l => exact inflight_resp_some cfg _ data _ l hf

/-- Translation of the address `0x80001040` on the DRAM port and of
`0x50000040` on the SRAM port with the example bases, and back. -/
theorem address_translation_example :
    getRealAddr exampleBases 0x80001040 false = 0xA0001040 ∧
    getAddrNVDLA exampleBases 0xA0001040 false = 0x80001040 ∧
    getRealAddr exampleBases 0x50000040 true = 0xC0000040 ∧
    getAddrNVDLA exampleBases 0xC0000040 true = 0x50000040 ∧
    getAddrNVDLA exampleBases (getRealAddr exampleBases 0x10 false) false = 0x10 := by
  refine ⟨?_, ?_, ?_, ?_, ?_⟩ <;> decide

/-! ## Data of a functional read beat -/

theorem wordPeek_bytes (cfg : Config) (hBS : 0 < cfg.AXI_BLOCK_SIZE) (s : State) (x : Nat) :
    wordPeek cfg s.ram x = littleEndianWord cfg s x := by
  unfold wordPeek littleEndianWord
  rw [byteAt_eq_peek cfg hBS, byteAt_eq_peek cfg hBS, byteAt_eq_peek cfg hBS,
    byteAt_eq_peek cfg hBS]
  simp only [Nat.shiftLeft_eq]

theorem beatData_words (cfg : Config) (hBS : 0 < cfg.AXI_BLOCK_SIZE) (s : State) (a : Nat) :
    beatData cfg s a =
      (List.range (cfg.AXI_WIDTH / 32)).map (fun j => littleEndianWord cfg s (a + 4 * j)) := by
  unfold beatData
  rw [readWords_fst cfg hBS]
  apply List.map_congr_left
  intro j _
  rw [wordPeek_bytes cfg hBS]
  congr 1
  omega

theorem littleEndianWord_congr (cfg : Config) (hBS : 0 < cfg.AXI_BLOCK_SIZE) (s1 s2 : State)
    (h : ∀ a, peek cfg s1.ram a = peek cfg s2.ram a) (x : Nat) :
    littleEndianWord cfg s1 x = littleEndianWord cfg s2 x := by
  unfold littleEndianWord
  simp only [byteAt_eq_peek cfg hBS, h]

/-- C24. In functional mode, the read-request block of a cycle with a
read-address handshake returns and appends to the completion queue, ahead of
the post-burst sentinels, one beat for each beat address `a` of the burst; the
beat is valid and its data word `j` (`0 <= j < AXI_WIDTH / 32`) is
`read_ram(a+4j) + read_ram(a+4j+1) * 2^8 + read_ram(a+4j+2) * 2^16 +
read_ram(a+4j+3) * 2^24` modulo `2^32`, on the Block Store `s` holds when the
cycle starts, that is before the write pairing of the cycle. -/
theorem functional_beat_data (cfg : Config) (hBS : 0 < cfg.AXI_BLOCK_SIZE) (i : Inputs)
    (s : State) (hs : (i.ar_arvalid && s.ar_arready) = true) :
    ∃ s1, readRequest_ram cfg i (prePair cfg i s) = .ok s1 ∧
      s1.r_fifo = s.r_fifo ++
        (List.range (i.ar_arlen % 256 + 1)).map (fun k =>
          { rvalid := true, rlast := (k == i.ar_arlen % 256), rid := i.ar_arid,
            rdata := (List.range (cfg.AXI_WIDTH / 32)).map (fun j =>
              littleEndianWord cfg s
                ((alignAddr cfg i.ar_araddr + k * (cfg.AXI_WIDTH / 8)) % 2 ^ 64 + 4 * j)) }) ++
        List.replicate cfg.AXI_R_DELAY (gapSentinel cfg) := by
  obtain ⟨q, r', q2, e0⟩ := prePair_shape cfg i s
  have hs' : (i.ar_arvalid && (prePair cfg i s).ar_arready) = true := by rw [e0]; exact hs
  obtain ⟨r, h, _⟩ := readRequest_ram_handshake cfg hBS i (prePair cfg i s) hs'
  refine ⟨_, h, ?_⟩
  have hr : (prePair cfg i s).r_fifo = s.r_fifo := by rw [e0]
  have hram : ∀ a, peek cfg (prePair cfg i s).ram a = peek cfg s.ram a := by
    intro a; rw [e0]
  show (prePair cfg i s).r_fifo ++ _ ++ _ = _
  rw [hr]
  congr 2
  apply List.map_congr_left
  intro k _
  unfold ramBurstBeat
  rw [beatData_words cfg hBS]
  congr 1
  apply List.map_congr_left
  intro j _
  exact littleEndianWord_congr cfg hBS _ _ hram _

theorem functional_beat_data_witness :
    ∃ s', eval_ram smallConfig writeAndRead (construct smallConfig false 8) = .ok s' ∧
      (List.range 8).map (fun k => byteAt smallConfig s' (16 + k)) =
        [0x11, 0x22, 0x33, 0x44, 0x55, 0x66, 0x77, 0x88] ∧
      ∃ s1, readRequest_ram smallConfig writeAndRead
          (prePair smallConfig writeAndRead (construct smallConfig false 8)) = .ok s1 ∧
        s1.r_fifo = [{ rvalid := true, rlast := true, rid := 3, rdata := [0, 0] },
                     gapSentinel smallConfig] :=
  have h := functional_beat_data smallConfig (by decide) writeAndRead
    (construct smallConfig false 8) rfl
  ⟨_, rfl, rfl, h.choose, h.choose_spec.1, h.choose_spec.2.trans rfl⟩

/-! ## Write then read -/

theorem and_255 (x : Nat) : x &&& 255 = x % 256 :=
  Nat.and_pow_two_sub_one_eq_mod x 8

theorem bytes_word (v : Nat) (hv : v < 2 ^ 32) :
    (((v >>> (0 * 8)) &&& 0xFF) + ((v >>> (1 * 8)) &&& 0xFF) * 2 ^ 8 +
      ((v >>> (2 * 8)) &&& 0xFF) * 2 ^ 16 + ((v >>> (3 * 8)) &&& 0xFF) * 2 ^ 24) % 2 ^ 32 = v := by
  simp only [and_255, Nat.shiftRight_eq_div_pow]
  norm_num at hv ⊢
  omega

theorem strobeByte_at (w : axi_w_txn) (j t : Nat) (ht : t < 4) :
    strobeByte w (4 * j + t) = ((w.wdata.getD j 0) >>> (t * 8)) &&& 0xFF := by
  unfold strobeByte
  have h1 : (4 * j + t) / 4 = j := by omega
  have h2 : (4 * j + t) % 4 = t := by omega
  rw [h1, h2]

theorem range_getD (l : List Nat) (n : Nat) (h : l.length = n) :
    (List.range n).map (fun j => l.getD j 0) = l := by
  subst h
  apply List.ext_getElem
  · simp
  · intro k h1 h2
    simp [List.getD_eq_getElem?_getD, List.getElem?_eq_getElem h2]

theorem written_word (cfg : Config) (hBS : 0 < cfg.AXI_BLOCK_SIZE) (s : State) (A : Nat)
    (w : axi_w_txn) (hwrap : A + cfg.AXI_WIDTH / 8 ≤ 2 ^ ADDR_BITS)
    (hpeek : ∀ k, k < cfg.AXI_WIDTH / 8 → peek cfg s.ram (A + k) = strobeByte w k)
    (hword : ∀ v ∈ w.wdata, v < 2 ^ 32) (j : Nat) (hj : j < cfg.AXI_WIDTH / 32) :
    littleEndianWord cfg s (A + 4 * j) = w.wdata.getD j 0 := by
  have hv : w.wdata.getD j 0 < 2 ^ 32 := by
    rw [List.getD_eq_getElem?_getD]
    cases hg : w.wdata[j]? with
    | none => simp
    | some v => exact hword v (List.getElem?_mem hg)
  have hb : ∀ t, t < 4 → byteAt cfg s (A + 4 * j + t) =
      ((w.wdata.getD j 0) >>> (t * 8)) &&& 0xFF := by
    intro t ht
    have hk : 4 * j + t < cfg.AXI_WIDTH / 8 := by omega
    have hlt : A + 4 * j + t < 2 ^ ADDR_BITS := by omega
    rw [byteAt_eq_peek cfg hBS, Nat.mod_eq_of_lt hlt, Nat.add_assoc, hpeek _ hk,
      strobeByte_at w j t ht]
  unfold littleEndianWord
  have h0 := hb 0 (by omega)
  rw [Nat.add_zero] at h0
  rw [h0, hb 1 (by omega), hb 2 (by omega), hb 3 (by omega)]
  exact bytes_word _ hv

/-- C23. In functional mode, let a cycle pair the write beat `w`, all of whose
strobe bits are set and whose `AXI_WIDTH / 32` data words are 32-bit values,
with the request at the aligned address `A`, and let `s` be a later state
whose Block Store holds the bytes that cycle left. Then the read-request block
of a single-beat read handshake (`len = 0`) at `A` returns and enqueues, ahead
of the post-burst sentinels, one valid beat whose data words are exactly the
words of `w`: splitting the words into bytes on write and reassembling them
little-endian on read is the identity. -/
theorem write_read_identity (cfg : Config) (hBS : 0 < cfg.AXI_BLOCK_SIZE) (i1 : Inputs)
    (s0 sA : State) (aw : axi_aw_txn) (aws : List axi_aw_txn) (w : axi_w_txn)
    (ws : List axi_w_txn)
    (haw : (prePair cfg i1 s0).aw_fifo = aw :: aws) (hw : (prePair cfg i1 s0).w_fifo = w :: ws)
    (hwrap : aw.awaddr + cfg.AXI_WIDTH / 8 ≤ 2 ^ 32)
    (hstrb : ∀ k, k < cfg.AXI_WIDTH / 8 → strobeSet w k = true)
    (hlen : w.wdata.length = cfg.AXI_WIDTH / 32) (hword : ∀ v ∈ w.wdata, v < 2 ^ 32)
    (hev : eval_ram cfg i1 s0 = .ok sA)
    (s : State) (hsame : ∀ a, peek cfg s.ram a = peek cfg sA.ram a)
    (i : Inputs) (hs : (i.ar_arvalid && s.ar_arready) = true)
    (haddr : alignAddr cfg i.ar_araddr = aw.awaddr) (hl : i.ar_arlen % 256 = 0) :
    ∃ s1, readRequest_ram cfg i s = .ok s1 ∧
      s1.r_fifo = s.r_fifo ++
        [{ rvalid := true, rlast := true, rid := i.ar_arid, rdata := w.wdata }] ++
        List.replicate cfg.AXI_R_DELAY (gapSentinel cfg) := by
  obtain ⟨r, h, _⟩ := readRequest_ram_handshake cfg hBS i s hs
  refine ⟨_, h, ?_⟩
  have hpeek : ∀ k, k < cfg.AXI_WIDTH / 8 → peek cfg s.ram (aw.awaddr + k) = strobeByte w k := by
    intro k hk
    rw [hsame, cycle_peek cfg hBS Mode.functional i1 s0 sA aw aws w ws haw hw hwrap hev,
      if_pos]
    · rw [Nat.add_sub_cancel_left]
    · rw [Nat.add_sub_cancel_left]
      exact ⟨Nat.le_add_right _ _, by omega, hstrb k hk⟩
  have hdata : beatData cfg s aw.awaddr = w.wdata := by
    rw [beatData_words cfg hBS]
    have : (List.range (cfg.AXI_WIDTH / 32)).map
        (fun j => littleEndianWord cfg s (aw.awaddr + 4 * j)) =
        (List.range (cfg.AXI_WIDTH / 32)).map (fun j => w.wdata.getD j 0) := by
      apply List.map_congr_left
      intro j hj
      exact written_word cfg hBS s aw.awaddr w hwrap hpeek hword j (List.mem_range.mp hj)
    rw [this, range_getD _ _ hlen]
  have hA : aw.awaddr < 2 ^ 64 := by
    have : aw.awaddr ≤ 2 ^ 32 := by omega
    omega
  show s.r_fifo ++ _ ++ _ = _
  rw [hl, haddr]
  have hr1 : List.range 1 = [0] := rfl
  rw [Nat.zero_add, hr1]
  simp only [List.map_cons, List.map_nil, ramBurstBeat,
    Nat.zero_mul, Nat.add_zero, BUS_ADDR_BITS, Nat.mod_eq_of_lt hA, hdata, beq_self_eq_true]

theorem write_read_identity_witness :
    eval_ram smallConfig fullWrite (construct smallConfig false 8) = .ok afterFullWrite ∧
    ∃ s1, readRequest_ram smallConfig (readInputs 16 3 0) afterFullWrite = .ok s1 ∧
      s1.r_fifo = afterFullWrite.r_fifo ++
        [{ rvalid := true, rlast := true, rid := 3, rdata := [0x44332211, 0x88776655] }] ++
        List.replicate smallConfig.AXI_R_DELAY (gapSentinel smallConfig) :=
  ⟨rfl, write_read_identity smallConfig (by decide) fullWrite (construct smallConfig false 8)
    afterFullWrite { awid := 1, awaddr := 16, awlen := 0 } []
    { wdata := [0x44332211, 0x88776655], wstrb := 255, wlast := true } [] rfl rfl (by decide)
    (by decide) rfl (by decide) rfl afterFullWrite (fun _ => rfl) (readInputs 16 3 0) rfl rfl
    rfl⟩

/-! ## The window in reachable states -/

theorem timing_cycle_order (cfg : Config) (i : Inputs) (s s' : State)
    (h : eval_timing cfg i s = .ok s') :
    ((i.ar_arvalid && s.ar_arready) = true →
      s'.ar_arready = false ∧
      s'.inflight_req_order.length = s.inflight_req_order.length + (i.ar_arlen % 256 + 1)) ∧
    ((i.ar_arvalid && s.ar_arready) = false →
      s'.inflight_req_order.length ≤ s.inflight_req_order.length) := by
  obtain ⟨p, s1, h1, _, _, ho, hr, _, _, _, e2, e3, _⟩ := eval_timing_view cfg i s s' h
  rw [e2, e3, ← ho, ← hr]
  rcases readRequest_timing_cases cfg i p s1 h1 with
    ⟨hs, rfl⟩ | ⟨hs, a, rest, t, ts, hq, _, _, rfl⟩ | ⟨hs, a, rest, t, ts, _, _, _, rfl⟩
  · refine ⟨fun _ => ⟨rfl, ?_⟩, fun hn => ?_⟩
    · simp [burstBeats_length]
    · rw [hs] at hn; cases hn
  · refine ⟨fun hn => ?_, fun _ => ?_⟩
    · rw [hs] at hn; cases hn
    · simp [hq]
  · refine ⟨fun hn => ?_, fun _ => ?_⟩
    · rw [hs] at hn; cases hn
    · exact Nat.le_refl _

/-- C26. In timing mode, in every state reached from construction by cycles
and completions, `getRequestsOnFlight()` is at most `max_req_inflight + 256`.
The window field keeps the value set at construction; `ar_arready` is asserted
in such a state only while the order queue holds at most `max_req_inflight`
addresses; a cycle with a read-address handshake deasserts `ar_arready` and
adds `len + 1`, at most 256, addresses to the order queue; a cycle without
handshake adds none. -/
theorem reachable_window (cfg : Config) (sram_ : Bool) (maxReq : Nat) (evs : List Event)
    (s : State) (h : run cfg Mode.timing evs (construct cfg sram_ maxReq) = .ok s) :
    getRequestsOnFlight s ≤ s.max_req_inflight + 256 ∧
    s.max_req_inflight = (construct cfg sram_ maxReq).max_req_inflight ∧
    (s.ar_arready = true → s.inflight_req_order.length ≤ s.max_req_inflight) ∧
    ∀ i s', eval_timing cfg i s = .ok s' →
      ((i.ar_arvalid && s.ar_arready) = true →
        s'.ar_arready = false ∧
        s'.inflight_req_order.length = s.inflight_req_order.length + (i.ar_arlen % 256 + 1) ∧
        i.ar_arlen % 256 + 1 ≤ 256) ∧
      ((i.ar_arvalid && s.ar_arready) = false →
        s'.inflight_req_order.length ≤ s.inflight_req_order.length) := by
  obtain ⟨hM, hlen, hrdy⟩ := window_invariant cfg sram_ maxReq evs s h
  refine ⟨?_, hM, ?_, fun i s' hev => ?_⟩
  · unfold getRequestsOnFlight
    rw [hM]
    exact Nat.le_trans (Nat.mod_le _ _) hlen
  · rw [hM]; exact hrdy
  · obtain ⟨h1, h2⟩ := timing_cycle_order cfg i s s' hev
    refine ⟨fun hs => ⟨(h1 hs).1, (h1 hs).2, ?_⟩, h2⟩
    have := Nat.mod_lt i.ar_arlen (by decide : 0 < 256)
    omega

theorem reachable_window_witness :
    ∃ s, run wideConfig Mode.timing [Event.cycle (readInputs 0x1000 1 0), Event.cycle idleInputs]
        (construct wideConfig false 1) = .ok s ∧
      s.ar_arready = true ∧ s.inflight_req_order.length = 1 ∧ s.max_req_inflight = 1 ∧
      getRequestsOnFlight s ≤ s.max_req_inflight + 256 ∧
      ∃ s', eval_timing wideConfig (readInputs 0x2000 2 3) s = .ok s' ∧
        s'.ar_arready = false ∧ getRequestsOnFlight s' = 5 :=
  ⟨_, rfl, rfl, rfl, rfl,
    (reachable_window wideConfig false 1
      [Event.cycle (readInputs 0x1000 1 0), Event.cycle idleInputs] _ rfl).1,
    _, rfl, rfl, rfl⟩

/-! ## Address handshakes and the ready signals -/

theorem writeRequest_ready (cfg : Config) (i : Inputs) (s : State) :
    (writeRequest cfg i s).aw_awready = !(i.aw_awvalid && s.aw_awready) ∧
    ((i.aw_awvalid && s.aw_awready) = true →
      (writeRequest cfg i s).aw_fifo = s.aw_fifo ++
        [{ awid := i.aw_awid, awaddr := alignAddr cfg i.aw_awaddr % 2 ^ ADDR_BITS,
           awlen := i.aw_awlen }]) ∧
    ((i.aw_awvalid && s.aw_awready) = false → (writeRequest cfg i s).aw_fifo = s.aw_fifo) := by
  unfold writeRequest
  cases h : (i.aw_awvalid && s.aw_awready) <;> simp

theorem eval_aw_awready (cfg : Config) (m : Mode) (i : Inputs) (s s' : State)
    (h : eval cfg m i s = .ok s') :
    s'.aw_awready = (writeRequest cfg i s).aw_awready := by
  obtain ⟨s1, s2, h1, h2, h3⟩ := eval_ok cfg m i s s' h
  obtain ⟨q, e0⟩ := writeData_shape cfg i (writeRequest cfg i s)
  obtain ⟨r, tbl, o, f, b, rdy, e1, _⟩ := readRequest_shape cfg m i _ s1 h1
  obtain ⟨r2, b2, qa, qw, qb, e2⟩ := pairWrite_shape cfg _ (writer_ok cfg m) s1 s2 h2
  obtain ⟨f3, f0, v3, d3, l3, x3, e3⟩ := readResponse_shape cfg i s2
  obtain ⟨v', d', f', e4⟩ := writeResponse_shape i (readResponse cfg i s2)
  unfold prePair at e1
  rw [h3, e4, e3, e2, e1, e0]

theorem readRequest_ready (cfg : Config) (m : Mode) (hm : m ≠ Mode.timing) (i : Inputs)
    (s s1 : State) (h : readRequest cfg m i s = .ok s1) :
    s1.ar_arready = !(i.ar_arvalid && s.ar_arready) := by
  cases m with
  | functional =>
    simp only [readRequest, readRequest_ram] at h
    split at h
    · rename_i hs
      split at h
      · injection h with h
        rw [← h, hs]
        rfl
      · cases h
    · rename_i hs
      injection h with h
      rw [← h, Bool.not_eq_true] at *
      rw [hs]
      rfl
  | atomic =>
    simp only [readRequest, readRequest_atomic] at h
    split at h
    · rename_i hs
      split at h
      · injection h with h
        rw [← h, hs]
        rfl
      · cases h
    · rename_i hs
      injection h with h
      rw [← h, Bool.not_eq_true] at *
      rw [hs]
      rfl
  | timing => exact absurd rfl hm

theorem eval_ar_arready (cfg : Config) (m : Mode) (hm : m ≠ Mode.timing) (i : Inputs)
    (s s' : State) (h : eval cfg m i s = .ok s') :
    s'.ar_arready = !(i.ar_arvalid && s.ar_arready) := by
  obtain ⟨s1, s2, h1, h2, h3⟩ := eval_ok cfg m i s s' h
  obtain ⟨q, r', q2, e0⟩ := prePair_shape cfg i s
  have hr := readRequest_ready cfg m hm i _ s1 h1
  obtain ⟨r2, b2, qa, qw, qb, e2⟩ := pairWrite_shape cfg _ (writer_ok cfg m) s1 s2 h2
  obtain ⟨f3, f0, v3, d3, l3, x3, e3⟩ := readResponse_shape cfg i s2
  obtain ⟨v', d', f', e4⟩ := writeResponse_shape i (readResponse cfg i s2)
  have hp : (prePair cfg i s).ar_arready = s.ar_arready := by rw [e0]
  rw [hp] at hr
  rw [h3, e4, e3, e2]
  exact hr

theorem readRequest_atomic_idle (cfg : Config) (i : Inputs) (s : State)
    (hs : (i.ar_arvalid && s.ar_arready) = false) :
    readRequest cfg Mode.atomic i s = .ok { s with ar_arready := true } := by
  simp only [readRequest, readRequest_atomic, hs, Bool.false_eq_true, if_false]

/-- C30. In every mode, the write-request block of a cycle with a
write-address handshake pushes exactly one address request and deasserts
`aw_awready`, and in any other cycle it pushes none and asserts it; a cycle
that completes ends with that value, so a handshake cycle is never followed by
another. In functional mode the same holds for `ar_arready` and read-address
handshakes, and the cycle completes unless the write pairing aborts. In
atomic mode it holds for the cycles without read-address handshake, whereas a
cycle with a read-address handshake, for a bus of at least 32 bits, does not
reach the statement that deasserts `ar_arready`: its first beat reads through
the null pointer returned by `read_variable`. -/
theorem address_handshake_ready (cfg : Config) (i : Inputs) (s : State) :
    ((i.aw_awvalid && s.aw_awready) = true →
      (writeRequest cfg i s).aw_fifo = s.aw_fifo ++
        [{ awid := i.aw_awid, awaddr := alignAddr cfg i.aw_awaddr % 2 ^ ADDR_BITS,
           awlen := i.aw_awlen }] ∧
      (writeRequest cfg i s).aw_awready = false) ∧
    ((i.aw_awvalid && s.aw_awready) = false →
      (writeRequest cfg i s).aw_fifo = s.aw_fifo ∧ (writeRequest cfg i s).aw_awready = true) ∧
    (∀ m s', eval cfg m i s = .ok s' →
      s'.aw_awready = (!(i.aw_awvalid && s.aw_awready)) ∧
      ∀ j : Inputs, (i.aw_awvalid && s.aw_awready) = true →
        (j.aw_awvalid && s'.aw_awready) = false) ∧
    (∀ s', eval_ram cfg i s = .ok s' →
      s'.ar_arready = (!(i.ar_arvalid && s.ar_arready)) ∧
      ∀ j : Inputs, (i.ar_arvalid && s.ar_arready) = true →
        (j.ar_arvalid && s'.ar_arready) = false) ∧
    (pairMismatch (prePair cfg i s) = false → ∃ s', eval_ram cfg i s = .ok s') ∧
    ((i.ar_arvalid && s.ar_arready) = false →
      (∀ s', eval_atomic cfg i s = .ok s' → s'.ar_arready = true) ∧
      (pairMismatch (prePair cfg i s) = false → ∃ s', eval_atomic cfg i s = .ok s')) ∧
    ((i.ar_arvalid && s.ar_arready) = true → 0 < cfg.AXI_WIDTH / 32 →
      eval_atomic cfg i s = .error Fault.undefined) := by
  obtain ⟨hr, hpush, hkeep⟩ := writeRequest_ready cfg i s
  refine ⟨fun h => ⟨hpush h, by rw [hr, h]; rfl⟩, fun h => ⟨hkeep h, by rw [hr, h]; rfl⟩,
    fun m s' hev => ?_, fun s' hev => ?_, fun hm => ?_, fun hs => ⟨fun s' hev => ?_, fun hm => ?_⟩,
    fun hs hw => eval_atomic_read_faults cfg i s hs hw⟩
  · have h := eval_aw_awready cfg m i s s' hev
    rw [hr] at h
    refine ⟨h, fun j hj => ?_⟩
    rw [h, hj]
    simp
  · have h := eval_ar_arready cfg Mode.functional (by decide) i s s' hev
    refine ⟨h, fun j hj => ?_⟩
    rw [h, hj]
    simp
  · obtain ⟨s1, h1⟩ := readRequest_ram_total cfg i (prePair cfg i s)
    exact eval_of_readRequest cfg Mode.functional i s s1 h1 hm
  · have h := eval_ar_arready cfg Mode.atomic (by decide) i s s' hev
    rw [h, hs]
    rfl
  · obtain ⟨q, r', q2, e0⟩ := prePair_shape cfg i s
    have hp : (i.ar_arvalid && (prePair cfg i s).ar_arready) = false := by rw [e0]; exact hs
    exact eval_of_readRequest cfg Mode.atomic i s _
      (readRequest_atomic_idle cfg i (prePair cfg i s) hp) hm

/-- Two cycles that both drive `aw_awvalid` and `ar_arvalid` in functional
mode: the first has both handshakes, the second has neither and raises both
ready signals again; in atomic mode the first cycle does not complete. -/
theorem consecutive_requests_example :
    ∃ s1 s2, eval_ram smallConfig writeAndRead (construct smallConfig false 8) = .ok s1 ∧
      s1.aw_awready = false ∧ s1.ar_arready = false ∧
      eval_ram smallConfig { readyIdle with aw_awvalid := true, ar_arvalid := true } s1 = .ok s2 ∧
      s2.aw_awready = true ∧ s2.ar_arready = true ∧ s2.aw_fifo = [] ∧
      eval_atomic smallConfig writeAndRead (construct smallConfig false 8) =
        .error Fault.undefined :=
  ⟨_, _, rfl, rfl, rfl, rfl, rfl, rfl, rfl, rfl⟩

/-! ## Latency of the boot queue -/

theorem readResponse_entered (cfg : Config) (i : Inputs) (s : State) :
    s.r0_fifo ++ [pushedBeat cfg s] =
      presentedIn i (readResponse cfg i s) ++ (readResponse cfg i s).r0_fifo := by
  unfold readResponse presentedIn pushedBeat
  cases hf : s.r_fifo with
  | nil =>
    cases hr : i.r_rready with
    | false => simp
    | true =>
      cases h0 : s.r0_fifo with
      | nil => simp
      | cons t ts => simp
  | cons b bs =>
    cases hr : i.r_rready with
    | false => simp
    | true =>
      cases h0 : s.r0_fifo with
      | nil => simp
      | cons t ts => simp

theorem eval_entered (cfg : Config) (m : Mode) (i : Inputs) (s s' : State)
    (h : eval cfg m i s = .ok s') :
    s.r0_fifo ++ enteredIn cfg m i s = presentedIn i s' ++ s'.r0_fifo ∧
    (enteredIn cfg m i s).length = 1 := by
  obtain ⟨s1, s2, h1, h2, h3⟩ := eval_ok cfg m i s s' h
  obtain ⟨q, r', q2, e0⟩ := prePair_shape cfg i s
  obtain ⟨r, tbl, o, f, b, rdy, e1, _⟩ := readRequest_shape cfg m i _ s1 h1
  obtain ⟨r2, b2, qa, qw, qb, e2⟩ := pairWrite_shape cfg _ (writer_ok cfg m) s1 s2 h2
  obtain ⟨v', d', f', e4⟩ := writeResponse_shape i (readResponse cfg i s2)
  have hx := readResponse_entered cfg i s2
  have hr0 : s2.r0_fifo = s.r0_fifo := by rw [e2, e1, e0]
  have he : enteredIn cfg m i s = [pushedBeat cfg s2] := by
    unfold enteredIn
    rw [h1]
    simp only [h2]
  rw [he]
  refine ⟨?_, rfl⟩
  rw [← hr0, hx, h3, e4]
  rfl

theorem presentedIn_length (i : Inputs) (s' : State) (h : i.r_rready = true) :
    (presentedIn i s').length = 1 := by
  unfold presentedIn
  rw [if_pos h]
  rfl

theorem boot_queue_log (cfg : Config) (m : Mode) (evs : List Event) :
    ∀ s0 s : State, allReady evs = true → run cfg m evs s0 = .ok s →
      presentedLog cfg m evs s0 ++ s.r0_fifo = s0.r0_fifo ++ enteredLog cfg m evs s0 ∧
      (presentedLog cfg m evs s0).length = cycleCount evs ∧
      (enteredLog cfg m evs s0).length = cycleCount evs := by
  induction evs with
  | nil =>
    intro s0 s _ h
    injection h with h
    subst h
    exact ⟨by simp [presentedLog, enteredLog], rfl, rfl⟩
  | cons e es ih =>
    intro s0 s hr h
    cases e with
    | cycle i =>
      simp only [allReady, Bool.and_eq_true] at hr
      change (match eval cfg m i s0 with
        | .ok s1 => run cfg m es s1
        | .error f => .error f) = .ok s at h
      unfold presentedLog enteredLog cycleCount
      cases hev : eval cfg m i s0 with
      | error f => rw [hev] at h; cases h
      | ok s1 =>
        rw [hev] at h
        obtain ⟨h1, h2, h3⟩ := ih s1 s hr.2 h
        obtain ⟨e1, e2⟩ := eval_entered cfg m i s0 s1 hev
        simp only
        refine ⟨?_, ?_, ?_⟩
        · rw [List.append_assoc, h1, ← List.append_assoc, ← e1, List.append_assoc]
        · rw [List.length_append, presentedIn_length i s1 hr.1, h2, Nat.add_comm]
        · rw [List.length_append, e2, h3, Nat.add_comm]
    | completion addr data =>
      simp only [allReady] at hr
      change (match inflight_resp cfg addr data s0 with
        | .ok s1 => run cfg m es s1
        | .error f => .error f) = .ok s at h
      unfold presentedLog enteredLog cycleCount
      cases hev : inflight_resp cfg addr data s0 with
      | error f => rw [hev] at h; cases h
      | ok s1 =>
        rw [hev] at h
        obtain ⟨h1, h2, h3⟩ := ih s1 s hr h
        obtain ⟨l', _, e⟩ := inflight_resp_cases cfg addr data s0 s1 hev
        have hr0 : s1.r0_fifo = s0.r0_fifo := by rw [e]
        simp only
        rw [← hr0]
        exact ⟨h1, h2, h3⟩

/-- C25. In every mode, after any sequence of cycles and completions from
construction in which every cycle has `r_rready` asserted, the boot queue
holds exactly `AXI_R_LATENCY` beats; one beat is presented and one enters the
boot queue in each cycle, and the beats presented, followed by those still
queued, are the `AXI_R_LATENCY` constructor sentinels followed by the beats
that entered. So the beat presented in cycle `n + 1 > AXI_R_LATENCY` is the
beat that entered in cycle `n + 1 - AXI_R_LATENCY`. -/
theorem fixed_latency (cfg : Config) (m : Mode) (sram_ : Bool) (maxReq : Nat)
    (evs : List Event) (s : State) (hr : allReady evs = true)
    (h : run cfg m evs (construct cfg sram_ maxReq) = .ok s) :
    s.r0_fifo.length = cfg.AXI_R_LATENCY ∧
    (presentedLog cfg m evs (construct cfg sram_ maxReq)).length = cycleCount evs ∧
    (enteredLog cfg m evs (construct cfg sram_ maxReq)).length = cycleCount evs ∧
    presentedLog cfg m evs (construct cfg sram_ maxReq) ++ s.r0_fifo =
      List.replicate cfg.AXI_R_LATENCY (bootSentinel cfg) ++
        enteredLog cfg m evs (construct cfg sram_ maxReq) ∧
    ∀ n, cfg.AXI_R_LATENCY ≤ n → n < cycleCount evs →
      (presentedLog cfg m evs (construct cfg sram_ maxReq))[n]? =
        (enteredLog cfg m evs (construct cfg sram_ maxReq))[n - cfg.AXI_R_LATENCY]? := by
  obtain ⟨h1, h2, h3⟩ := boot_queue_log cfg m evs (construct cfg sram_ maxReq) s hr h
  have h1' : presentedLog cfg m evs (construct cfg sram_ maxReq) ++ s.r0_fifo =
      List.replicate cfg.AXI_R_LATENCY (bootSentinel cfg) ++
        enteredLog cfg m evs (construct cfg sram_ maxReq) := h1
  have hlen : s.r0_fifo.length = cfg.AXI_R_LATENCY := by
    have := congrArg List.length h1'
    simp only [List.length_append, List.length_replicate] at this
    omega
  refine ⟨hlen, h2, h3, h1', fun n hn hlt => ?_⟩
  have ha : (presentedLog cfg m evs (construct cfg sram_ maxReq) ++ s.r0_fifo)[n]? =
      (presentedLog cfg m evs (construct cfg sram_ maxReq))[n]? :=
    List.getElem?_append_left (by omega)
  have hb : (List.replicate cfg.AXI_R_LATENCY (bootSentinel cfg) ++
      enteredLog cfg m evs (construct cfg sram_ maxReq))[n]? =
      (enteredLog cfg m evs (construct cfg sram_ maxReq))[n - cfg.AXI_R_LATENCY]? := by
    rw [List.getElem?_append_right (by simp; exact hn)]
    simp
  rw [← ha, h1', hb]

theorem fixed_latency_witness :
    ∃ s, run smallConfig Mode.functional readThenIdle (construct smallConfig false 8) = .ok s ∧
      s.r0_fifo.length = 2 ∧
      enteredLog smallConfig Mode.functional readThenIdle (construct smallConfig false 8) =
        [{ rvalid := true, rlast := true, rid := 3, rdata := [0, 0] }, gapSentinel smallConfig,
         bootSentinel smallConfig, bootSentinel smallConfig] ∧
      presentedLog smallConfig Mode.functional readThenIdle (construct smallConfig false 8) =
        [bootSentinel smallConfig, bootSentinel smallConfig,
         { rvalid := true, rlast := true, rid := 3, rdata := [0, 0] }, gapSentinel smallConfig] ∧
      (presentedLog smallConfig Mode.functional readThenIdle
          (construct smallConfig false 8))[2]? =
        (enteredLog smallConfig Mode.functional readThenIdle
          (construct smallConfig false 8))[2 - smallConfig.AXI_R_LATENCY]? :=
  ⟨_, rfl, rfl, rfl, rfl,
    (fixed_latency smallConfig Mode.functional false 8 readThenIdle _ rfl rfl).2.2.2.2 2
      (by decide) (by decide)⟩

/-! ## The write path in the three modes -/

theorem eval_abort_iff (cfg : Config) (m : Mode) (i : Inputs) (s s1 : State)
    (h1 : readRequest cfg m i (prePair cfg i s) = .ok s1) :
    eval cfg m i s = .error Fault.abort ↔ pairMismatch (prePair cfg i s) = true := by
  obtain ⟨ha, hw⟩ := readRequest_queues cfg m i _ s1 h1
  have hc := pairMismatch_congr s1 (prePair cfg i s) ha hw
  rw [eval_eq, h1]
  simp only
  rcases pairWrite_cases cfg (writer cfg m) s1 with ⟨hm, hp⟩ | ⟨hm, s2, hp⟩
  · rw [hp, ← hc, hm]
    simp
  · rw [hp, ← hc, hm]
    simp

theorem and_high_mask (x k : Nat) (hk : k ≤ 64) (hx : x < 2 ^ 64) :
    x &&& (2 ^ 64 - 2 ^ k) = x - x % 2 ^ k := by
  have hm : 2 ^ 64 - 2 ^ k = (2 ^ (64 - k) - 1) <<< k := by
    rw [Nat.shiftLeft_eq, Nat.sub_mul, ← Nat.pow_add, Nat.one_mul]
    congr 2
    omega
  have hxk : x - x % 2 ^ k = (x >>> k) <<< k := by
    rw [Nat.shiftLeft_eq, Nat.shiftRight_eq_div_pow]
    have := Nat.div_add_mod x (2 ^ k)
    rw [Nat.mul_comm] at this
    exact Nat.sub_eq_of_eq_add this.symm
  apply Nat.eq_of_testBit_eq
  intro i
  rw [Nat.testBit_and, hm, hxk, Nat.testBit_shiftLeft, Nat.testBit_shiftLeft,
    Nat.testBit_shiftRight, Nat.testBit_two_pow_sub_one]
  by_cases hik : k ≤ i
  · have e : k + (i - k) = i := by omega
    rw [e]
    by_cases h64 : i < 64
    · have : i - k < 64 - k := by omega
      simp [hik, this]
    · have hlt : x < 2 ^ i :=
        Nat.lt_of_lt_of_le hx (Nat.pow_le_pow_right (by decide) (by omega))
      simp [Nat.testBit_lt_two_pow hlt]
  · simp [hik]

theorem alignMask_eq (cfg : Config) (k : Nat) (hk : cfg.AXI_WIDTH / 8 = 2 ^ k) (h64 : k ≤ 64) :
    alignMask cfg = 2 ^ 64 - 2 ^ k := by
  unfold alignMask BUS_ADDR_BITS
  rw [hk]
  have hpos : 0 < 2 ^ k := by positivity
  have hle : 2 ^ k ≤ 2 ^ 64 := Nat.pow_le_pow_right (by decide) h64
  have hc : (((2 ^ k : Nat) : Int) - 1) = ((2 ^ k - 1 : Nat) : Int) := by
    rw [Nat.cast_sub hpos]
    simp
  rw [hc]
  have hm : (((2 ^ k - 1 : Nat) : Int) % (2 ^ 64 : Int)).toNat = (2 ^ k - 1) % 2 ^ 64 := by
    have : ((2 ^ 64 : Int)) = ((2 ^ 64 : Nat) : Int) := by norm_num
    rw [this, ← Int.natCast_mod, Int.toNat_ofNat]
  rw [hm, Nat.mod_eq_of_lt (by omega)]
  omega

theorem alignMask_wide (cfg : Config) (k : Nat) (hk : cfg.AXI_WIDTH / 8 = 2 ^ k) (h64 : 64 < k) :
    alignMask cfg = 0 := by
  unfold alignMask BUS_ADDR_BITS
  rw [hk]
  have hpos : 0 < 2 ^ k := by positivity
  have hq : 2 ^ k = 2 ^ 64 * 2 ^ (k - 64) := by
    rw [← Nat.pow_add]
    congr 1
    omega
  have hq1 : 0 < 2 ^ (k - 64) := by positivity
  have hc : (((2 ^ k : Nat) : Int) - 1) = ((2 ^ k - 1 : Nat) : Int) := by
    rw [Nat.cast_sub hpos]
    simp
  rw [hc]
  have hm : (((2 ^ k - 1 : Nat) : Int) % (2 ^ 64 : Int)).toNat = (2 ^ k - 1) % 2 ^ 64 := by
    have : ((2 ^ 64 : Int)) = ((2 ^ 64 : Nat) : Int) := by norm_num
    rw [this, ← Int.natCast_mod, Int.toNat_ofNat]
  rw [hm, hq]
  generalize 2 ^ (k - 64) = q at hq1
  omega

theorem alignAddr_eq (cfg : Config) (k x : Nat) (hk : cfg.AXI_WIDTH / 8 = 2 ^ k)
    (hx : x < 2 ^ 64) : alignAddr cfg x = x - x % (cfg.AXI_WIDTH / 8) := by
  unfold alignAddr BUS_ADDR_BITS
  rw [Nat.mod_eq_of_lt hx]
  by_cases h64 : k ≤ 64
  · rw [alignMask_eq cfg k hk h64, hk]
    exact and_high_mask x k h64 hx
  · rw [alignMask_wide cfg k hk (by omega), hk, Nat.and_zero]
    have hlt : x < 2 ^ k :=
      Nat.lt_of_lt_of_le hx (Nat.pow_le_pow_right (by decide) (by omega))
    rw [Nat.mod_eq_of_lt hlt, Nat.sub_self]

theorem burstBeats_head (inc n addr : Nat) : (burstBeats inc n addr).head? = some (n, addr) := by
  cases n <;> rfl

/-- C31. Let the beat size `AXI_WIDTH / 8` be a power of two and `x` a 64-bit
bus address. The address `x & ~(uint64_t)(AXI_WIDTH / 8 - 1)` that the
write-request and read-request blocks take is `x` minus its remainder modulo
the beat size: it is a multiple of the beat size, at most `x`, less than one
beat size below `x`, and equal to `x` when `x` is a multiple of the beat size.
It is the address of the first beat of an accepted read burst, and, for an
address that fits the 32-bit address field, the address stored in the pushed
write request. -/
theorem align_down (cfg : Config) (k x : Nat) (hk : cfg.AXI_WIDTH / 8 = 2 ^ k)
    (hx : x < 2 ^ 64) :
    cfg.AXI_WIDTH / 8 ∣ alignAddr cfg x ∧
    alignAddr cfg x ≤ x ∧
    x - alignAddr cfg x < cfg.AXI_WIDTH / 8 ∧
    (cfg.AXI_WIDTH / 8 ∣ x → alignAddr cfg x = x) ∧
    alignAddr cfg x = x - x % (cfg.AXI_WIDTH / 8) ∧
    (∀ n, (burstBeats (cfg.AXI_WIDTH / 8) n (alignAddr cfg x)).head? =
      some (n, alignAddr cfg x)) ∧
    (∀ (i : Inputs) (s : State), i.aw_awaddr = x → x < 2 ^ 32 →
      (i.aw_awvalid && s.aw_awready) = true →
      (writeRequest cfg i s).aw_fifo = s.aw_fifo ++
        [{ awid := i.aw_awid, awaddr := alignAddr cfg x, awlen := i.aw_awlen }]) := by
  have he := alignAddr_eq cfg k x hk hx
  have hpos : 0 < cfg.AXI_WIDTH / 8 := by rw [hk]; positivity
  have hr := Nat.mod_lt x hpos
  have hle := Nat.mod_le x (cfg.AXI_WIDTH / 8)
  refine ⟨?_, ?_, ?_, fun hd => ?_, he, fun n => burstBeats_head _ n _, fun i s hi h32 hs => ?_⟩
  · rw [he]
    exact Nat.dvd_sub_mod x
  · rw [he]
    exact Nat.sub_le _ _
  · rw [he]
    omega
  · rw [he, Nat.mod_eq_zero_of_dvd hd, Nat.sub_zero]
  · rw [(writeRequest_ready cfg i s).2.1 hs, hi]
    have hlt : alignAddr cfg x < 2 ^ ADDR_BITS := by
      have : alignAddr cfg x ≤ x := by rw [he]; exact Nat.sub_le _ _
      exact Nat.lt_of_le_of_lt this h32
    rw [Nat.mod_eq_of_lt hlt]

theorem align_down_witness :
    smallConfig.AXI_WIDTH / 8 = 2 ^ 3 ∧ alignAddr smallConfig 0x1234567 = 0x1234560 ∧
    alignAddr smallConfig 0x1234560 = 0x1234560 ∧
    smallConfig.AXI_WIDTH / 8 ∣ alignAddr smallConfig 0x1234567 ∧
    0x1234567 - alignAddr smallConfig 0x1234567 < smallConfig.AXI_WIDTH / 8 :=
  have h := align_down smallConfig 3 0x1234567 rfl (by decide)
  ⟨rfl, by decide, by decide, h.1, h.2.2.1⟩

/-! ## Abort and the cycles that do not return -/

theorem eval_abort_mismatch (cfg : Config) (m : Mode) (i : Inputs) (s : State)
    (h : eval cfg m i s = .error Fault.abort) : pairMismatch (prePair cfg i s) = true :=
  ((eval_abort_cases cfg m i s).1.mp h).2

theorem eval_timing_empty_faults (cfg : Config) (i : Inputs) (s : State)
    (hs : (i.ar_arvalid && s.ar_arready) = false) (ho : s.inflight_req_order = []) :
    eval_timing cfg i s = .error Fault.undefined := by
  obtain ⟨q, r, q2, e0⟩ := prePair_shape cfg i s
  have h := readRequest_timing_idle cfg i s hs
  rw [drainHead_empty _ (by rw [e0]; exact ho)] at h
  unfold eval_timing
  unfold prePair at h
  rw [h]

/-- C4. In functional mode the evaluation of a cycle ends in `abort()` if and
only if the write-pairing step finds both write queues non-empty with the head
data beat's `wlast` different from `awlen == 0` of the head address request,
and in every other case the cycle completes. In every mode a cycle aborts only
on such a mismatch, and a cycle whose read-request block returns aborts on the
mismatch and completes without it. But in atomic mode a cycle with a
read-address handshake, for a bus of at least 32 bits, neither aborts nor
completes, whatever the write queues hold: its first beat reads through the
null pointer returned by `read_variable`; and in timing mode neither does a
cycle without read-address handshake on an empty order queue, which takes the
front of that queue. -/
theorem abort_iff_mismatch (cfg : Config) (i : Inputs) (s : State) :
    (eval_ram cfg i s = .error Fault.abort ↔ pairMismatch (prePair cfg i s) = true) ∧
    (pairMismatch (prePair cfg i s) = false → ∃ s', eval_ram cfg i s = .ok s') ∧
    (∀ m, eval cfg m i s = .error Fault.abort → pairMismatch (prePair cfg i s) = true) ∧
    (∀ m s1, readRequest cfg m i (prePair cfg i s) = .ok s1 →
      (eval cfg m i s = .error Fault.abort ↔ pairMismatch (prePair cfg i s) = true) ∧
      (pairMismatch (prePair cfg i s) = false → ∃ s', eval cfg m i s = .ok s')) ∧
    ((i.ar_arvalid && s.ar_arready) = true → 0 < cfg.AXI_WIDTH / 32 →
      eval_atomic cfg i s = .error Fault.undefined) ∧
    ((i.ar_arvalid && s.ar_arready) = false → s.inflight_req_order = [] →
      eval_timing cfg i s = .error Fault.undefined) := by
  obtain ⟨s0, h0⟩ := readRequest_ram_total cfg i (prePair cfg i s)
  refine ⟨eval_abort_iff cfg Mode.functional i s s0 h0,
    fun hm => eval_of_readRequest cfg Mode.functional i s s0 h0 hm,
    fun m h => eval_abort_mismatch cfg m i s h,
    fun m s1 h1 => ⟨eval_abort_iff cfg m i s s1 h1,
      fun hm => eval_of_readRequest cfg m i s s1 h1 hm⟩,
    fun hs hw => eval_atomic_read_faults cfg i s hs hw,
    fun hs ho => eval_timing_empty_faults cfg i s hs ho⟩

theorem abort_iff_mismatch_witness :
    pairMismatch (prePair smallConfig (readInputs 16 3 0) (construct smallConfig false 8)) =
      false ∧
    eval_atomic smallConfig (readInputs 16 3 0) (construct smallConfig false 8) =
      .error Fault.undefined ∧
    pairMismatch (prePair smallConfig shortBurstWrite (construct smallConfig false 8)) = true ∧
    eval_timing smallConfig shortBurstWrite (construct smallConfig false 8) =
      .error Fault.undefined ∧
    eval_ram smallConfig shortBurstWrite (construct smallConfig false 8) = .error Fault.abort :=
  have h := abort_iff_mismatch smallConfig (readInputs 16 3 0) (construct smallConfig false 8)
  ⟨rfl, h.2.2.2.2.1 rfl (by decide), rfl, rfl, rfl⟩

end AXIResponder
